import Mathlib

/-!
# Verification of the OpenClaw Tasks storage and dependency engine

This file gives a shallow embedding, in Lean, of the task-tracking core of
the repository (`src/index.ts`): the `TaskStorage` class (file-backed project
records serialized as pretty-printed JSON) and its task-graph operations
(`addTask`, `updateTaskStatus`, `setBlocker`, `updateTaskNotes`), together
with the JavaScript platform primitives the source relies on (`parseInt`,
`String(number)`, `JSON.stringify(·, null, 2)`, `JSON.parse`).

Theorems at the end settle the frozen claims about the specification.
-/

namespace OpenClawTasks

/-! ## Decimal digits and `String(number)`

`String(maxId + 1)` in `addTask` (src/index.ts:141) converts an integer to
its canonical decimal representation.  We model it with an explicit
digit-list construction. -/

def digitChar (d : Nat) : Char := Char.ofNat (48 + d)

/-- Decimal digits of `n`, least significant first; the fuel argument only
bounds the recursion depth and any value above `n` is enough. -/
def natToRevDigitsAux : Nat → Nat → List Char
  | 0, _ => []
  | fuel + 1, n =>
    if n < 10 then [digitChar n]
    else digitChar (n % 10) :: natToRevDigitsAux fuel (n / 10)

/-- Decimal digits of `n`, least significant first. -/
def natToRevDigits (n : Nat) : List Char := natToRevDigitsAux (n + 1) n

theorem natToRevDigitsAux_irrel : ∀ f1 f2 n, n < f1 → n < f2 →
    natToRevDigitsAux f1 n = natToRevDigitsAux f2 n := by
  intro f1
  induction f1 with
  | zero => intro f2 n h; omega
  | succ f ih =>
    intro f2 n h1 h2
    cases f2 with
    | zero => omega
    | succ f2' =>
      simp only [natToRevDigitsAux]
      by_cases h10 : n < 10
      · simp [h10]
      · have hdiv : n / 10 < n := Nat.div_lt_self (by omega) (by omega)
        simp only [h10, if_false]
        rw [ih f2' (n / 10) (by omega) (by omega)]

/-- One-step unfolding of `natToRevDigits`. -/
theorem natToRevDigits_eq (n : Nat) :
    natToRevDigits n =
      if n < 10 then [digitChar n]
      else digitChar (n % 10) :: natToRevDigits (n / 10) := by
  show natToRevDigitsAux (n + 1) n = _
  simp only [natToRevDigitsAux]
  by_cases h10 : n < 10
  · simp [h10]
  · have hdiv : n / 10 < n := Nat.div_lt_self (by omega) (by omega)
    simp only [h10, if_false]
    rw [natToRevDigitsAux_irrel n (n / 10 + 1) (n / 10) (by omega) (by omega)]
    rfl

/-- Canonical decimal string of a natural number, as produced by
JavaScript `String(n)` for a non-negative integer. -/
def natToString (n : Nat) : String := String.mk (natToRevDigits n).reverse

/-- JavaScript `String(i)` for an integral number value of magnitude at
most `2 ^ 53`: in that range the shortest round-trip decimal of the double
is its exact digit string, so `String` prints plain decimal digits.
(Larger doubles print a shortest round-trip decimal that can differ from
the exact value, and `String` switches to exponential notation from 1e21;
the claims about assigned ids carry an explicit `< 2 ^ 53` guard and
`createTask_ids_cex` exhibits the first divergence.) -/
def intToString (i : Int) : String :=
  if i < 0 then "-" ++ natToString (-i).toNat else natToString i.toNat

/-! ## JavaScript `parseInt`

`addTask` computes `parseInt(t.id) || 0` (src/index.ts:139).  `parseInt`
skips leading whitespace, accepts an optional sign, treats a `0x`/`0X`
prefix as hexadecimal, and otherwise reads the longest prefix of decimal
digits, yielding NaN (modelled as `none`) when there is none.

`jsParseInt` returns the digit string's exact mathematical value; the
source receives that value rounded to a binary64 float.  The rounding — and
the float64 saturation of the subsequent `maxId + 1` — is modelled
separately by `roundFloat`, `parseIdF`, `maxNumericIdF` and `addOneF`
below; the two pipelines provably agree below `2 ^ 53`, and the claims
about assigned ids are scoped to that range with the divergence above it
exhibited as a counterexample. -/

/-- Code points JavaScript treats as StrWhiteSpace (WhiteSpace together with
LineTerminator): TAB LF VT FF CR SP NBSP BOM, the Unicode space separators,
and the line/paragraph separators. -/
def jsSpaceCodes : List Nat :=
  [9, 10, 11, 12, 13, 32, 160, 5760, 8192, 8193, 8194, 8195, 8196, 8197,
   8198, 8199, 8200, 8201, 8202, 8232, 8233, 8239, 8287, 12288, 65279]

def isJsSpace (c : Char) : Bool := jsSpaceCodes.contains c.toNat

def decDigitVal (c : Char) : Option Nat :=
  if 48 ≤ c.toNat ∧ c.toNat ≤ 57 then some (c.toNat - 48) else none

def hexDigitVal (c : Char) : Option Nat :=
  if 48 ≤ c.toNat ∧ c.toNat ≤ 57 then some (c.toNat - 48)
  else if 97 ≤ c.toNat ∧ c.toNat ≤ 102 then some (c.toNat - 87)
  else if 65 ≤ c.toNat ∧ c.toNat ≤ 70 then some (c.toNat - 55)
  else none

/-- Longest prefix of digits (under the given digit reader), with the rest. -/
def takeDigits (isD : Char → Option Nat) : List Char → List Nat × List Char
  | [] => ([], [])
  | c :: cs =>
    match isD c with
    | some d => (d :: (takeDigits isD cs).1, (takeDigits isD cs).2)
    | none => ([], c :: cs)

def digitsToNat (base : Nat) (ds : List Nat) : Nat :=
  ds.foldl (fun a d => base * a + d) 0

/-- Longest decimal-digit prefix as a number; `none` when there is none. -/
def jsParseDec (cs : List Char) : Option Nat :=
  if (takeDigits decDigitVal cs).1.isEmpty then none
  else some (digitsToNat 10 (takeDigits decDigitVal cs).1)

/-- Longest hexadecimal-digit prefix as a number; `none` when there is none. -/
def jsParseHex (cs : List Char) : Option Nat :=
  if (takeDigits hexDigitVal cs).1.isEmpty then none
  else some (digitsToNat 16 (takeDigits hexDigitVal cs).1)

/-- Unsigned part of `parseInt` with unspecified radix: a `0x`/`0X` prefix
selects base 16, otherwise base 10; no digits means NaN (`none`). -/
def jsParseIntMag : List Char → Option Nat
  | c0 :: c1 :: rest =>
    if c0 = '0' ∧ (c1 = 'x' ∨ c1 = 'X') then jsParseHex rest
    else jsParseDec (c0 :: c1 :: rest)
  | cs => jsParseDec cs

def jsParseIntFrom (cs : List Char) : Option Int :=
  match cs.dropWhile isJsSpace with
  | [] => none
  | c :: rest =>
    if c = '-' then (jsParseIntMag rest).map (fun n => -(n : Int))
    else if c = '+' then (jsParseIntMag rest).map (fun n => (n : Int))
    else (jsParseIntMag (c :: rest)).map (fun n => (n : Int))

/-- JavaScript `parseInt(s)` (radix argument omitted); `none` models NaN. -/
def jsParseInt (s : String) : Option Int := jsParseIntFrom s.data

/-- `parseInt(s) || 0` as used in src/index.ts:139: NaN falls back to `0`;
a `±0` result is also falsy but `0` coincides with it in `Int`. -/
def parseIntOr0 (s : String) : Int := (jsParseInt s).getD 0

/-! ### Round-trip: `parseInt(String(n))` recovers `n` -/

theorem toNat_ofNat_of_lt {m : Nat} (h : m < 55296) : (Char.ofNat m).toNat = m := by
  have hv : Nat.isValidChar m := Or.inl h
  simp only [Char.ofNat, hv, dif_pos, Char.ofNatAux, Char.toNat]
  rfl

theorem toNat_digitChar {d : Nat} (h : d < 10) : (digitChar d).toNat = 48 + d :=
  toNat_ofNat_of_lt (by omega)

theorem decDigitVal_digitChar {d : Nat} (h : d < 10) :
    decDigitVal (digitChar d) = some d := by
  have ht := toNat_digitChar h
  simp only [decDigitVal, ht]
  rw [if_pos (by omega)]
  congr 1
  omega

theorem mem_natToRevDigits (n : Nat) :
    ∀ c ∈ natToRevDigits n, ∃ d, d < 10 ∧ c = digitChar d := by
  induction n using Nat.strong_induction_on with
  | _ n ih =>
    rw [natToRevDigits_eq]
    split
    next h =>
      intro c hc
      rw [List.mem_singleton] at hc
      exact ⟨n, h, hc⟩
    next h =>
      intro c hc
      rcases List.mem_cons.mp hc with h1 | h1
      · exact ⟨n % 10, Nat.mod_lt _ (by omega), h1⟩
      · exact ih (n / 10) (Nat.div_lt_self (by omega) (by omega)) c h1

theorem natToRevDigits_ne_nil (n : Nat) : natToRevDigits n ≠ [] := by
  rw [natToRevDigits_eq]
  split <;> simp

theorem digitsToNat_append (b : Nat) (xs : List Nat) (d : Nat) :
    digitsToNat b (xs ++ [d]) = b * digitsToNat b xs + d := by
  simp [digitsToNat, List.foldl_append]

theorem digitsToNat_natToRevDigits (n : Nat) :
    digitsToNat 10 ((natToRevDigits n).reverse.map (fun c => (decDigitVal c).getD 0))
      = n := by
  induction n using Nat.strong_induction_on with
  | _ n ih =>
    rw [natToRevDigits_eq]
    split
    next h =>
      simp [decDigitVal_digitChar h, digitsToNat]
    next h =>
      rw [List.reverse_cons, List.map_append]
      simp only [List.map_cons, List.map_nil]
      rw [digitsToNat_append]
      rw [ih (n / 10) (Nat.div_lt_self (by omega) (by omega))]
      have hmod : (decDigitVal (digitChar (n % 10))).getD 0 = n % 10 := by
        rw [decDigitVal_digitChar (Nat.mod_lt n (by omega))]
        rfl
      rw [hmod]
      omega

theorem takeDigits_all (isD : Char → Option Nat) (cs : List Char)
    (h : ∀ c ∈ cs, (isD c).isSome) :
    takeDigits isD cs = (cs.map (fun c => (isD c).getD 0), []) := by
  induction cs with
  | nil => rfl
  | cons c cs ih =>
    have hc := h c (List.mem_cons_self c cs)
    cases hval : isD c with
    | none => rw [hval] at hc; simp at hc
    | some d =>
      simp [takeDigits, hval, ih (fun x hx => h x (List.mem_cons_of_mem c hx))]

theorem isJsSpace_of_digit {c : Char} (h48 : 48 ≤ c.toNat) (h57 : c.toNat ≤ 57) :
    isJsSpace c = false := by
  simp [isJsSpace, jsSpaceCodes, List.contains_cons]
  omega

theorem jsParseDec_rev_digits (n : Nat) :
    jsParseDec (natToRevDigits n).reverse = some n := by
  have hall : ∀ c ∈ (natToRevDigits n).reverse, (decDigitVal c).isSome := by
    intro c hc
    obtain ⟨d, hd, rfl⟩ := mem_natToRevDigits n c (List.mem_reverse.mp hc)
    simp [decDigitVal_digitChar hd]
  rw [jsParseDec, takeDigits_all _ _ hall]
  rw [if_neg (by simp; exact natToRevDigits_ne_nil n)]
  rw [digitsToNat_natToRevDigits]

theorem jsParseInt_natToString (n : Nat) :
    jsParseInt (natToString n) = some (n : Int) := by
  have hds : (natToString n).data = (natToRevDigits n).reverse := rfl
  obtain ⟨c, tl, hctl⟩ :=
    List.exists_cons_of_ne_nil (by simp [natToRevDigits_ne_nil n] :
      (natToRevDigits n).reverse ≠ [])
  obtain ⟨d, hd, hcd⟩ :=
    mem_natToRevDigits n c (List.mem_reverse.mp (hctl ▸ List.mem_cons_self c tl))
  have hcnat : c.toNat = 48 + d := hcd ▸ toNat_digitChar hd
  have hspace : isJsSpace c = false := isJsSpace_of_digit (by omega) (by omega)
  have hmag : jsParseIntMag (c :: tl) = some n := by
    have hdec : jsParseDec (c :: tl) = some n := hctl ▸ jsParseDec_rev_digits n
    cases tl with
    | nil => exact hdec
    | cons c1 tl' =>
      obtain ⟨d1, hd1, hcd1⟩ := mem_natToRevDigits n c1
        (List.mem_reverse.mp (hctl ▸ List.mem_cons_of_mem c (List.mem_cons_self c1 tl')))
      have hc1nat : c1.toNat = 48 + d1 := hcd1 ▸ toNat_digitChar hd1
      have h120 : ('x').toNat = 120 := rfl
      have h88 : ('X').toNat = 88 := rfl
      have hnotx : ¬ (c = '0' ∧ (c1 = 'x' ∨ c1 = 'X')) := by
        rintro ⟨-, h1 | h1⟩ <;> rw [h1] at hc1nat <;> omega
      rw [jsParseIntMag, if_neg hnotx]
      exact hdec
  rw [jsParseInt, hds, hctl, jsParseIntFrom]
  simp only [List.dropWhile_cons, hspace, Bool.false_eq_true, if_false]
  have h45 : ('-').toNat = 45 := rfl
  have h43 : ('+').toNat = 43 := rfl
  have hneg : c ≠ '-' := by
    intro he; rw [he] at hcnat; omega
  have hplus : c ≠ '+' := by
    intro he; rw [he] at hcnat; omega
  rw [if_neg hneg, if_neg hplus, hmag]
  rfl

theorem parseIntOr0_natToString (n : Nat) : parseIntOr0 (natToString n) = n := by
  rw [parseIntOr0, jsParseInt_natToString]
  rfl

theorem parseIntOr0_intToString_pos {i : Int} (h : 0 < i) :
    parseIntOr0 (intToString i) = i := by
  rw [intToString, if_neg (by omega)]
  rw [parseIntOr0_natToString]
  omega

/-! ## JSON values

JavaScript `JSON.stringify(·, null, 2)` and `JSON.parse` (src/index.ts:89,80)
are modelled by an explicit JSON value type, a pretty-printer with two-space
indentation following the ECMA-262 serialization algorithm, and a
recursive-descent parser for the strict JSON grammar.  Number lexemes are
kept as raw strings: the records this program serializes contain no numbers,
so no floating-point semantics is ever involved. -/

inductive Json where
  | jnull : Json
  | jbool : Bool → Json
  | jnum : String → Json
  | jstr : String → Json
  | jarr : List Json → Json
  | jobj : List (String × Json) → Json

def lbraceChar : Char := Char.ofNat 123

def rbraceChar : Char := Char.ofNat 125

def nspaces (n : Nat) : List Char := List.replicate n ' '

/-- Lowercase hexadecimal digit, as emitted in `\u00XX` escapes. -/
def hexChar (d : Nat) : Char :=
  if d < 10 then Char.ofNat (48 + d) else Char.ofNat (87 + d)

/-- `QuoteJSONString` escaping of one character: quote, backslash and the
named control escapes get two-character escapes, the remaining control
characters get `\u00XX`, everything else is emitted literally.  (Lone UTF-16
surrogates cannot occur: Lean characters are Unicode scalar values.) -/
def escChar (c : Char) : List Char :=
  if c = '"' then ['\\', '"']
  else if c = '\\' then ['\\', '\\']
  else if c.toNat = 8 then ['\\', 'b']
  else if c.toNat = 9 then ['\\', 't']
  else if c.toNat = 10 then ['\\', 'n']
  else if c.toNat = 12 then ['\\', 'f']
  else if c.toNat = 13 then ['\\', 'r']
  else if c.toNat < 32 then
    ['\\', 'u', '0', '0', hexChar (c.toNat / 16), hexChar (c.toNat % 16)]
  else [c]

def escapeChars : List Char → List Char
  | [] => []
  | c :: cs => escChar c ++ escapeChars cs

def renderString (s : String) : List Char := '"' :: (escapeChars s.data ++ ['"'])

mutual

/-- `JSON.stringify(v, null, 2)` at nesting level `lvl` (the level only
determines the indentation of nested lines). -/
def renderJson (lvl : Nat) : Json → List Char
  | .jnull => "null".data
  | .jbool true => "true".data
  | .jbool false => "false".data
  | .jnum lex => lex.data
  | .jstr s => renderString s
  | .jarr [] => ['[', ']']
  | .jarr (v :: vs) =>
    '[' :: '\n' :: (renderItems (lvl + 1) v vs ++ '\n' :: (nspaces (2 * lvl) ++ [']']))
  | .jobj [] => [lbraceChar, rbraceChar]
  | .jobj ((k, v) :: kvs) =>
    lbraceChar :: '\n' ::
      (renderMembers (lvl + 1) k v kvs ++ '\n' :: (nspaces (2 * lvl) ++ [rbraceChar]))
termination_by j => sizeOf j

def renderItems (lvl : Nat) (v : Json) : List Json → List Char
  | [] => nspaces (2 * lvl) ++ renderJson lvl v
  | w :: ws =>
    nspaces (2 * lvl) ++ (renderJson lvl v ++ ',' :: '\n' :: renderItems lvl w ws)
termination_by l => 1 + sizeOf v + sizeOf l

def renderMembers (lvl : Nat) (k : String) (v : Json) : List (String × Json) → List Char
  | [] => nspaces (2 * lvl) ++ (renderString k ++ ':' :: ' ' :: renderJson lvl v)
  | (k2, v2) :: ms =>
    nspaces (2 * lvl) ++
      (renderString k ++ ':' :: ' ' ::
        (renderJson lvl v ++ ',' :: '\n' :: renderMembers lvl k2 v2 ms))
termination_by l => 1 + sizeOf v + sizeOf l

end

/-! ### The strict JSON parser (`JSON.parse`) -/

def isJsonWs (c : Char) : Bool := c = ' ' || c = '\t' || c = '\n' || c = '\r'

def skipWs (cs : List Char) : List Char := cs.dropWhile isJsonWs

def isDecDigit (c : Char) : Bool := 48 ≤ c.toNat && c.toNat ≤ 57

/-- Value of a two-character string escape. -/
def escVal (e : Char) : Option Char :=
  if e = '"' then some '"'
  else if e = '\\' then some '\\'
  else if e = '/' then some '/'
  else if e = 'b' then some (Char.ofNat 8)
  else if e = 'f' then some (Char.ofNat 12)
  else if e = 'n' then some (Char.ofNat 10)
  else if e = 'r' then some (Char.ofNat 13)
  else if e = 't' then some (Char.ofNat 9)
  else none

/-- Value of a `\uXXXX` quadruple of hexadecimal digits. -/
def hex4Val (h1 h2 h3 h4 : Char) : Option Nat :=
  match hexDigitVal h1, hexDigitVal h2, hexDigitVal h3, hexDigitVal h4 with
  | some a, some b, some c, some d => some (4096 * a + 256 * b + 16 * c + d)
  | _, _, _, _ => none

/-- Decoding of one escape sequence, after the backslash.  A `\\uXXXX`
escape denoting a high surrogate followed by an escaped low surrogate
combines into one scalar value.  `JSON.parse` also accepts a lone surrogate
escape, producing an unpaired UTF-16 code unit; that code unit has no
counterpart among Lean's scalar values, so it is embedded as U+FFFD — the
accept/reject behaviour of the parser is exact, only the decoded value of
such (unserializable) strings is approximated.  A malformed `\u` escape is
a syntax error, as in `JSON.parse`. -/
def parseEscape : List Char → Option (Char × List Char)
  | 'u' :: h1 :: h2 :: h3 :: h4 :: rest =>
    (match hex4Val h1 h2 h3 h4 with
     | some cp =>
       if 55296 ≤ cp ∧ cp < 56320 then
         match rest with
         | '\\' :: 'u' :: g1 :: g2 :: g3 :: g4 :: rest2 =>
           (match hex4Val g1 g2 g3 g4 with
            | some lo =>
              if 56320 ≤ lo ∧ lo < 57344 then
                some (Char.ofNat (65536 + 1024 * (cp - 55296) + (lo - 56320)), rest2)
              else some (Char.ofNat 65533, '\\' :: 'u' :: g1 :: g2 :: g3 :: g4 :: rest2)
            | none => some (Char.ofNat 65533, '\\' :: 'u' :: g1 :: g2 :: g3 :: g4 :: rest2))
         | _ => some (Char.ofNat 65533, rest)
       else if 56320 ≤ cp ∧ cp < 57344 then some (Char.ofNat 65533, rest)
       else some (Char.ofNat cp, rest)
     | none => none)
  | e :: rest =>
    (match escVal e with
     | some c => some (c, rest)
     | none => none)
  | [] => none

/-- Body of a JSON string after the opening quote, up to and beyond the
closing quote.  The fuel only bounds the recursion; one unit per produced
character is enough. -/
def parseStrChars : Nat → List Char → Option (List Char × List Char)
  | 0, _ => none
  | fuel + 1, cs =>
    match cs with
    | [] => none
    | c :: rest =>
      if c = '"' then some ([], rest)
      else if c = '\\' then
        match parseEscape rest with
        | some (c2, rest2) => (fun p => (c2 :: p.1, p.2)) <$> parseStrChars fuel rest2
        | none => none
      else if c.toNat < 32 then none
      else (fun p => (c :: p.1, p.2)) <$> parseStrChars fuel rest

/-- Body of a JSON string, with enough fuel for its own length. -/
def parseString (cs : List Char) : Option (List Char × List Char) :=
  parseStrChars (cs.length + 1) cs

/-- Exponent part of a JSON number (optional). -/
def lexExp (acc : List Char) (cs : List Char) : Option (List Char × List Char) :=
  match cs with
  | e :: r =>
    if e = 'e' ∨ e = 'E' then
      match r with
      | s :: r2 =>
        if s = '+' ∨ s = '-' then
          (fun ds => if ds.isEmpty then none
            else some (acc ++ e :: s :: ds, r2.dropWhile isDecDigit))
            (r2.takeWhile isDecDigit)
        else
          (fun ds => if ds.isEmpty then none
            else some (acc ++ e :: ds, r.dropWhile isDecDigit))
            (r.takeWhile isDecDigit)
      | [] => none
    else some (acc, cs)
  | [] => some (acc, [])

/-- Fractional part of a JSON number (optional), then the exponent. -/
def lexFrac (acc : List Char) (cs : List Char) : Option (List Char × List Char) :=
  match cs with
  | '.' :: r =>
    (fun ds => if ds.isEmpty then none
      else lexExp (acc ++ '.' :: ds) (r.dropWhile isDecDigit))
      (r.takeWhile isDecDigit)
  | _ => lexExp acc cs

/-- Lexeme of a JSON number: `-? (0 | [1-9][0-9]*) frac? exp?`. -/
def lexNumber (cs : List Char) : Option (List Char × List Char) :=
  (fun p =>
    match p.2 with
    | '0' :: r => lexFrac (p.1 ++ ['0']) r
    | c :: r =>
      if isDecDigit c then
        lexFrac (p.1 ++ c :: r.takeWhile isDecDigit) (r.dropWhile isDecDigit)
      else none
    | [] => none)
    (match cs with
     | '-' :: r => ((['-'] : List Char), r)
     | _ => (([] : List Char), cs))

/-- Elements of an array after the first one: `, value`* then `]`. -/
def parseItemsTail (pv : List Char → Option (Json × List Char)) :
    Nat → List Json → List Char → Option (List Json × List Char)
  | 0, _, _ => none
  | fuel + 1, acc, cs =>
    match skipWs cs with
    | [] => none
    | c :: r =>
      if c = ',' then
        match pv r with
        | some (v, r2) => parseItemsTail pv fuel (acc ++ [v]) r2
        | none => none
      else if c = ']' then some (acc, r)
      else none

/-- One `"key": value` member. -/
def parseMember (pv : List Char → Option (Json × List Char)) (cs : List Char) :
    Option ((String × Json) × List Char) :=
  match skipWs cs with
  | [] => none
  | c :: r =>
    if c = '"' then
      match parseString r with
      | some (k, r2) =>
        (match skipWs r2 with
         | c3 :: r3 =>
           if c3 = ':' then
             match pv r3 with
             | some (v, r4) => some ((String.mk k, v), r4)
             | none => none
           else none
         | [] => none)
      | none => none
    else none

/-- Members of an object after the first one. -/
def parseMembersTail (pv : List Char → Option (Json × List Char)) :
    Nat → List (String × Json) → List Char → Option (List (String × Json) × List Char)
  | 0, _, _ => none
  | fuel + 1, acc, cs =>
    match skipWs cs with
    | [] => none
    | c :: r =>
      if c = ',' then
        match parseMember pv r with
        | some (kv, r2) => parseMembersTail pv fuel (acc ++ [kv]) r2
        | none => none
      else if c = rbraceChar then some (acc, r)
      else none

/-- One JSON value, fuelled; leading whitespace is skipped. -/
def parseVal : Nat → List Char → Option (Json × List Char)
  | 0, _ => none
  | fuel + 1, cs =>
    match skipWs cs with
    | [] => none
    | c :: rest =>
      if c = '"' then
        match parseString rest with
        | some (s, r) => some (.jstr (String.mk s), r)
        | none => none
      else if c = '[' then
        match skipWs rest with
        | [] => none
        | c2 :: r =>
          if c2 = ']' then some (.jarr [], r)
          else
            match parseVal fuel (c2 :: r) with
            | some (v, r1) =>
              match parseItemsTail (parseVal fuel) fuel [v] r1 with
              | some (vs, r2) => some (.jarr vs, r2)
              | none => none
            | none => none
      else if c = lbraceChar then
        match skipWs rest with
        | c2 :: r =>
          if c2 = rbraceChar then some (.jobj [], r)
          else
            match parseMember (parseVal fuel) (c2 :: r) with
            | some (kv, r1) =>
              match parseMembersTail (parseVal fuel) fuel [kv] r1 with
              | some (kvs, r2) => some (.jobj kvs, r2)
              | none => none
            | none => none
        | [] => none
      else if c = 't' then
        match rest with
        | 'r' :: 'u' :: 'e' :: r => some (.jbool true, r)
        | _ => none
      else if c = 'f' then
        match rest with
        | 'a' :: 'l' :: 's' :: 'e' :: r => some (.jbool false, r)
        | _ => none
      else if c = 'n' then
        match rest with
        | 'u' :: 'l' :: 'l' :: r => some (.jnull, r)
        | _ => none
      else if c = '-' ∨ isDecDigit c then
        match lexNumber (c :: rest) with
        | some (lex, r) => some (.jnum (String.mk lex), r)
        | none => none
      else none

/-- `JSON.parse(s)`: one value, with only whitespace around it; `none`
models the thrown `SyntaxError`. -/
def jsonParse (s : String) : Option Json :=
  match parseVal (s.data.length + 1) s.data with
  | some (v, rest) => if (skipWs rest).isEmpty then some v else none
  | none => none

/-! ### Round-trip: parsing a rendered value

The records this program writes contain no number literals, so the
round-trip theorem is proved for number-free JSON values. -/

/-- The value contains no number literal. -/
inductive NumFree : Json → Prop
  | jnull : NumFree .jnull
  | jbool (b : Bool) : NumFree (.jbool b)
  | jstr (s : String) : NumFree (.jstr s)
  | jarr (l : List Json) (h : ∀ v ∈ l, NumFree v) : NumFree (.jarr l)
  | jobj (l : List (String × Json)) (h : ∀ kv ∈ l, NumFree kv.2) : NumFree (.jobj l)

mutual

/-- Fuel sufficient for `parseVal` to parse a rendering of the value. -/
def jsonFuel : Json → Nat
  | .jnull => 1
  | .jbool _ => 1
  | .jnum _ => 1
  | .jstr _ => 1
  | .jarr l => 1 + l.length + jsonFuelList l
  | .jobj l => 1 + l.length + jsonFuelMems l
termination_by j => sizeOf j

def jsonFuelList : List Json → Nat
  | [] => 0
  | v :: vs => jsonFuel v + jsonFuelList vs
termination_by l => sizeOf l

def jsonFuelMems : List (String × Json) → Nat
  | [] => 0
  | (_, v) :: ms => jsonFuel v + jsonFuelMems ms
termination_by l => sizeOf l

end

/-- Rendering of an item sequence after its first element. -/
def itemsTailR (lvl : Nat) : List Json → List Char
  | [] => []
  | w :: ws => ',' :: '\n' :: (nspaces (2 * lvl) ++ (renderJson lvl w ++ itemsTailR lvl ws))

/-- Rendering of a member sequence after its first member. -/
def membersTailR (lvl : Nat) : List (String × Json) → List Char
  | [] => []
  | (k, v) :: ms =>
    ',' :: '\n' ::
      (nspaces (2 * lvl) ++
        (renderString k ++ ':' :: ' ' :: (renderJson lvl v ++ membersTailR lvl ms)))

theorem renderItems_eq (lvl : Nat) (vs : List Json) : ∀ v,
    renderItems lvl v vs = nspaces (2 * lvl) ++ (renderJson lvl v ++ itemsTailR lvl vs) := by
  induction vs with
  | nil => intro v; simp [renderItems, itemsTailR]
  | cons w ws ih => intro v; simp [renderItems, itemsTailR, ih w]

theorem renderMembers_eq (lvl : Nat) (ms : List (String × Json)) : ∀ k v,
    renderMembers lvl k v ms =
      nspaces (2 * lvl) ++
        (renderString k ++ ':' :: ' ' :: (renderJson lvl v ++ membersTailR lvl ms)) := by
  induction ms with
  | nil => intro k v; simp [renderMembers, membersTailR]
  | cons m ms ih =>
    obtain ⟨k2, v2⟩ := m
    intro k v
    simp [renderMembers, membersTailR, ih k2 v2]

theorem jsonFuel_pos (v : Json) : 1 ≤ jsonFuel v := by
  cases v <;> simp [jsonFuel] <;> omega

theorem jsonFuelList_mem {w : Json} {l : List Json} (h : w ∈ l) :
    jsonFuel w ≤ jsonFuelList l := by
  induction l with
  | nil => cases h
  | cons v vs ih =>
    rcases List.mem_cons.mp h with rfl | h2
    · simp [jsonFuelList]
    · have := ih h2
      simp [jsonFuelList]
      omega

theorem jsonFuelMems_mem {m : String × Json} {l : List (String × Json)} (h : m ∈ l) :
    jsonFuel m.2 ≤ jsonFuelMems l := by
  induction l with
  | nil => cases h
  | cons kv ms ih =>
    obtain ⟨k, v⟩ := kv
    rcases List.mem_cons.mp h with rfl | h2
    · simp [jsonFuelMems]
    · have := ih h2
      simp [jsonFuelMems]
      omega

theorem char_eq_of_toNat_eq {a b : Char} (h : a.toNat = b.toNat) : a = b := by
  rw [← Char.ofNat_toNat a, ← Char.ofNat_toNat b, h]

theorem hexDigitVal_hexChar {d : Nat} (h : d < 16) : hexDigitVal (hexChar d) = some d := by
  by_cases h10 : d < 10
  · have ht : (hexChar d).toNat = 48 + d := by
      rw [hexChar, if_pos h10]; exact toNat_ofNat_of_lt (by omega)
    simp only [hexDigitVal, ht]
    rw [if_pos (by omega)]
    congr 1; omega
  · have ht : (hexChar d).toNat = 87 + d := by
      rw [hexChar, if_neg h10]; exact toNat_ofNat_of_lt (by omega)
    simp only [hexDigitVal, ht]
    rw [if_neg (by omega), if_pos (by omega)]
    congr 1; omega

theorem parseStrChars_succ (f : Nat) (c : Char) (X : List Char) :
    parseStrChars (f + 1) (c :: X) =
      if c = '"' then some ([], X)
      else if c = '\\' then
        match parseEscape X with
        | some (c2, rest2) => (fun p => (c2 :: p.1, p.2)) <$> parseStrChars f rest2
        | none => none
      else if c.toNat < 32 then none
      else (fun p => (c :: p.1, p.2)) <$> parseStrChars f X := rfl

theorem parseEscape_quote (X : List Char) : parseEscape ('"' :: X) = some ('"', X) := rfl

theorem parseEscape_bslash (X : List Char) :
    parseEscape ('\\' :: X) = some ('\\', X) := rfl

theorem parseEscape_b (X : List Char) : parseEscape ('b' :: X) = some (Char.ofNat 8, X) := rfl

theorem parseEscape_t (X : List Char) : parseEscape ('t' :: X) = some (Char.ofNat 9, X) := rfl

theorem parseEscape_n (X : List Char) : parseEscape ('n' :: X) = some (Char.ofNat 10, X) := rfl

theorem parseEscape_f (X : List Char) : parseEscape ('f' :: X) = some (Char.ofNat 12, X) := rfl

theorem parseEscape_r (X : List Char) : parseEscape ('r' :: X) = some (Char.ofNat 13, X) := rfl

theorem parseStrChars_backslash (f : Nat) (Y : List Char) (c2 : Char) (X : List Char)
    (hesc : parseEscape Y = some (c2, X)) :
    parseStrChars (f + 1) ('\\' :: Y) =
      (fun p => (c2 :: p.1, p.2)) <$> parseStrChars f X := by
  rw [parseStrChars_succ, if_neg (by decide), if_pos rfl, hesc]

theorem hex4Val_00 {h3 h4 : Nat} (ha : h3 < 16) (hb : h4 < 16) :
    hex4Val '0' '0' (hexChar h3) (hexChar h4) = some (16 * h3 + h4) := by
  have hv0 : hexDigitVal '0' = some 0 := rfl
  simp only [hex4Val, hv0, hexDigitVal_hexChar ha, hexDigitVal_hexChar hb]
  congr 1
  omega

theorem parseEscape_u00 {h3 h4 : Nat} (ha : h3 < 16) (hb : h4 < 16)
    (hcp : 16 * h3 + h4 < 55296) (X : List Char) :
    parseEscape ('u' :: '0' :: '0' :: hexChar h3 :: hexChar h4 :: X) =
      some (Char.ofNat (16 * h3 + h4), X) := by
  simp only [parseEscape, hex4Val_00 ha hb]
  rw [if_neg (by omega), if_neg (by omega)]

theorem parseStrChars_escape (s : List Char) : ∀ fuel rest, s.length < fuel →
    parseStrChars fuel (escapeChars s ++ '"' :: rest) = some (s, rest) := by
  induction s with
  | nil =>
    intro fuel rest h
    cases fuel with
    | zero => simp at h
    | succ f => rfl
  | cons c cs ih =>
    intro fuel rest h
    cases fuel with
    | zero => simp at h
    | succ f =>
      have hf : cs.length < f := by
        simp only [List.length_cons] at h
        omega
      show parseStrChars (f + 1) ((escChar c ++ escapeChars cs) ++ '"' :: rest) = _
      rw [List.append_assoc]
      by_cases h1 : c = '"'
      · subst h1
        rw [show escChar '"' = ['\\', '"'] from rfl]
        simp only [List.cons_append, List.nil_append]
        rw [parseStrChars_backslash f _ _ _ (parseEscape_quote _), ih f rest hf]
        rfl
      · by_cases h2 : c = '\\'
        · subst h2
          rw [show escChar '\\' = ['\\', '\\'] from rfl]
          simp only [List.cons_append, List.nil_append]
          rw [parseStrChars_backslash f _ _ _ (parseEscape_bslash _), ih f rest hf]
          rfl
        · by_cases h8 : c.toNat = 8
          · have hc : c = Char.ofNat 8 := char_eq_of_toNat_eq (by rw [h8]; rfl)
            rw [show escChar c = ['\\', 'b'] by
              rw [escChar, if_neg h1, if_neg h2, if_pos h8]]
            simp only [List.cons_append, List.nil_append]
            rw [parseStrChars_backslash f _ _ _ (parseEscape_b _), ih f rest hf, hc]
            rfl
          · by_cases h9 : c.toNat = 9
            · have hc : c = Char.ofNat 9 := char_eq_of_toNat_eq (by rw [h9]; rfl)
              rw [show escChar c = ['\\', 't'] by
                rw [escChar, if_neg h1, if_neg h2, if_neg h8, if_pos h9]]
              simp only [List.cons_append, List.nil_append]
              rw [parseStrChars_backslash f _ _ _ (parseEscape_t _), ih f rest hf, hc]
              rfl
            · by_cases h10 : c.toNat = 10
              · have hc : c = Char.ofNat 10 := char_eq_of_toNat_eq (by rw [h10]; rfl)
                rw [show escChar c = ['\\', 'n'] by
                  rw [escChar, if_neg h1, if_neg h2, if_neg h8, if_neg h9, if_pos h10]]
                simp only [List.cons_append, List.nil_append]
                rw [parseStrChars_backslash f _ _ _ (parseEscape_n _), ih f rest hf, hc]
                rfl
              · by_cases h12 : c.toNat = 12
                · have hc : c = Char.ofNat 12 := char_eq_of_toNat_eq (by rw [h12]; rfl)
                  rw [show escChar c = ['\\', 'f'] by
                    rw [escChar, if_neg h1, if_neg h2, if_neg h8, if_neg h9, if_neg h10,
                      if_pos h12]]
                  simp only [List.cons_append, List.nil_append]
                  rw [parseStrChars_backslash f _ _ _ (parseEscape_f _), ih f rest hf, hc]
                  rfl
                · by_cases h13 : c.toNat = 13
                  · have hc : c = Char.ofNat 13 := char_eq_of_toNat_eq (by rw [h13]; rfl)
                    rw [show escChar c = ['\\', 'r'] by
                      rw [escChar, if_neg h1, if_neg h2, if_neg h8, if_neg h9, if_neg h10,
                        if_neg h12, if_pos h13]]
                    simp only [List.cons_append, List.nil_append]
                    rw [parseStrChars_backslash f _ _ _ (parseEscape_r _), ih f rest hf, hc]
                    rfl
                  · by_cases h32 : c.toNat < 32
                    · rw [show escChar c =
                          ['\\', 'u', '0', '0', hexChar (c.toNat / 16), hexChar (c.toNat % 16)] by
                        rw [escChar, if_neg h1, if_neg h2, if_neg h8, if_neg h9, if_neg h10,
                          if_neg h12, if_neg h13, if_pos h32]]
                      simp only [List.cons_append, List.nil_append]
                      rw [parseStrChars_backslash f _ _ _
                        (parseEscape_u00 (by omega) (by omega) (by omega) _)]
                      rw [ih f rest hf]
                      have hcn : 16 * (c.toNat / 16) + c.toNat % 16 = c.toNat := by omega
                      rw [hcn, Char.ofNat_toNat]
                      rfl
                    · rw [show escChar c = [c] by
                        rw [escChar, if_neg h1, if_neg h2, if_neg h8, if_neg h9, if_neg h10,
                          if_neg h12, if_neg h13, if_neg h32]]
                      simp only [List.cons_append, List.nil_append]
                      rw [parseStrChars_succ, if_neg h1, if_neg h2, if_neg (by omega),
                        ih f rest hf]
                      rfl

theorem escapeChars_length (s : List Char) : s.length ≤ (escapeChars s).length := by
  induction s with
  | nil => simp [escapeChars]
  | cons c cs ih =>
    have h1 : 1 ≤ (escChar c).length := by
      rw [escChar]
      split_ifs <;> simp
    simp only [escapeChars, List.length_append, List.length_cons]
    omega

/-- `parseString` on an escaped body: the self-length fuel is enough. -/
theorem parseString_escape (s : List Char) (rest : List Char) :
    parseString (escapeChars s ++ '"' :: rest) = some (s, rest) := by
  have hlen := escapeChars_length s
  apply parseStrChars_escape
  simp only [List.length_append, List.length_cons]
  omega

/-! ### Whitespace and one-step unfolding of the value parser -/

theorem skipWs_append (ws cs : List Char) (h : ∀ c ∈ ws, isJsonWs c = true) :
    skipWs (ws ++ cs) = skipWs cs := by
  induction ws with
  | nil => rfl
  | cons c ws' ih =>
    have hc : isJsonWs c = true := h c (List.mem_cons_self c ws')
    simp only [List.cons_append, skipWs, List.dropWhile_cons, hc, if_true]
    exact ih (fun x hx => h x (List.mem_cons_of_mem c hx))

theorem skipWs_cons_not {c : Char} (h : isJsonWs c = false) (cs : List Char) :
    skipWs (c :: cs) = c :: cs := by
  simp only [skipWs, List.dropWhile_cons, h]
  simp

theorem allWs_nspaces (k : Nat) : ∀ c ∈ nspaces k, isJsonWs c = true := by
  intro c hc
  rw [nspaces] at hc
  rw [List.eq_of_mem_replicate hc]
  rfl

theorem allWs_nl_nspaces (k : Nat) : ∀ c ∈ '\n' :: nspaces k, isJsonWs c = true := by
  intro c hc
  rcases List.mem_cons.mp hc with rfl | hc2
  · rfl
  · exact allWs_nspaces k c hc2

/-- One-step unfolding of `parseVal` after the initial whitespace skip. -/
def parseValAfterWs (fuel : Nat) : List Char → Option (Json × List Char)
  | [] => none
  | c :: rest =>
    if c = '"' then
      match parseString rest with
      | some (s, r) => some (.jstr (String.mk s), r)
      | none => none
    else if c = '[' then
      match skipWs rest with
      | [] => none
      | c2 :: r =>
        if c2 = ']' then some (.jarr [], r)
        else
          match parseVal fuel (c2 :: r) with
          | some (v, r1) =>
            match parseItemsTail (parseVal fuel) fuel [v] r1 with
            | some (vs, r2) => some (.jarr vs, r2)
            | none => none
          | none => none
    else if c = lbraceChar then
      match skipWs rest with
      | c2 :: r =>
        if c2 = rbraceChar then some (.jobj [], r)
        else
          match parseMember (parseVal fuel) (c2 :: r) with
          | some (kv, r1) =>
            match parseMembersTail (parseVal fuel) fuel [kv] r1 with
            | some (kvs, r2) => some (.jobj kvs, r2)
            | none => none
          | none => none
      | [] => none
    else if c = 't' then
      match rest with
      | 'r' :: 'u' :: 'e' :: r => some (.jbool true, r)
      | _ => none
    else if c = 'f' then
      match rest with
      | 'a' :: 'l' :: 's' :: 'e' :: r => some (.jbool false, r)
      | _ => none
    else if c = 'n' then
      match rest with
      | 'u' :: 'l' :: 'l' :: r => some (.jnull, r)
      | _ => none
    else if c = '-' ∨ isDecDigit c then
      match lexNumber (c :: rest) with
      | some (lex, r) => some (.jnum (String.mk lex), r)
      | none => none
    else none

theorem parseVal_succ (fuel : Nat) (cs : List Char) :
    parseVal (fuel + 1) cs = parseValAfterWs fuel (skipWs cs) := rfl

theorem parseVal_ws (n : Nat) (ws cs : List Char) (h : ∀ c ∈ ws, isJsonWs c = true) :
    parseVal n (ws ++ cs) = parseVal n cs := by
  cases n with
  | zero => rfl
  | succ f => rw [parseVal_succ, parseVal_succ, skipWs_append ws cs h]

theorem parseItemsTail_succ (pv : List Char → Option (Json × List Char)) (f : Nat)
    (acc : List Json) (cs : List Char) :
    parseItemsTail pv (f + 1) acc cs =
      (match skipWs cs with
       | [] => none
       | c :: r =>
         if c = ',' then
           match pv r with
           | some (v, r2) => parseItemsTail pv f (acc ++ [v]) r2
           | none => none
         else if c = ']' then some (acc, r)
         else none) := rfl

theorem parseItemsTail_ws (pv : List Char → Option (Json × List Char)) (f : Nat)
    (acc : List Json) (ws cs : List Char) (h : ∀ c ∈ ws, isJsonWs c = true) :
    parseItemsTail pv (f + 1) acc (ws ++ cs) = parseItemsTail pv (f + 1) acc cs := by
  rw [parseItemsTail_succ, parseItemsTail_succ, skipWs_append ws cs h]

theorem parseItemsTail_comma (pv : List Char → Option (Json × List Char)) (f : Nat)
    (acc : List Json) (r : List Char) :
    parseItemsTail pv (f + 1) acc (',' :: r) =
      (match pv r with
       | some (v, r2) => parseItemsTail pv f (acc ++ [v]) r2
       | none => none) := rfl

theorem parseItemsTail_close (pv : List Char → Option (Json × List Char)) (f : Nat)
    (acc : List Json) (r : List Char) :
    parseItemsTail pv (f + 1) acc (']' :: r) = some (acc, r) := rfl

theorem parseMembersTail_succ (pv : List Char → Option (Json × List Char)) (f : Nat)
    (acc : List (String × Json)) (cs : List Char) :
    parseMembersTail pv (f + 1) acc cs =
      (match skipWs cs with
       | [] => none
       | c :: r =>
         if c = ',' then
           match parseMember pv r with
           | some (kv, r2) => parseMembersTail pv f (acc ++ [kv]) r2
           | none => none
         else if c = rbraceChar then some (acc, r)
         else none) := rfl

theorem parseMembersTail_ws (pv : List Char → Option (Json × List Char)) (f : Nat)
    (acc : List (String × Json)) (ws cs : List Char) (h : ∀ c ∈ ws, isJsonWs c = true) :
    parseMembersTail pv (f + 1) acc (ws ++ cs) = parseMembersTail pv (f + 1) acc cs := by
  rw [parseMembersTail_succ, parseMembersTail_succ, skipWs_append ws cs h]

theorem parseMembersTail_comma (pv : List Char → Option (Json × List Char)) (f : Nat)
    (acc : List (String × Json)) (r : List Char) :
    parseMembersTail pv (f + 1) acc (',' :: r) =
      (match parseMember pv r with
       | some (kv, r2) => parseMembersTail pv f (acc ++ [kv]) r2
       | none => none) := rfl

theorem parseMembersTail_close (pv : List Char → Option (Json × List Char)) (f : Nat)
    (acc : List (String × Json)) (r : List Char) :
    parseMembersTail pv (f + 1) acc (rbraceChar :: r) = some (acc, r) := rfl

/-- The first character of a rendered number-free value: never whitespace and
never a closing token. -/
theorem renderJson_head (lvl : Nat) (v : Json) (h : NumFree v) :
    ∃ c cs, renderJson lvl v = c :: cs ∧ isJsonWs c = false ∧ c ≠ ']' ∧ c ≠ rbraceChar := by
  cases h with
  | jnull =>
    refine ⟨'n', ['u', 'l', 'l'], ?_, by decide, by decide, by decide⟩
    rw [renderJson]
  | jbool b =>
    cases b with
    | true =>
      refine ⟨'t', ['r', 'u', 'e'], ?_, by decide, by decide, by decide⟩
      rw [renderJson]
    | false =>
      refine ⟨'f', ['a', 'l', 's', 'e'], ?_, by decide, by decide, by decide⟩
      rw [renderJson]
  | jstr s =>
    refine ⟨'"', escapeChars s.data ++ ['"'], ?_, by decide, by decide, by decide⟩
    rw [renderJson, renderString]
  | jarr l hmem =>
    cases l with
    | nil =>
      refine ⟨'[', [']'], ?_, by decide, by decide, by decide⟩
      rw [renderJson]
    | cons v vs =>
      refine ⟨'[', '\n' :: (renderItems (lvl + 1) v vs ++ '\n' :: (nspaces (2 * lvl) ++ [']'])),
        ?_, by decide, by decide, by decide⟩
      rw [renderJson]
  | jobj l hmem =>
    cases l with
    | nil =>
      refine ⟨lbraceChar, [rbraceChar], ?_, by decide, by decide, by decide⟩
      rw [renderJson]
    | cons kv ms =>
      obtain ⟨k, v⟩ := kv
      refine ⟨lbraceChar,
        '\n' :: (renderMembers (lvl + 1) k v ms ++ '\n' :: (nspaces (2 * lvl) ++ [rbraceChar])),
        ?_, by decide, by decide, by decide⟩
      rw [renderJson]

theorem parseItemsTail_render (m lvl k : Nat) :
    ∀ (vs : List Json) (fuel : Nat) (acc : List Json) (rest : List Char),
      vs.length < fuel →
      (∀ w ∈ vs, ∀ r2 : List Char, parseVal m (renderJson lvl w ++ r2) = some (w, r2)) →
      parseItemsTail (parseVal m) fuel acc
          (itemsTailR lvl vs ++ '\n' :: (nspaces k ++ (']' :: rest))) =
        some (acc ++ vs, rest) := by
  intro vs
  induction vs with
  | nil =>
    intro fuel acc rest hf _
    cases fuel with
    | zero => simp at hf
    | succ f =>
      rw [itemsTailR, List.nil_append]
      rw [show ('\n' :: (nspaces k ++ (']' :: rest)) : List Char)
          = ('\n' :: nspaces k) ++ (']' :: rest) by simp]
      rw [parseItemsTail_ws _ _ _ _ _ (allWs_nl_nspaces k), parseItemsTail_close]
      simp
  | cons w ws ih =>
    intro fuel acc rest hf helems
    cases fuel with
    | zero => simp at hf
    | succ f =>
      rw [itemsTailR]
      rw [show (',' :: '\n' :: (nspaces (2 * lvl) ++ (renderJson lvl w ++ itemsTailR lvl ws)))
            ++ '\n' :: (nspaces k ++ (']' :: rest))
          = ',' :: ('\n' :: (nspaces (2 * lvl) ++ (renderJson lvl w ++
              (itemsTailR lvl ws ++ '\n' :: (nspaces k ++ (']' :: rest)))))) by simp]
      rw [parseItemsTail_comma]
      have hpv : parseVal m ('\n' :: (nspaces (2 * lvl) ++ (renderJson lvl w ++
          (itemsTailR lvl ws ++ '\n' :: (nspaces k ++ (']' :: rest)))))) =
          some (w, itemsTailR lvl ws ++ '\n' :: (nspaces k ++ (']' :: rest))) := by
        rw [show ('\n' :: (nspaces (2 * lvl) ++ (renderJson lvl w ++
            (itemsTailR lvl ws ++ '\n' :: (nspaces k ++ (']' :: rest))))) : List Char)
            = ('\n' :: nspaces (2 * lvl)) ++ (renderJson lvl w ++
              (itemsTailR lvl ws ++ '\n' :: (nspaces k ++ (']' :: rest)))) by simp]
        rw [parseVal_ws m _ _ (allWs_nl_nspaces (2 * lvl))]
        exact helems w (List.mem_cons_self w ws) _
      rw [hpv]
      show parseItemsTail (parseVal m) f (acc ++ [w])
          (itemsTailR lvl ws ++ '\n' :: (nspaces k ++ (']' :: rest))) = _
      rw [ih f (acc ++ [w]) rest (by simp only [List.length_cons] at hf; omega)
        (fun x hx => helems x (List.mem_cons_of_mem w hx))]
      simp

theorem parseMember_ws (pv : List Char → Option (Json × List Char)) (ws cs : List Char)
    (h : ∀ c ∈ ws, isJsonWs c = true) :
    parseMember pv (ws ++ cs) = parseMember pv cs := by
  simp only [parseMember]
  rw [skipWs_append ws cs h]

theorem parseMember_quote (pv : List Char → Option (Json × List Char)) (Y : List Char) :
    parseMember pv ('"' :: Y) =
      (match parseString Y with
       | some (k2, r2) =>
         (match skipWs r2 with
          | c3 :: r3 =>
            if c3 = ':' then
              match pv r3 with
              | some (v2, r4) => some ((String.mk k2, v2), r4)
              | none => none
            else none
          | [] => none)
       | none => none) := rfl

theorem parseMember_render (m lvl : Nat) (j : Nat) (k : String) (v : Json) (r2 : List Char)
    (hv : ∀ r3 : List Char, parseVal m (renderJson lvl v ++ r3) = some (v, r3)) :
    parseMember (parseVal m)
        (nspaces j ++ (renderString k ++ ':' :: ' ' :: (renderJson lvl v ++ r2))) =
      some ((k, v), r2) := by
  rw [parseMember_ws _ _ _ (allWs_nspaces j)]
  rw [show (renderString k ++ ':' :: ' ' :: (renderJson lvl v ++ r2) : List Char)
      = '"' :: (escapeChars k.data ++ '"' :: (':' :: ' ' :: (renderJson lvl v ++ r2))) by
    rw [renderString]; simp]
  rw [parseMember_quote, parseString_escape]
  have hpv : parseVal m (' ' :: (renderJson lvl v ++ r2)) = some (v, r2) := by
    rw [show (' ' :: (renderJson lvl v ++ r2) : List Char)
        = [' '] ++ (renderJson lvl v ++ r2) by simp]
    rw [parseVal_ws m _ _ (by intro c hc; simp at hc; rw [hc]; rfl)]
    exact hv r2
  show (match skipWs (':' :: ' ' :: (renderJson lvl v ++ r2)) with
        | c3 :: r3 =>
          if c3 = ':' then
            match parseVal m r3 with
            | some (v2, r4) => some ((String.mk k.data, v2), r4)
            | none => none
          else none
        | [] => none) = some ((k, v), r2)
  rw [skipWs_cons_not (by decide)]
  show (match parseVal m (' ' :: (renderJson lvl v ++ r2)) with
        | some (v2, r4) => some ((String.mk k.data, v2), r4)
        | none => none) = some ((k, v), r2)
  rw [hpv]

theorem parseMembersTail_render (m lvl k : Nat) :
    ∀ (ms : List (String × Json)) (fuel : Nat) (acc : List (String × Json)) (rest : List Char),
      ms.length < fuel →
      (∀ kv ∈ ms, ∀ r2 : List Char, parseVal m (renderJson lvl kv.2 ++ r2) = some (kv.2, r2)) →
      parseMembersTail (parseVal m) fuel acc
          (membersTailR lvl ms ++ '\n' :: (nspaces k ++ (rbraceChar :: rest))) =
        some (acc ++ ms, rest) := by
  intro ms
  induction ms with
  | nil =>
    intro fuel acc rest hf _
    cases fuel with
    | zero => simp at hf
    | succ f =>
      rw [membersTailR, List.nil_append]
      rw [show ('\n' :: (nspaces k ++ (rbraceChar :: rest)) : List Char)
          = ('\n' :: nspaces k) ++ (rbraceChar :: rest) by simp]
      rw [parseMembersTail_ws _ _ _ _ _ (allWs_nl_nspaces k), parseMembersTail_close]
      simp
  | cons kv ms' ih =>
    obtain ⟨k2, v2⟩ := kv
    intro fuel acc rest hf helems
    cases fuel with
    | zero => simp at hf
    | succ f =>
      rw [membersTailR]
      rw [show (',' :: '\n' :: (nspaces (2 * lvl) ++ (renderString k2 ++ ':' :: ' ' ::
            (renderJson lvl v2 ++ membersTailR lvl ms')))) ++
            '\n' :: (nspaces k ++ (rbraceChar :: rest))
          = ',' :: ('\n' :: nspaces (2 * lvl) ++ (renderString k2 ++ ':' :: ' ' ::
              (renderJson lvl v2 ++ (membersTailR lvl ms' ++
                '\n' :: (nspaces k ++ (rbraceChar :: rest)))))) by simp]
      rw [parseMembersTail_comma]
      have hmem : parseMember (parseVal m)
          ('\n' :: nspaces (2 * lvl) ++ (renderString k2 ++ ':' :: ' ' ::
            (renderJson lvl v2 ++ (membersTailR lvl ms' ++
              '\n' :: (nspaces k ++ (rbraceChar :: rest)))))) =
          some ((k2, v2), membersTailR lvl ms' ++
            '\n' :: (nspaces k ++ (rbraceChar :: rest))) := by
        rw [parseMember_ws _ _ _ (allWs_nl_nspaces (2 * lvl))]
        have := parseMember_render m lvl 0 k2 v2
          (membersTailR lvl ms' ++ '\n' :: (nspaces k ++ (rbraceChar :: rest)))
          (helems (k2, v2) (List.mem_cons_self _ _))
        rw [show (nspaces 0 ++ (renderString k2 ++ ':' :: ' ' ::
            (renderJson lvl v2 ++ (membersTailR lvl ms' ++
              '\n' :: (nspaces k ++ (rbraceChar :: rest))))) : List Char)
            = renderString k2 ++ ':' :: ' ' ::
              (renderJson lvl v2 ++ (membersTailR lvl ms' ++
                '\n' :: (nspaces k ++ (rbraceChar :: rest)))) from rfl] at this
        exact this
      rw [hmem]
      show parseMembersTail (parseVal m) f (acc ++ [(k2, v2)])
          (membersTailR lvl ms' ++ '\n' :: (nspaces k ++ (rbraceChar :: rest))) = _
      rw [ih f (acc ++ [(k2, v2)]) rest (by simp only [List.length_cons] at hf; omega)
        (fun x hx => helems x (List.mem_cons_of_mem _ hx))]
      simp

theorem jsonFuelList_ge_len (l : List Json) : l.length ≤ jsonFuelList l := by
  induction l with
  | nil => simp [jsonFuelList]
  | cons v vs ih =>
    have := jsonFuel_pos v
    rw [jsonFuelList]
    simp only [List.length_cons]
    omega

theorem jsonFuelMems_ge_len (l : List (String × Json)) : l.length ≤ jsonFuelMems l := by
  induction l with
  | nil => simp [jsonFuelMems]
  | cons kv ms ih =>
    obtain ⟨k, v⟩ := kv
    have := jsonFuel_pos v
    rw [jsonFuelMems]
    simp only [List.length_cons]
    omega

theorem parseValAfterWs_arr (m : Nat) (R : List Char) :
    parseValAfterWs m ('[' :: R) =
      (match skipWs R with
       | [] => none
       | c2 :: r =>
         if c2 = ']' then some (.jarr [], r)
         else
           match parseVal m (c2 :: r) with
           | some (v, r1) =>
             match parseItemsTail (parseVal m) m [v] r1 with
             | some (vs, r2) => some (.jarr vs, r2)
             | none => none
           | none => none) := rfl

theorem parseValAfterWs_obj (m : Nat) (R : List Char) :
    parseValAfterWs m (lbraceChar :: R) =
      (match skipWs R with
       | c2 :: r =>
         if c2 = rbraceChar then some (.jobj [], r)
         else
           match parseMember (parseVal m) (c2 :: r) with
           | some (kv, r1) =>
             match parseMembersTail (parseVal m) m [kv] r1 with
             | some (kvs, r2) => some (.jobj kvs, r2)
             | none => none
           | none => none
       | [] => none) := rfl

/-- Parsing a rendered number-free value consumes exactly the rendering and
returns the value, for any fuel at least `jsonFuel v`. -/
theorem parseVal_render (n : Nat) : ∀ v, NumFree v → jsonFuel v ≤ n →
    ∀ (lvl : Nat) (rest : List Char),
      parseVal n (renderJson lvl v ++ rest) = some (v, rest) := by
  induction n using Nat.strong_induction_on with
  | _ n ih =>
    intro v hnf hfuel lvl rest
    have hpos := jsonFuel_pos v
    cases n with
    | zero => omega
    | succ m =>
      cases hnf with
      | jnull =>
        rw [renderJson]
        rw [show ("null".data ++ rest : List Char) = 'n' :: 'u' :: 'l' :: 'l' :: rest from rfl]
        rw [parseVal_succ, skipWs_cons_not (by decide)]
        rfl
      | jbool b =>
        cases b with
        | true =>
          rw [renderJson]
          rw [show ("true".data ++ rest : List Char) = 't' :: 'r' :: 'u' :: 'e' :: rest from rfl]
          rw [parseVal_succ, skipWs_cons_not (by decide)]
          rfl
        | false =>
          rw [renderJson]
          rw [show ("false".data ++ rest : List Char)
              = 'f' :: 'a' :: 'l' :: 's' :: 'e' :: rest from rfl]
          rw [parseVal_succ, skipWs_cons_not (by decide)]
          rfl
      | jstr s =>
        rw [renderJson]
        rw [show (renderString s ++ rest : List Char)
            = '"' :: (escapeChars s.data ++ '"' :: rest) by rw [renderString]; simp]
        rw [parseVal_succ, skipWs_cons_not (by decide)]
        show (match parseString (escapeChars s.data ++ '"' :: rest) with
              | some (s2, r) => some (Json.jstr (String.mk s2), r)
              | none => none) = some (Json.jstr s, rest)
        rw [parseString_escape]
      | jarr l hmem =>
        cases l with
        | nil =>
          rw [renderJson]
          rw [show (['[', ']'] ++ rest : List Char) = '[' :: ']' :: rest from rfl]
          rw [parseVal_succ, skipWs_cons_not (by decide)]
          rfl
        | cons v1 vs =>
          have hexp : jsonFuel (.jarr (v1 :: vs)) =
              1 + (v1 :: vs).length + jsonFuelList (v1 :: vs) := by rw [jsonFuel]
          have hlist : jsonFuelList (v1 :: vs) = jsonFuel v1 + jsonFuelList vs := by
            rw [jsonFuelList]
          have hgelen := jsonFuelList_ge_len vs
          have hfv1 : jsonFuel v1 ≤ m := by
            rw [hexp, hlist] at hfuel
            simp only [List.length_cons] at hfuel
            omega
          have hfvs : ∀ w ∈ vs, jsonFuel w ≤ m := by
            intro w hw
            have := jsonFuelList_mem hw
            rw [hexp, hlist] at hfuel
            simp only [List.length_cons] at hfuel
            omega
          have hlen : vs.length < m := by
            rw [hexp, hlist] at hfuel
            have := jsonFuel_pos v1
            simp only [List.length_cons] at hfuel
            omega
          have helems : ∀ w ∈ vs, ∀ r2 : List Char,
              parseVal m (renderJson (lvl + 1) w ++ r2) = some (w, r2) :=
            fun w hw r2 => ih m (by omega) w (hmem w (List.mem_cons_of_mem v1 hw))
              (hfvs w hw) (lvl + 1) r2
          rw [renderJson, renderItems_eq]
          rw [show ('[' :: '\n' ::
                ((nspaces (2 * (lvl + 1)) ++
                    (renderJson (lvl + 1) v1 ++ itemsTailR (lvl + 1) vs)) ++
                  '\n' :: (nspaces (2 * lvl) ++ [']']))) ++ rest
              = '[' :: (('\n' :: nspaces (2 * (lvl + 1))) ++
                  (renderJson (lvl + 1) v1 ++
                    (itemsTailR (lvl + 1) vs ++
                      '\n' :: (nspaces (2 * lvl) ++ (']' :: rest))))) by simp]
          rw [parseVal_succ, skipWs_cons_not (by decide), parseValAfterWs_arr]
          obtain ⟨c, cs2, hhead, hws, hbr, _⟩ :=
            renderJson_head (lvl + 1) v1 (hmem v1 (List.mem_cons_self v1 vs))
          have hskip : skipWs (('\n' :: nspaces (2 * (lvl + 1))) ++
              (renderJson (lvl + 1) v1 ++
                (itemsTailR (lvl + 1) vs ++
                  '\n' :: (nspaces (2 * lvl) ++ (']' :: rest))))) =
              c :: (cs2 ++ (itemsTailR (lvl + 1) vs ++
                '\n' :: (nspaces (2 * lvl) ++ (']' :: rest)))) := by
            rw [skipWs_append _ _ (allWs_nl_nspaces (2 * (lvl + 1))), hhead]
            rw [List.cons_append]
            exact skipWs_cons_not hws _
          simp only [hskip]
          rw [if_neg hbr]
          have hv1 : parseVal m (c :: (cs2 ++ (itemsTailR (lvl + 1) vs ++
              '\n' :: (nspaces (2 * lvl) ++ (']' :: rest))))) =
              some (v1, itemsTailR (lvl + 1) vs ++
                '\n' :: (nspaces (2 * lvl) ++ (']' :: rest))) := by
            rw [show (c :: (cs2 ++ (itemsTailR (lvl + 1) vs ++
                '\n' :: (nspaces (2 * lvl) ++ (']' :: rest)))) : List Char)
                = renderJson (lvl + 1) v1 ++ (itemsTailR (lvl + 1) vs ++
                  '\n' :: (nspaces (2 * lvl) ++ (']' :: rest))) by rw [hhead]; simp]
            exact ih m (by omega) v1 (hmem v1 (List.mem_cons_self v1 vs)) hfv1 (lvl + 1) _
          rw [hv1]
          show (match parseItemsTail (parseVal m) m [v1]
                  (itemsTailR (lvl + 1) vs ++
                    '\n' :: (nspaces (2 * lvl) ++ (']' :: rest))) with
                | some (vs2, r2) => some (Json.jarr vs2, r2)
                | none => none) = _
          rw [parseItemsTail_render m (lvl + 1) (2 * lvl) vs m [v1] rest hlen helems]
          rfl
      | jobj l hmem =>
        cases l with
        | nil =>
          rw [renderJson]
          rw [show ([lbraceChar, rbraceChar] ++ rest : List Char)
              = lbraceChar :: rbraceChar :: rest from rfl]
          rw [parseVal_succ, skipWs_cons_not (by decide)]
          rfl
        | cons kv1 ms =>
          obtain ⟨k1, v1⟩ := kv1
          have hexp : jsonFuel (.jobj ((k1, v1) :: ms)) =
              1 + ((k1, v1) :: ms).length + jsonFuelMems ((k1, v1) :: ms) := by rw [jsonFuel]
          have hlist : jsonFuelMems ((k1, v1) :: ms) = jsonFuel v1 + jsonFuelMems ms := by
            rw [jsonFuelMems]
          have hgelen := jsonFuelMems_ge_len ms
          have hfv1 : jsonFuel v1 ≤ m := by
            rw [hexp, hlist] at hfuel
            simp only [List.length_cons] at hfuel
            omega
          have hfms : ∀ x ∈ ms, jsonFuel x.2 ≤ m := by
            intro x hx
            have := jsonFuelMems_mem hx
            rw [hexp, hlist] at hfuel
            simp only [List.length_cons] at hfuel
            omega
          have hlen : ms.length < m := by
            rw [hexp, hlist] at hfuel
            have := jsonFuel_pos v1
            simp only [List.length_cons] at hfuel
            omega
          have helems : ∀ x ∈ ms, ∀ r2 : List Char,
              parseVal m (renderJson (lvl + 1) x.2 ++ r2) = some (x.2, r2) :=
            fun x hx r2 => ih m (by omega) x.2
              (hmem x (List.mem_cons_of_mem (k1, v1) hx)) (hfms x hx) (lvl + 1) r2
          rw [renderJson, renderMembers_eq]
          rw [show (lbraceChar :: '\n' ::
                ((nspaces (2 * (lvl + 1)) ++
                    (renderString k1 ++ ':' :: ' ' ::
                      (renderJson (lvl + 1) v1 ++ membersTailR (lvl + 1) ms))) ++
                  '\n' :: (nspaces (2 * lvl) ++ [rbraceChar]))) ++ rest
              = lbraceChar :: (('\n' :: nspaces (2 * (lvl + 1))) ++
                  (renderString k1 ++ ':' :: ' ' ::
                    (renderJson (lvl + 1) v1 ++
                      (membersTailR (lvl + 1) ms ++
                        '\n' :: (nspaces (2 * lvl) ++ (rbraceChar :: rest)))))) by simp]
          rw [parseVal_succ, skipWs_cons_not (by decide), parseValAfterWs_obj]
          have hskip : skipWs (('\n' :: nspaces (2 * (lvl + 1))) ++
              (renderString k1 ++ ':' :: ' ' ::
                (renderJson (lvl + 1) v1 ++
                  (membersTailR (lvl + 1) ms ++
                    '\n' :: (nspaces (2 * lvl) ++ (rbraceChar :: rest)))))) =
              '"' :: (escapeChars k1.data ++ '"' :: (':' :: ' ' ::
                (renderJson (lvl + 1) v1 ++
                  (membersTailR (lvl + 1) ms ++
                    '\n' :: (nspaces (2 * lvl) ++ (rbraceChar :: rest)))))) := by
            rw [skipWs_append _ _ (allWs_nl_nspaces (2 * (lvl + 1)))]
            rw [show (renderString k1 ++ ':' :: ' ' ::
                (renderJson (lvl + 1) v1 ++
                  (membersTailR (lvl + 1) ms ++
                    '\n' :: (nspaces (2 * lvl) ++ (rbraceChar :: rest)))) : List Char)
                = '"' :: (escapeChars k1.data ++ '"' :: (':' :: ' ' ::
                    (renderJson (lvl + 1) v1 ++
                      (membersTailR (lvl + 1) ms ++
                        '\n' :: (nspaces (2 * lvl) ++ (rbraceChar :: rest)))))) by
              rw [renderString]; simp]
            exact skipWs_cons_not (by decide) _
          simp only [hskip]
          rw [if_neg (by decide)]
          have hm1 : parseMember (parseVal m)
              ('"' :: (escapeChars k1.data ++ '"' :: (':' :: ' ' ::
                (renderJson (lvl + 1) v1 ++
                  (membersTailR (lvl + 1) ms ++
                    '\n' :: (nspaces (2 * lvl) ++ (rbraceChar :: rest))))))) =
              some ((k1, v1), membersTailR (lvl + 1) ms ++
                '\n' :: (nspaces (2 * lvl) ++ (rbraceChar :: rest))) := by
            have hv1 : ∀ r3 : List Char,
                parseVal m (renderJson (lvl + 1) v1 ++ r3) = some (v1, r3) :=
              fun r3 => ih m (by omega) v1 (hmem (k1, v1) (List.mem_cons_self _ _)) hfv1
                (lvl + 1) r3
            have := parseMember_render m (lvl + 1) 0 k1 v1
              (membersTailR (lvl + 1) ms ++
                '\n' :: (nspaces (2 * lvl) ++ (rbraceChar :: rest))) hv1
            rw [show (nspaces 0 ++ (renderString k1 ++ ':' :: ' ' ::
                (renderJson (lvl + 1) v1 ++
                  (membersTailR (lvl + 1) ms ++
                    '\n' :: (nspaces (2 * lvl) ++ (rbraceChar :: rest))))) : List Char)
                = '"' :: (escapeChars k1.data ++ '"' :: (':' :: ' ' ::
                    (renderJson (lvl + 1) v1 ++
                      (membersTailR (lvl + 1) ms ++
                        '\n' :: (nspaces (2 * lvl) ++ (rbraceChar :: rest)))))) by
              simp [nspaces, renderString]] at this
            exact this
          rw [hm1]
          show (match parseMembersTail (parseVal m) m [(k1, v1)]
                  (membersTailR (lvl + 1) ms ++
                    '\n' :: (nspaces (2 * lvl) ++ (rbraceChar :: rest))) with
                | some (kvs, r2) => some (Json.jobj kvs, r2)
                | none => none) = _
          rw [parseMembersTail_render m (lvl + 1) (2 * lvl) ms m [(k1, v1)] rest hlen helems]
          rfl

theorem itemsTailR_len (lvl : Nat) (vs : List Json)
    (h : ∀ w ∈ vs, jsonFuel w ≤ (renderJson lvl w).length + 1) :
    jsonFuelList vs + vs.length ≤ (itemsTailR lvl vs).length := by
  induction vs with
  | nil => rw [jsonFuelList, itemsTailR]; simp
  | cons w ws ih =>
    have hw := h w (List.mem_cons_self w ws)
    have hws := ih (fun x hx => h x (List.mem_cons_of_mem w hx))
    rw [jsonFuelList, itemsTailR]
    simp only [List.length_cons, List.length_append, nspaces, List.length_replicate]
    omega

theorem membersTailR_len (lvl : Nat) (ms : List (String × Json))
    (h : ∀ kv ∈ ms, jsonFuel kv.2 ≤ (renderJson lvl kv.2).length + 1) :
    jsonFuelMems ms + ms.length ≤ (membersTailR lvl ms).length := by
  induction ms with
  | nil => rw [jsonFuelMems, membersTailR]; simp
  | cons kv ms' ih =>
    obtain ⟨k, v⟩ := kv
    have hw : jsonFuel v ≤ (renderJson lvl v).length + 1 :=
      h (k, v) (List.mem_cons_self _ ms')
    have hws := ih (fun x hx => h x (List.mem_cons_of_mem (k, v) hx))
    rw [jsonFuelMems, membersTailR]
    simp only [List.length_cons, List.length_append, nspaces, List.length_replicate]
    omega

theorem jsonFuel_le_renderLen (n : Nat) : ∀ v, jsonFuel v ≤ n → ∀ lvl : Nat,
    jsonFuel v ≤ (renderJson lvl v).length + 1 := by
  induction n using Nat.strong_induction_on with
  | _ n ih =>
    intro v hfuel lvl
    cases v with
    | jnull => rw [jsonFuel, renderJson]; simp
    | jbool b => cases b <;> (rw [jsonFuel, renderJson]; simp)
    | jnum lex => rw [jsonFuel]; omega
    | jstr s => rw [jsonFuel]; omega
    | jarr l =>
      cases l with
      | nil => rw [jsonFuel, renderJson]; rw [jsonFuelList]; simp
      | cons v1 vs =>
        have hexp : jsonFuel (.jarr (v1 :: vs)) =
            1 + (v1 :: vs).length + jsonFuelList (v1 :: vs) := by rw [jsonFuel]
        have hlist : jsonFuelList (v1 :: vs) = jsonFuel v1 + jsonFuelList vs := by
          rw [jsonFuelList]
        have hlt1 : jsonFuel v1 < n := by
          have := jsonFuelList_ge_len vs
          rw [hexp, hlist] at hfuel
          simp only [List.length_cons] at hfuel
          omega
        have hv1 := ih (jsonFuel v1) hlt1 v1 (le_refl _) (lvl + 1)
        have hws : ∀ w ∈ vs, jsonFuel w ≤ (renderJson (lvl + 1) w).length + 1 := by
          intro w hw
          have hmemle := jsonFuelList_mem hw
          have hwlt : jsonFuel w < n := by
            have := jsonFuel_pos v1
            rw [hexp, hlist] at hfuel
            simp only [List.length_cons] at hfuel
            omega
          exact ih (jsonFuel w) hwlt w (le_refl _) (lvl + 1)
        have hitems := itemsTailR_len (lvl + 1) vs hws
        rw [hexp, hlist, renderJson, renderItems_eq]
        simp only [List.length_cons, List.length_append, nspaces, List.length_replicate]
        omega
    | jobj l =>
      cases l with
      | nil => rw [jsonFuel, renderJson]; rw [jsonFuelMems]; simp
      | cons kv1 ms =>
        obtain ⟨k1, v1⟩ := kv1
        have hexp : jsonFuel (.jobj ((k1, v1) :: ms)) =
            1 + ((k1, v1) :: ms).length + jsonFuelMems ((k1, v1) :: ms) := by rw [jsonFuel]
        have hlist : jsonFuelMems ((k1, v1) :: ms) = jsonFuel v1 + jsonFuelMems ms := by
          rw [jsonFuelMems]
        have hlt1 : jsonFuel v1 < n := by
          have := jsonFuelMems_ge_len ms
          rw [hexp, hlist] at hfuel
          simp only [List.length_cons] at hfuel
          omega
        have hv1 := ih (jsonFuel v1) hlt1 v1 (le_refl _) (lvl + 1)
        have hws : ∀ kv ∈ ms, jsonFuel (kv : String × Json).2 ≤
            (renderJson (lvl + 1) kv.2).length + 1 := by
          intro kv hkv
          have hmemle := jsonFuelMems_mem hkv
          have hwlt : jsonFuel kv.2 < n := by
            have := jsonFuel_pos v1
            rw [hexp, hlist] at hfuel
            simp only [List.length_cons] at hfuel
            omega
          exact ih (jsonFuel kv.2) hwlt kv.2 (le_refl _) (lvl + 1)
        have hitems := membersTailR_len (lvl + 1) ms hws
        rw [hexp, hlist, renderJson, renderMembers_eq]
        simp only [List.length_cons, List.length_append, nspaces, List.length_replicate]
        omega

/-- Round-trip at the top level: `JSON.parse(JSON.stringify(v, null, 2))`
recovers any number-free value. -/
theorem jsonParse_render (v : Json) (h : NumFree v) :
    jsonParse (String.mk (renderJson 0 v)) = some v := by
  have hlen : jsonFuel v ≤ (renderJson 0 v).length + 1 :=
    jsonFuel_le_renderLen (jsonFuel v) v (le_refl _) 0
  have hparse := parseVal_render ((renderJson 0 v).length + 1) v h hlen 0 []
  rw [List.append_nil] at hparse
  rw [jsonParse]
  rw [show (String.mk (renderJson 0 v)).data = renderJson 0 v from rfl]
  rw [hparse]
  rfl

/-! ## Data model (src/index.ts:18-35) -/

inductive TaskStatus where
  | pending
  | in_progress
  | completed
  | blocked
deriving DecidableEq

structure Task where
  id : String
  subject : String
  status : TaskStatus
  blockedBy : List String
  blocks : List String
  notes : String
deriving DecidableEq

inductive ProjectStatus where
  | active
  | paused
  | completed
deriving DecidableEq

structure TaskProject where
  project : String
  status : ProjectStatus
  created : String
  updated : String
  tasks : List Task
deriving DecidableEq

/-! ## JSON shape of the persisted record -/

def statusString : TaskStatus → String
  | .pending => "pending"
  | .in_progress => "in_progress"
  | .completed => "completed"
  | .blocked => "blocked"

def statusOfString (s : String) : Option TaskStatus :=
  if s = "pending" then some .pending
  else if s = "in_progress" then some .in_progress
  else if s = "completed" then some .completed
  else if s = "blocked" then some .blocked
  else none

def projectStatusString : ProjectStatus → String
  | .active => "active"
  | .paused => "paused"
  | .completed => "completed"

def projectStatusOfString (s : String) : Option ProjectStatus :=
  if s = "active" then some .active
  else if s = "paused" then some .paused
  else if s = "completed" then some .completed
  else none

/-- The JSON value `JSON.stringify` serializes for one task, with the
object-literal key order of the source (src/index.ts:140-147). -/
def jsonOfTask (t : Task) : Json :=
  .jobj [("id", .jstr t.id), ("subject", .jstr t.subject),
         ("status", .jstr (statusString t.status)),
         ("blockedBy", .jarr (t.blockedBy.map Json.jstr)),
         ("blocks", .jarr (t.blocks.map Json.jstr)),
         ("notes", .jstr t.notes)]

/-- The JSON value serialized for one project record (src/index.ts:94-100). -/
def jsonOfProject (p : TaskProject) : Json :=
  .jobj [("project", .jstr p.project),
         ("status", .jstr (projectStatusString p.status)),
         ("created", .jstr p.created), ("updated", .jstr p.updated),
         ("tasks", .jarr (p.tasks.map jsonOfTask))]

/-- Last-wins lookup in a parsed JSON object, as JavaScript property access
after `JSON.parse` (a later duplicate key overwrites an earlier one). -/
def jlookup (l : List (String × Json)) (k : String) : Option Json :=
  l.foldl (fun acc kv => if kv.1 = k then some kv.2 else acc) none

def strOfJson : Json → Option String
  | .jstr s => some s
  | _ => none

def strListOfJsonList : List Json → Option (List String)
  | [] => some []
  | j :: js =>
    match strOfJson j, strListOfJsonList js with
    | some s, some ss => some (s :: ss)
    | _, _ => none

def strListOfJson : Json → Option (List String)
  | .jarr l => strListOfJsonList l
  | _ => none

/-- Reading of one task from parsed JSON.  `JSON.parse` performs no
validation (the source casts the parsed value with `as TaskProject`,
src/index.ts:80); a shape that does not match the record type is modelled as
absent, which is also how the specification treats malformed records. -/
def taskOfJson : Json → Option Task
  | .jobj m =>
    match jlookup m "id" >>= strOfJson, jlookup m "subject" >>= strOfJson,
        (jlookup m "status" >>= strOfJson).bind statusOfString,
        jlookup m "blockedBy" >>= strListOfJson,
        jlookup m "blocks" >>= strListOfJson,
        jlookup m "notes" >>= strOfJson with
    | some id, some subject, some status, some bb, some bl, some notes =>
      some { id := id, subject := subject, status := status,
             blockedBy := bb, blocks := bl, notes := notes }
    | _, _, _, _, _, _ => none
  | _ => none

def tasksOfJsonList : List Json → Option (List Task)
  | [] => some []
  | j :: js =>
    match taskOfJson j, tasksOfJsonList js with
    | some t, some ts => some (t :: ts)
    | _, _ => none

def tasksOfJson : Json → Option (List Task)
  | .jarr l => tasksOfJsonList l
  | _ => none

/-- Reading of one project record from parsed JSON; see `taskOfJson` for the
treatment of the unchecked cast. -/
def projectOfJson : Json → Option TaskProject
  | .jobj m =>
    match jlookup m "project" >>= strOfJson,
        (jlookup m "status" >>= strOfJson).bind projectStatusOfString,
        jlookup m "created" >>= strOfJson, jlookup m "updated" >>= strOfJson,
        (jlookup m "tasks").bind tasksOfJson with
    | some project, some status, some created, some updated, some tasks =>
      some { project := project, status := status, created := created,
             updated := updated, tasks := tasks }
    | _, _, _, _, _ => none
  | _ => none

theorem statusOfString_statusString (st : TaskStatus) :
    statusOfString (statusString st) = some st := by
  cases st <;> rfl

theorem projectStatusOfString_projectStatusString (st : ProjectStatus) :
    projectStatusOfString (projectStatusString st) = some st := by
  cases st <;> rfl

theorem strListOfJsonList_map (l : List String) :
    strListOfJsonList (l.map Json.jstr) = some l := by
  induction l with
  | nil => rfl
  | cons s ss ih => simp [strListOfJsonList, ih, strOfJson]

theorem taskOfJson_jsonOfTask (t : Task) : taskOfJson (jsonOfTask t) = some t := by
  obtain ⟨id, subject, status, bb, bl, notes⟩ := t
  simp [taskOfJson, jsonOfTask, jlookup, strOfJson, strListOfJsonList_map, strListOfJson,
    statusOfString_statusString]

theorem tasksOfJsonList_map (ts : List Task) :
    tasksOfJsonList (ts.map jsonOfTask) = some ts := by
  induction ts with
  | nil => rfl
  | cons t ts' ih => simp [tasksOfJsonList, taskOfJson_jsonOfTask, ih]

theorem projectOfJson_jsonOfProject (p : TaskProject) :
    projectOfJson (jsonOfProject p) = some p := by
  obtain ⟨project, status, created, updated, tasks⟩ := p
  simp [projectOfJson, jsonOfProject, jlookup, strOfJson, tasksOfJson, tasksOfJsonList_map,
    projectStatusOfString_projectStatusString]

theorem numFree_jsonOfTask (t : Task) : NumFree (jsonOfTask t) := by
  refine NumFree.jobj _ ?_
  intro kv hkv
  simp [jsonOfTask] at hkv
  rcases hkv with h | h | h | h | h | h <;> rw [h] <;>
    first
    | exact NumFree.jstr _
    | (refine NumFree.jarr _ ?_
       intro v hv
       obtain ⟨s, _, rfl⟩ := List.mem_map.mp hv
       exact NumFree.jstr s)

theorem numFree_jsonOfProject (p : TaskProject) : NumFree (jsonOfProject p) := by
  refine NumFree.jobj _ ?_
  intro kv hkv
  simp [jsonOfProject] at hkv
  rcases hkv with h | h | h | h | h <;> rw [h] <;>
    first
    | exact NumFree.jstr _
    | (refine NumFree.jarr _ ?_
       intro v hv
       obtain ⟨t, _, rfl⟩ := List.mem_map.mp hv
       exact numFree_jsonOfTask t)

/-! ## The concrete rendering of a project record

`saveProject` writes `JSON.stringify(data, null, 2)` (src/index.ts:89).  So
that file contents stay computable by the kernel, the fixed record shape is
rendered by the following structural functions; `renderProject_eq` proves
they produce exactly the generic serialization of `jsonOfProject`. -/

def joinItems (ind : Nat) : List Char → List (List Char) → List Char
  | v, [] => nspaces ind ++ v
  | v, w :: ws => nspaces ind ++ (v ++ ',' :: '\n' :: joinItems ind w ws)

def arrOf (lvl : Nat) : List (List Char) → List Char
  | [] => ['[', ']']
  | v :: vs =>
    '[' :: '\n' :: (joinItems (2 * (lvl + 1)) v vs ++ '\n' :: (nspaces (2 * lvl) ++ [']']))

def joinMembers (ind : Nat) : String × List Char → List (String × List Char) → List Char
  | (k, v), [] => nspaces ind ++ (renderString k ++ ':' :: ' ' :: v)
  | (k, v), m :: ms =>
    nspaces ind ++ (renderString k ++ ':' :: ' ' :: (v ++ ',' :: '\n' :: joinMembers ind m ms))

def objOf (lvl : Nat) : List (String × List Char) → List Char
  | [] => [lbraceChar, rbraceChar]
  | m :: ms =>
    lbraceChar :: '\n' ::
      (joinMembers (2 * (lvl + 1)) m ms ++ '\n' :: (nspaces (2 * lvl) ++ [rbraceChar]))

theorem joinItems_eq (lvl : Nat) (vs : List Json) : ∀ v : Json,
    joinItems (2 * lvl) (renderJson lvl v) (vs.map (renderJson lvl)) = renderItems lvl v vs := by
  induction vs with
  | nil => intro v; rw [List.map_nil, joinItems, renderItems]
  | cons w ws ih =>
    intro v
    rw [List.map_cons, joinItems, renderItems, ih w]

theorem arrOf_eq (lvl : Nat) (vs : List Json) :
    arrOf lvl (vs.map (renderJson (lvl + 1))) = renderJson lvl (.jarr vs) := by
  cases vs with
  | nil => rw [List.map_nil, arrOf, renderJson]
  | cons v vs' =>
    rw [List.map_cons, arrOf, joinItems_eq (lvl + 1) vs' v, renderJson]

theorem joinMembers_eq (lvl : Nat) (ms : List (String × Json)) : ∀ (k : String) (v : Json),
    joinMembers (2 * lvl) (k, renderJson lvl v)
        (ms.map (fun kv => (kv.1, renderJson lvl kv.2))) =
      renderMembers lvl k v ms := by
  induction ms with
  | nil => intro k v; rw [List.map_nil, joinMembers, renderMembers]
  | cons m ms' ih =>
    obtain ⟨k2, v2⟩ := m
    intro k v
    rw [List.map_cons, joinMembers, renderMembers, ih k2 v2]

theorem objOf_eq (lvl : Nat) (ms : List (String × Json)) :
    objOf lvl (ms.map (fun kv => (kv.1, renderJson (lvl + 1) kv.2))) =
      renderJson lvl (.jobj ms) := by
  cases ms with
  | nil => rw [List.map_nil, objOf, renderJson]
  | cons m ms' =>
    obtain ⟨k, v⟩ := m
    rw [List.map_cons, objOf, joinMembers_eq (lvl + 1) ms' k v, renderJson]

theorem renderString_eq_renderJson (lvl : Nat) (s : String) :
    renderString s = renderJson lvl (.jstr s) := by rw [renderJson]

theorem arrOf_strings (lvl : Nat) (l : List String) :
    arrOf lvl (l.map renderString) = renderJson lvl (.jarr (l.map .jstr)) := by
  rw [← arrOf_eq, List.map_map]
  congr 1
  apply List.map_congr_left
  intro s _
  exact renderString_eq_renderJson (lvl + 1) s

/-- Rendering of one task object at nesting level `lvl`. -/
def renderTask (lvl : Nat) (t : Task) : List Char :=
  objOf lvl [("id", renderString t.id), ("subject", renderString t.subject),
             ("status", renderString (statusString t.status)),
             ("blockedBy", arrOf (lvl + 1) (t.blockedBy.map renderString)),
             ("blocks", arrOf (lvl + 1) (t.blocks.map renderString)),
             ("notes", renderString t.notes)]

theorem renderTask_eq (lvl : Nat) (t : Task) :
    renderTask lvl t = renderJson lvl (jsonOfTask t) := by
  rw [renderTask, jsonOfTask, ← objOf_eq]
  simp only [List.map_cons, List.map_nil]
  rw [arrOf_strings, arrOf_strings]
  simp only [renderString_eq_renderJson (lvl + 1)]

/-- Rendering of the whole record: `JSON.stringify(data, null, 2)`. -/
def renderProject (p : TaskProject) : List Char :=
  objOf 0 [("project", renderString p.project),
           ("status", renderString (projectStatusString p.status)),
           ("created", renderString p.created), ("updated", renderString p.updated),
           ("tasks", arrOf 1 (p.tasks.map (renderTask 2)))]

theorem renderProject_eq (p : TaskProject) :
    renderProject p = renderJson 0 (jsonOfProject p) := by
  rw [renderProject, jsonOfProject, ← objOf_eq]
  simp only [List.map_cons, List.map_nil]
  rw [show p.tasks.map (renderTask 2) = (p.tasks.map jsonOfTask).map (renderJson 2) by
    rw [List.map_map]
    apply List.map_congr_left
    intro t _
    exact renderTask_eq 2 t]
  have h2 := arrOf_eq 1 (p.tasks.map jsonOfTask)
  norm_num at h2 ⊢
  rw [h2]
  simp only [renderString_eq_renderJson 1]

/-- Writing then reading the record round-trips (`JSON.parse` of the
serialized project, then the record projection). -/
theorem parse_renderProject (p : TaskProject) :
    (jsonParse (String.mk (renderProject p))).bind projectOfJson = some p := by
  rw [renderProject_eq, jsonParse_render _ (numFree_jsonOfProject p)]
  simp [projectOfJson_jsonOfProject]

/-! ## The storage layer (`TaskStorage`, src/index.ts:48-131)

The file system is modelled per backing directory as the association list of
`(file name, file content)` pairs, or `none` when the directory itself is
missing or unreadable.  The constructor creates both directories
(src/index.ts:54-55), so engine operations run with both present. -/

structure Fs where
  tasksFiles : Option (List (String × String))
  plansFiles : Option (List (String × String))
deriving DecidableEq

def assocGet : List (String × String) → String → Option String
  | [], _ => none
  | (k, v) :: rest, key => if k = key then some v else assocGet rest key

/-- `writeFileSync`: replace the content of an existing file, or add the
file. -/
def assocPut : List (String × String) → String → String → List (String × String)
  | [], key, val => [(key, val)]
  | (k, v) :: rest, key, val =>
    if k = key then (key, val) :: rest else (k, v) :: assocPut rest key val

/-- `projectPath` (src/index.ts:58-60), relative to the tasks directory. -/
def projectFileName (project : String) : String := project ++ ".json"

/-- First-occurrence replacement, as JavaScript `String.prototype.replace`
with a string pattern (src/index.ts:70). -/
def replaceFirstChars (pat rep : List Char) : List Char → List Char
  | [] => []
  | c :: rest =>
    if pat.isPrefixOf (c :: rest) then rep ++ (c :: rest).drop pat.length
    else c :: replaceFirstChars pat rep rest

def replaceFirst (s pat rep : String) : String :=
  String.mk (replaceFirstChars pat.data rep.data s.data)

/-- `f.endsWith(".json")` as a suffix test on the character lists. -/
def strEndsWith (s suffix : String) : Bool :=
  suffix.data.isSuffixOf s.data

/-- `listProjects` (src/index.ts:66-74): list the `.json` entries of the
tasks directory, names stripped of the first `.json` occurrence; a missing
or unreadable directory degrades to the empty list via the `catch`. -/
def listProjects (fs : Fs) : List String :=
  match fs.tasksFiles with
  | none => []
  | some files =>
    ((files.map (fun kv => kv.1)).filter (fun f => strEndsWith f ".json")).map
      (fun f => replaceFirst f ".json" "")

/-- `getProject` (src/index.ts:76-84) restricted to well-shaped records:
read and `JSON.parse` the record; a missing directory or file, or a parse
failure, is caught and yields `null`.  The source casts the parsed value
with `as TaskProject` — a compile-time assertion that checks nothing — so a
valid-JSON value of the wrong shape is returned as-is, not `null`; that
behaviour is modelled by `getProjectRaw` below, and this typed view (which
maps such junk to `none`) is used only where the record's shape is
established.  `getProject fs p = some data` exactly says: the stored file
parses and has the record shape `data` (`getProject_eq_raw`,
`projectOfJson`). -/
def getProject (fs : Fs) (project : String) : Option TaskProject :=
  match fs.tasksFiles with
  | none => none
  | some files =>
    match assocGet files (projectFileName project) with
    | none => none
    | some content => (jsonParse content).bind projectOfJson

/-- `saveProject` (src/index.ts:86-90): stamp `updated` with today's date
(date-only `YYYY-MM-DD` granularity) and write the full pretty-printed
record.  (`writeFileSync` into a missing directory would throw; the
constructor creates the directories and nothing here deletes them, so the
write is modelled over the present-directory contents.) -/
def saveProject (fs : Fs) (today : String) (data : TaskProject) : Fs :=
  { fs with
      tasksFiles := some (assocPut (fs.tasksFiles.getD []) (projectFileName data.project)
        (String.mk (renderProject { data with updated := today }))) }

/-- The companion plan document template (src/index.ts:104-121). -/
def planTemplate (project today : String) : String :=
  "# " ++ project ++ "\n\n**Status:** active\n**Started:** " ++ today ++
  "\n**Last Updated:** " ++ today ++
  "\n\n## Goal\n[Describe the objective]\n\n## Phases\n\n### Phase 1: [Name]\n- [ ] Step 1\n- [ ] Step 2\n\n## Notes\n[Context, decisions, blockers]\n"

/-- `createProject` (src/index.ts:92-125): a fresh active record saved under
the project name, plus the companion plan file. -/
def createProject (fs : Fs) (today project : String) : TaskProject × Fs :=
  let data : TaskProject :=
    { project := project, status := .active, created := today, updated := today, tasks := [] }
  let fs1 := saveProject fs today data
  (data,
    { fs1 with
        plansFiles := some (assocPut (fs1.plansFiles.getD []) (project ++ ".md")
          (planTemplate project today)) })

/-- `getActiveProjects` (src/index.ts:127-131): load every listed project
and keep the non-null active ones. -/
def getActiveProjects (fs : Fs) : List TaskProject :=
  ((listProjects fs).map (fun p => getProject fs p)).filterMap
    (fun o => match o with
      | some p => if p.status = ProjectStatus.active then some p else none
      | none => none)

/-- `getProject` exactly as the source executes it (src/index.ts:76-84):
`JSON.parse` of the file content with no shape validation — the
`as TaskProject` cast is erased at runtime, so a wrong-shape value is
returned to the caller rather than treated as absent. -/
def getProjectRaw (fs : Fs) (project : String) : Option Json :=
  match fs.tasksFiles with
  | none => none
  | some files =>
    match assocGet files (projectFileName project) with
    | none => none
    | some content => jsonParse content

/-- The `status` property access on a parsed value: a field of an object,
`undefined` (`none`) on any other shape. -/
def statusField : Json → Option Json
  | Json.jobj ms => jlookup ms "status"
  | _ => none

/-- The source's `p.status === "active"` test (src/index.ts:130), as a
boolean on the raw parsed value. -/
def statusIsActive (v : Json) : Bool :=
  match statusField v with
  | some (Json.jstr s) => s == "active"
  | _ => false

/-- `getActiveProjects` as the source executes it on raw parsed values
(src/index.ts:127-131): keep every non-null load whose `status` property is
the string `"active"` — wrong-shape values included, since nothing checks
the shape. -/
def getActiveProjectsRaw (fs : Fs) : List Json :=
  ((listProjects fs).map (fun p => getProjectRaw fs p)).filterMap
    (fun o => match o with
      | some v => if statusIsActive v then some v else none
      | none => none)

/-- The `===`-comparison against `"active"` succeeds exactly on an object
whose `status` field is that string. -/
theorem statusIsActive_iff (v : Json) :
    statusIsActive v = true ↔ statusField v = some (Json.jstr "active") := by
  rw [statusIsActive]
  cases h : statusField v with
  | none => simp
  | some j => cases j <;> simp

/-- The typed view is the raw load followed by the shape check. -/
theorem getProject_eq_raw (fs : Fs) (p : String) :
    getProject fs p = (getProjectRaw fs p).bind projectOfJson := by
  cases h1 : fs.tasksFiles with
  | none => simp [getProject, getProjectRaw, h1]
  | some files =>
    cases h2 : assocGet files (projectFileName p) with
    | none => simp [getProject, getProjectRaw, h1, h2]
    | some content => simp [getProject, getProjectRaw, h1, h2]

/-! ## The task-graph engine (src/index.ts:133-221)

Each fallible operation returns `Except`: the source throws before any
write, so an error leaves the stored state untouched (the caller keeps its
`Fs`). -/

/-- The `Error` values thrown by the engine, one constructor per distinct
message shape. -/
inductive StorageError where
  /-- Error: Project (name) not found — src/index.ts:157, 211. -/
  | projectNotFound (project : String)
  /-- Error: Task (id) not found in project (name) — src/index.ts:162. -/
  | taskNotFoundIn (taskId project : String)
  /-- Error: Task not found — src/index.ts:194. -/
  | taskNotFound
  /-- Error: Task (id) not found — src/index.ts:216. -/
  | taskNotFoundNamed (taskId : String)
deriving DecidableEq

/-- `data.tasks.find(t => t.id === taskId)`: the first task with the id. -/
def findTask (tasks : List Task) (taskId : String) : Option Task :=
  tasks.find? (fun t => t.id == taskId)

/-- In-place mutation of the object `find` returned: only the first match
is updated. -/
def updateFirst (p : Task → Bool) (f : Task → Task) : List Task → List Task
  | [] => []
  | t :: ts => if p t then f t :: ts else t :: updateFirst p f ts

/-- `data.tasks.reduce((max, t) => Math.max(max, parseInt(t.id) || 0), 0)`
(src/index.ts:139). -/
def maxNumericId (tasks : List Task) : Int :=
  tasks.foldl (fun m t => max m (parseIntOr0 t.id)) 0

/-- `addTask` (src/index.ts:133-152): load (creating the project when
absent), assign `String(maxId + 1)`, append a pending task with empty edge
sets, save.  The id computation is written over exact integers; the source
computes it in float64, which coincides exactly while `maxNumericId` is
below `2 ^ 53` (`maxNumericIdF_exact`, `addOneF_exact`) and saturates above
it (`createTask_ids_cex`), so claims about the assigned id carry that
guard. -/
def addTask (fs : Fs) (today project subject : String) : Task × Fs :=
  let pair :=
    match getProject fs project with
    | some d => (d, fs)
    | none => createProject fs today project
  let task : Task :=
    { id := intToString (maxNumericId pair.1.tasks + 1), subject := subject,
      status := .pending, blockedBy := [], blocks := [], notes := "" }
  (task, saveProject pair.2 today { pair.1 with tasks := pair.1.tasks ++ [task] })

/-- One iteration of the cascading-unblock loop (src/index.ts:170-178)
applied to one task: if its `blockedBy` contains the completed id, remove
it, and promote the task from `blocked` to `pending` when the set became
empty. -/
def cascadeTask (taskId : String) (t : Task) : Task :=
  if t.blockedBy.contains taskId then
    if (t.blockedBy.filter (fun i => i != taskId)).isEmpty ∧ t.status = .blocked then
      { t with blockedBy := t.blockedBy.filter (fun i => i != taskId), status := .pending }
    else { t with blockedBy := t.blockedBy.filter (fun i => i != taskId) }
  else t

/-- The condition under which the loop records a task id in `unblocked`. -/
def unblockedAfter (taskId : String) (t : Task) : Bool :=
  t.blockedBy.contains taskId &&
    (t.blockedBy.filter (fun i => i != taskId)).isEmpty && t.status == .blocked

/-- `updateTaskStatus` (src/index.ts:154-183).  The source's single `for`
loop both rewrites every task and collects the unblocked ids in task order;
it is modelled as a map with the same per-task update plus a filter with
the recording condition.  The returned task is the mutated object `find`
returned, i.e. the first id match after both mutations. -/
def updateTaskStatus (fs : Fs) (today project taskId : String) (status : TaskStatus) :
    Except StorageError ((Task × List String) × Fs) :=
  match getProject fs project with
  | none => .error (.projectNotFound project)
  | some data =>
    match findTask data.tasks taskId with
    | none => .error (.taskNotFoundIn taskId project)
    | some task =>
      let tasks1 := updateFirst (fun t => t.id == taskId)
        (fun t => { t with status := status }) data.tasks
      let tasks2 := if status = .completed then tasks1.map (cascadeTask taskId) else tasks1
      let unblocked := if status = .completed then
          (tasks1.filter (unblockedAfter taskId)).map (fun t => t.id)
        else []
      let task2 := if status = .completed then cascadeTask taskId { task with status := status }
        else { task with status := status }
      .ok ((task2, unblocked), saveProject fs today { data with tasks := tasks2 })

/-- `setBlocker` (src/index.ts:185-206).  `task` and `blocker` are
references into the array; the second membership test reads
`blocker.blocks`, which the first mutation never touches, so testing the
pre-state value is faithful, and applying the second update to the
once-updated list covers the aliasing when `taskId = blockerId`. -/
def setBlocker (fs : Fs) (today project taskId blockerId : String) :
    Except StorageError Fs :=
  match getProject fs project with
  | none => .error (.projectNotFound project)
  | some data =>
    match findTask data.tasks taskId, findTask data.tasks blockerId with
    | some task, some blocker =>
      let tasks1 :=
        if task.blockedBy.contains blockerId then data.tasks
        else updateFirst (fun t => t.id == taskId)
          (fun t => { t with blockedBy := t.blockedBy ++ [blockerId], status := .blocked })
          data.tasks
      let tasks2 :=
        if blocker.blocks.contains taskId then tasks1
        else updateFirst (fun t => t.id == blockerId)
          (fun t => { t with blocks := t.blocks ++ [taskId] }) tasks1
      .ok (saveProject fs today { data with tasks := tasks2 })
    | _, _ => .error .taskNotFound

/-- `updateTaskNotes` (src/index.ts:208-221). -/
def updateTaskNotes (fs : Fs) (today project taskId notes : String) :
    Except StorageError Fs :=
  match getProject fs project with
  | none => .error (.projectNotFound project)
  | some data =>
    match findTask data.tasks taskId with
    | none => .error (.taskNotFoundNamed taskId)
    | some _ =>
      .ok (saveProject fs today
        { data with
            tasks := updateFirst (fun t => t.id == taskId)
              (fun t => { t with notes := notes }) data.tasks })

/-! ## Engine runs -/

/-- One engine invocation, with the date the clock would stamp. -/
inductive Op where
  | create (today project subject : String)
  | set_status (today project taskId : String) (status : TaskStatus)
  | set_notes (today project taskId notes : String)
  | link (today project taskId blockerId : String)
deriving DecidableEq

/-- A thrown `NotFound` aborts the call before any write, so the caller's
stored state is unchanged. -/
def applyOp (fs : Fs) : Op → Fs
  | .create today project subject => (addTask fs today project subject).2
  | .set_status today project taskId status =>
    match updateTaskStatus fs today project taskId status with
    | .ok (_, fs2) => fs2
    | .error _ => fs
  | .set_notes today project taskId notes =>
    match updateTaskNotes fs today project taskId notes with
    | .ok fs2 => fs2
    | .error _ => fs
  | .link today project taskId blockerId =>
    match setBlocker fs today project taskId blockerId with
    | .ok fs2 => fs2
    | .error _ => fs

/-- The storage state after the constructor ran: both directories exist and
are empty. -/
def fs0 : Fs := { tasksFiles := some [], plansFiles := some [] }

/-- The stored state reached by a sequence of engine invocations. -/
def reach (ops : List Op) : Fs := ops.foldl applyOp fs0

/-! ## Storage round-trip and basic lemmas -/

theorem assocGet_put_self (l : List (String × String)) (k v : String) :
    assocGet (assocPut l k v) k = some v := by
  induction l with
  | nil => simp [assocPut, assocGet]
  | cons kv rest ih =>
    obtain ⟨k2, v2⟩ := kv
    by_cases h : k2 = k
    · simp [assocPut, h, assocGet]
    · simp [assocPut, h, assocGet, ih]

theorem assocGet_put_other (l : List (String × String)) (k k2 v : String) (h : k2 ≠ k) :
    assocGet (assocPut l k v) k2 = assocGet l k2 := by
  induction l with
  | nil => simp [assocPut, assocGet, Ne.symm h]
  | cons kv rest ih =>
    obtain ⟨k3, v3⟩ := kv
    by_cases h3 : k3 = k
    · subst h3
      simp [assocPut, assocGet, Ne.symm h]
    · simp [assocPut, h3, assocGet, ih]

theorem assocPut_put_same (l : List (String × String)) (k v : String) :
    assocPut (assocPut l k v) k v = assocPut l k v := by
  induction l with
  | nil => simp [assocPut]
  | cons kv rest ih =>
    obtain ⟨k2, v2⟩ := kv
    by_cases h : k2 = k
    · simp [assocPut, h]
    · simp [assocPut, h, ih]

theorem projectFileName_inj {a b : String} (h : projectFileName a = projectFileName b) :
    a = b := by
  have hd : a.data ++ ".json".data = b.data ++ ".json".data := by
    have := congrArg String.data h
    simpa [projectFileName, String.data_append] using this
  have hdat : a.data = b.data := List.append_cancel_right hd
  exact congrArg String.mk hdat

/-- Reading back the project just saved yields the record with the stamped
`updated` field: the serialization round-trips. -/
theorem getProject_save_self (fs : Fs) (today : String) (data : TaskProject) :
    getProject (saveProject fs today data) data.project =
      some { data with updated := today } := by
  show (match (saveProject fs today data).tasksFiles with
        | none => none
        | some files =>
          match assocGet files (projectFileName data.project) with
          | none => none
          | some content => (jsonParse content).bind projectOfJson) = _
  rw [show (saveProject fs today data).tasksFiles =
      some (assocPut (fs.tasksFiles.getD []) (projectFileName data.project)
        (String.mk (renderProject { data with updated := today }))) from rfl]
  show (match assocGet (assocPut (fs.tasksFiles.getD []) (projectFileName data.project)
          (String.mk (renderProject { data with updated := today })))
          (projectFileName data.project) with
        | none => none
        | some content => (jsonParse content).bind projectOfJson) = _
  rw [assocGet_put_self]
  show (jsonParse (String.mk (renderProject { data with updated := today }))).bind
      projectOfJson = _
  rw [parse_renderProject]

/-- Saving a project leaves every other project's record unchanged. -/
theorem getProject_save_other (fs : Fs) (today : String) (data : TaskProject) (q : String)
    (h : q ≠ data.project) :
    getProject (saveProject fs today data) q = getProject fs q := by
  have hne : projectFileName q ≠ projectFileName data.project :=
    fun he => h (projectFileName_inj he)
  show (match (saveProject fs today data).tasksFiles with
        | none => none
        | some files =>
          match assocGet files (projectFileName q) with
          | none => none
          | some content => (jsonParse content).bind projectOfJson) = getProject fs q
  rw [show (saveProject fs today data).tasksFiles =
      some (assocPut (fs.tasksFiles.getD []) (projectFileName data.project)
        (String.mk (renderProject { data with updated := today }))) from rfl]
  show (match assocGet (assocPut (fs.tasksFiles.getD []) (projectFileName data.project)
          (String.mk (renderProject { data with updated := today })))
          (projectFileName q) with
        | none => none
        | some content => (jsonParse content).bind projectOfJson) = getProject fs q
  rw [assocGet_put_other _ _ _ _ hne]
  cases hfs : fs.tasksFiles with
  | none =>
    rw [getProject, hfs]
    simp [assocGet]
  | some files =>
    rw [getProject, hfs]
    rfl

/-- `createProject` does not disturb other projects' records. -/
theorem getProject_create_other (fs : Fs) (today project q : String) (h : q ≠ project) :
    getProject (createProject fs today project).2 q = getProject fs q := by
  show getProject { saveProject fs today _ with plansFiles := _ } q = getProject fs q
  rw [show ∀ fs2 pl, getProject { fs2 with plansFiles := pl } q = getProject fs2 q from
    fun fs2 pl => rfl]
  exact getProject_save_other fs today _ q h

/-- `createProject` stores the fresh empty record under its name. -/
theorem getProject_create_self (fs : Fs) (today project : String) :
    getProject (createProject fs today project).2 project =
      some { project := project, status := .active, created := today, updated := today,
             tasks := [] } := by
  show getProject { saveProject fs today _ with plansFiles := _ } project = _
  rw [show ∀ fs2 pl, getProject { fs2 with plansFiles := pl } project = getProject fs2 project
    from fun fs2 pl => rfl]
  exact getProject_save_self fs today _

/-! ## Lemmas about task lists, `updateFirst`, `findTask`, `maxNumericId` -/

theorem updateFirst_length (p : Task → Bool) (f : Task → Task) (l : List Task) :
    (updateFirst p f l).length = l.length := by
  induction l with
  | nil => rfl
  | cons t ts ih =>
    by_cases h : p t
    · simp [updateFirst, h]
    · simp [updateFirst, h, ih]

theorem updateFirst_map_id {f : Task → Task} (hf : ∀ t, (f t).id = t.id)
    (p : Task → Bool) (l : List Task) :
    (updateFirst p f l).map (fun t => t.id) = l.map (fun t => t.id) := by
  induction l with
  | nil => rfl
  | cons t ts ih =>
    by_cases h : p t
    · simp [updateFirst, h, hf]
    · simp [updateFirst, h, ih]

theorem findTask_eq_some_id {l : List Task} {x : String} {t : Task}
    (h : findTask l x = some t) : t.id = x := by
  have := List.find?_some h
  simpa using this

theorem findTask_mem {l : List Task} {x : String} {t : Task}
    (h : findTask l x = some t) : t ∈ l :=
  List.mem_of_find?_eq_some h

theorem findTask_updateFirst_self {f : Task → Task} (hf : ∀ t, (f t).id = t.id)
    (x : String) (l : List Task) :
    findTask (updateFirst (fun t => t.id == x) f l) x = (findTask l x).map f := by
  induction l with
  | nil => rfl
  | cons t ts ih =>
    by_cases h : t.id = x
    · have hb : (t.id == x) = true := by simp [h]
      have hL : findTask (updateFirst (fun u => u.id == x) f (t :: ts)) x = some (f t) := by
        simp only [updateFirst, hb, if_true]
        exact List.find?_cons_of_pos _ (by simp [hf, h])
      have hR : findTask (t :: ts) x = some t := List.find?_cons_of_pos _ hb
      rw [hL, hR]
      rfl
    · have hb : (t.id == x) = false := by simp [h]
      have hL : findTask (updateFirst (fun u => u.id == x) f (t :: ts)) x =
          findTask (updateFirst (fun u => u.id == x) f ts) x := by
        simp only [updateFirst, hb, Bool.false_eq_true, if_false]
        exact List.find?_cons_of_neg _ (by simp [h])
      have hR : findTask (t :: ts) x = findTask ts x :=
        List.find?_cons_of_neg _ (by simp [h])
      rw [hL, hR, ih]

theorem findTask_updateFirst_other {f : Task → Task} (hf : ∀ t, (f t).id = t.id)
    (x y : String) (hxy : y ≠ x) (l : List Task) :
    findTask (updateFirst (fun t => t.id == x) f l) y = findTask l y := by
  induction l with
  | nil => rfl
  | cons t ts ih =>
    by_cases h : t.id = x
    · have hb : (t.id == x) = true := by simp [h]
      have hL : findTask (updateFirst (fun u => u.id == x) f (t :: ts)) y =
          findTask ts y := by
        simp only [updateFirst, hb, if_true]
        exact List.find?_cons_of_neg _ (by simp [hf, h]; exact Ne.symm hxy)
      have hR : findTask (t :: ts) y = findTask ts y :=
        List.find?_cons_of_neg _ (by simp [h]; exact Ne.symm hxy)
      rw [hL, hR]
    · have hb : (t.id == x) = false := by simp [h]
      by_cases hy : t.id = y
      · have hL : findTask (updateFirst (fun u => u.id == x) f (t :: ts)) y = some t := by
          simp only [updateFirst, hb, Bool.false_eq_true, if_false]
          exact List.find?_cons_of_pos _ (by simp [hy])
        have hR : findTask (t :: ts) y = some t :=
          List.find?_cons_of_pos _ (by simp [hy])
        rw [hL, hR]
      · have hL : findTask (updateFirst (fun u => u.id == x) f (t :: ts)) y =
            findTask (updateFirst (fun u => u.id == x) f ts) y := by
          simp only [updateFirst, hb, Bool.false_eq_true, if_false]
          exact List.find?_cons_of_neg _ (by simp [hy])
        have hR : findTask (t :: ts) y = findTask ts y :=
          List.find?_cons_of_neg _ (by simp [hy])
        rw [hL, hR, ih]

theorem findTask_map {g : Task → Task} (hg : ∀ t, (g t).id = t.id)
    (x : String) (l : List Task) :
    findTask (l.map g) x = (findTask l x).map g := by
  induction l with
  | nil => rfl
  | cons t ts ih =>
    by_cases h : t.id = x
    · have hL : findTask ((t :: ts).map g) x = some (g t) := by
        rw [List.map_cons]
        exact List.find?_cons_of_pos _ (by simp [hg, h])
      have hR : findTask (t :: ts) x = some t := List.find?_cons_of_pos _ (by simp [h])
      rw [hL, hR]
      rfl
    · have hL : findTask ((t :: ts).map g) x = findTask (ts.map g) x := by
        rw [List.map_cons]
        exact List.find?_cons_of_neg _ (by simp [hg, h])
      have hR : findTask (t :: ts) x = findTask ts x :=
        List.find?_cons_of_neg _ (by simp [h])
      rw [hL, hR, ih]

theorem findTask_append_left {l1 : List Task} {x : String} {t : Task}
    (h : findTask l1 x = some t) (l2 : List Task) :
    findTask (l1 ++ l2) x = some t := by
  rw [findTask, List.find?_append, show List.find? (fun u => u.id == x) l1 = some t from h]
  rfl

theorem findTask_append_right {l1 : List Task} {x : String}
    (h : findTask l1 x = none) (l2 : List Task) :
    findTask (l1 ++ l2) x = findTask l2 x := by
  rw [findTask, List.find?_append, show List.find? (fun u => u.id == x) l1 = none from h]
  rfl

theorem updateFirst_getElem (p : Task → Bool) (f : Task → Task) (l : List Task) :
    ∀ i : Nat, (updateFirst p f l)[i]? =
      (l[i]?).map (fun t => if i = l.findIdx p then f t else t) := by
  induction l with
  | nil => intro i; simp [updateFirst]
  | cons t ts ih =>
    intro i
    by_cases h : p t
    · simp only [updateFirst, h, if_true, List.findIdx_cons, cond_true]
      cases i with
      | zero => simp
      | succ j =>
        simp only [List.getElem?_cons_succ]
        cases hts : ts[j]? <;> simp

    · simp only [updateFirst, h, Bool.false_eq_true, if_false, List.findIdx_cons, cond_false]
      cases i with
      | zero => simp
      | succ j =>
        simp only [List.getElem?_cons_succ]
        rw [ih j]
        by_cases hidx : j = List.findIdx p ts
        · simp [hidx]
        · have hidx2 : ¬ (j + 1 = List.findIdx p ts + 1) := by omega
          cases hts : ts[j]? <;> simp [hidx, hidx2]

theorem string_contains_iff {x : String} {l : List String} : l.contains x = true ↔ x ∈ l := by
  simp [List.contains, List.elem_iff]

theorem cascadeTask_id (x : String) (t : Task) : (cascadeTask x t).id = t.id := by
  rw [cascadeTask]
  split_ifs <;> rfl

theorem cascadeTask_subject (x : String) (t : Task) :
    (cascadeTask x t).subject = t.subject := by
  rw [cascadeTask]
  split_ifs <;> rfl

theorem cascadeTask_notes (x : String) (t : Task) : (cascadeTask x t).notes = t.notes := by
  rw [cascadeTask]
  split_ifs <;> rfl

theorem cascadeTask_blocks (x : String) (t : Task) : (cascadeTask x t).blocks = t.blocks := by
  rw [cascadeTask]
  split_ifs <;> rfl

theorem filter_ne_of_not_mem {x : String} {l : List String} (h : ¬ x ∈ l) :
    l.filter (fun i => i != x) = l := by
  apply List.filter_eq_self.mpr
  intro a ha
  simp only [bne_iff_ne, ne_eq, decide_eq_true_eq]
  intro he
  exact h (he ▸ ha)

theorem cascadeTask_blockedBy (x : String) (t : Task) :
    (cascadeTask x t).blockedBy = t.blockedBy.filter (fun i => i != x) := by
  rw [cascadeTask]
  split_ifs with h1 h2
  · rfl
  · rfl
  · rw [filter_ne_of_not_mem (fun hm => h1 (string_contains_iff.mpr hm))]

theorem cascadeTask_status (x : String) (t : Task) :
    (cascadeTask x t).status =
      if t.blockedBy.contains x ∧ (t.blockedBy.filter (fun i => i != x)).isEmpty
          ∧ t.status = .blocked then .pending
      else t.status := by
  rw [cascadeTask]
  split_ifs with h1 h2 h3 h4 h5 <;> first | rfl | tauto

theorem maxNumericId_eq (l : List Task) :
    maxNumericId l = (l.map (fun t => parseIntOr0 t.id)).foldl max 0 := by
  rw [maxNumericId, List.foldl_map]

theorem le_foldl_max (l : List Int) : ∀ i : Int, i ≤ l.foldl max i := by
  induction l with
  | nil => intro i; simp
  | cons x xs ih =>
    intro i
    rw [List.foldl_cons]
    exact le_trans (le_max_left i x) (ih (max i x))

theorem mem_le_foldl_max (l : List Int) : ∀ (i x : Int), x ∈ l → x ≤ l.foldl max i := by
  induction l with
  | nil => intro i x h; cases h
  | cons y ys ih =>
    intro i x h
    rcases List.mem_cons.mp h with rfl | h2
    · exact le_trans (le_max_right i x) (le_foldl_max ys (max i x))
    · exact ih (max i y) x h2

theorem maxNumericId_nonneg (l : List Task) : 0 ≤ maxNumericId l := by
  rw [maxNumericId_eq]
  exact le_foldl_max _ 0

theorem maxNumericId_bound {t : Task} {l : List Task} (h : t ∈ l) :
    parseIntOr0 t.id ≤ maxNumericId l := by
  rw [maxNumericId_eq]
  exact mem_le_foldl_max _ 0 _ (List.mem_map_of_mem _ h)

theorem maxNumericId_append (l : List Task) (t : Task) :
    maxNumericId (l ++ [t]) = max (maxNumericId l) (parseIntOr0 t.id) := by
  simp [maxNumericId, List.foldl_append]

theorem maxNumericId_congr {l1 l2 : List Task}
    (h : l1.map (fun t => t.id) = l2.map (fun t => t.id)) :
    maxNumericId l1 = maxNumericId l2 := by
  rw [maxNumericId_eq, maxNumericId_eq]
  rw [show l1.map (fun t => parseIntOr0 t.id) = (l1.map (fun t => t.id)).map parseIntOr0 by
    rw [List.map_map]; rfl]
  rw [show l2.map (fun t => parseIntOr0 t.id) = (l2.map (fun t => t.id)).map parseIntOr0 by
    rw [List.map_map]; rfl]
  rw [h]

/-- Freshness of the assigned id against arbitrary stored id strings: a task
whose id were textually the canonical decimal of `maxId + 1` would have
parsed to a value above the computed maximum. -/
theorem id_ne_newId {l : List Task} {t : Task} (h : t ∈ l) :
    t.id ≠ intToString (maxNumericId l + 1) := by
  intro he
  have h1 : parseIntOr0 (intToString (maxNumericId l + 1)) = maxNumericId l + 1 :=
    parseIntOr0_intToString_pos (by have := maxNumericId_nonneg l; omega)
  have h2 := maxNumericId_bound h
  rw [he, h1] at h2
  omega

/-! ## The float64 value of the id computation

The source evaluates `parseInt(t.id)`, `Math.max` and `maxId + 1` on
binary64 floats.  Every value arising here is integer-valued, so a float is
represented by its exact integer value, with `none` for `Infinity`.  The
pipeline agrees with the exact-integer `maxNumericId` below `2 ^ 53`
(`maxNumericIdF_exact`, `addOneF_exact`) and saturates from `2 ^ 53` on
(`createTask_ids_cex`). -/

/-- Binary digits of a natural number (0 for 0), by fuelled halving so
that concrete values evaluate in the kernel. -/
def bitLenAux : Nat → Nat → Nat
  | 0, _ => 0
  | fuel + 1, n => if n = 0 then 0 else bitLenAux fuel (n / 2) + 1

/-- Binary digits of a positive natural number. -/
def bitLen (n : Nat) : Nat := bitLenAux n n

/-- Round-to-nearest, ties-to-even, of a natural number onto the binary64
grid, as its exact integer value; `none` is overflow to `Infinity`.  Below
`2 ^ 53` every integer is representable; above, the grid spacing is
`2 ^ (bitLen n - 53)`. -/
def roundFloat (n : Nat) : Option Nat :=
  if n < 2 ^ 53 then some n
  else
    let k := bitLen n - 53
    let q := n / 2 ^ k
    let r := n % 2 ^ k
    let q2 := if 2 ^ (k - 1) < r ∨ (r = 2 ^ (k - 1) ∧ q % 2 = 1) then q + 1 else q
    if q2 * 2 ^ k < 2 ^ 1024 then some (q2 * 2 ^ k) else none

/-- What `parseInt(id) || 0` contributes to the max fold of
src/index.ts:139 in float64: the exact parsed value rounded to binary64,
clamped at the fold's `0` floor (a negative parse never wins the max). -/
def parseIdF (id : String) : Option Nat :=
  match jsParseInt id with
  | none => some 0
  | some v => if v ≤ 0 then some 0 else roundFloat v.toNat

/-- `Math.max` on these nonnegative floats (`none` = `Infinity`). -/
def fmaxF : Option Nat → Option Nat → Option Nat
  | none, _ => none
  | _, none => none
  | some a, some b => some (max a b)

/-- `maxId` of src/index.ts:139 as the program computes it, in float64. -/
def maxNumericIdF (tasks : List Task) : Option Nat :=
  tasks.foldl (fun m t => fmaxF m (parseIdF t.id)) (some 0)

/-- `maxId + 1` (src/index.ts:141) in float64: the exact successor rounded
back to the grid.  From `2 ^ 53` on the increment can be absorbed:
`addOneF (some (2 ^ 53)) = some (2 ^ 53)`. -/
def addOneF : Option Nat → Option Nat
  | none => none
  | some m => roundFloat (m + 1)

set_option maxRecDepth 100000 in
theorem roundFloat_exact {n : Nat} (h : n ≤ 2 ^ 53) : roundFloat n = some n := by
  by_cases h2 : n < 2 ^ 53
  · rw [roundFloat, if_pos h2]
  · have h3 : n = 2 ^ 53 := by omega
    subst h3
    decide

theorem addOneF_exact {m : Nat} (h : m < 2 ^ 53) : addOneF (some m) = some (m + 1) := by
  show roundFloat (m + 1) = some (m + 1)
  exact roundFloat_exact (by omega)

theorem parseIdF_exact {id : String} (h : parseIntOr0 id ≤ 2 ^ 53) :
    parseIdF id = some (parseIntOr0 id).toNat := by
  rw [parseIntOr0] at h ⊢
  rw [parseIdF]
  cases hj : jsParseInt id with
  | none => simp
  | some v =>
    rw [hj] at h
    simp only [Option.getD_some] at h ⊢
    by_cases hv : v ≤ 0
    · rw [if_pos hv]
      congr 1
      omega
    · rw [if_neg hv]
      rw [roundFloat_exact (by omega)]

theorem foldF_exact : ∀ (l : List Task) (a : Nat),
    (∀ t ∈ l, parseIntOr0 t.id ≤ 2 ^ 53) →
    l.foldl (fun m t => fmaxF m (parseIdF t.id)) (some a) =
      some ((l.foldl (fun m t => max m (parseIntOr0 t.id)) ((a : Nat) : Int)).toNat)
  | [], a, h => by simp
  | t :: l, a, h => by
    rw [List.foldl_cons, List.foldl_cons]
    rw [parseIdF_exact (h t (List.mem_cons_self t l))]
    have hstep : fmaxF (some a) (some (parseIntOr0 t.id).toNat) =
        some (max ((a : Nat) : Int) (parseIntOr0 t.id)).toNat := by
      show some (max a (parseIntOr0 t.id).toNat) = _
      congr 1
      omega
    rw [hstep]
    rw [foldF_exact l (max ((a : Nat) : Int) (parseIntOr0 t.id)).toNat
      (fun u hu => h u (List.mem_cons_of_mem t hu))]
    have hnn : (0 : Int) ≤ max ((a : Nat) : Int) (parseIntOr0 t.id) :=
      le_trans (by exact_mod_cast Nat.zero_le a) (le_max_left _ _)
    rw [Int.toNat_of_nonneg hnn]

theorem maxNumericIdF_exact {tasks : List Task} (h : maxNumericId tasks ≤ 2 ^ 53) :
    maxNumericIdF tasks = some (maxNumericId tasks).toNat := by
  have hmem : ∀ t ∈ tasks, parseIntOr0 t.id ≤ 2 ^ 53 :=
    fun t ht => le_trans (maxNumericId_bound ht) h
  have h2 := foldF_exact tasks 0 hmem
  simp only [Nat.cast_zero] at h2
  exact h2

/-! ## Characterizations of the engine operations -/

theorem addTask_of_some {fs : Fs} {p : String} {data : TaskProject}
    (h : getProject fs p = some data) (today subject : String) :
    addTask fs today p subject =
      ({ id := intToString (maxNumericId data.tasks + 1), subject := subject,
         status := .pending, blockedBy := [], blocks := [], notes := "" },
       saveProject fs today
         { data with tasks := data.tasks ++
             [{ id := intToString (maxNumericId data.tasks + 1), subject := subject,
                status := .pending, blockedBy := [], blocks := [], notes := "" }] }) := by
  rw [addTask, h]

theorem addTask_of_none {fs : Fs} {p : String}
    (h : getProject fs p = none) (today subject : String) :
    addTask fs today p subject =
      ({ id := "1", subject := subject, status := .pending,
         blockedBy := [], blocks := [], notes := "" },
       saveProject (createProject fs today p).2 today
         { project := p, status := .active, created := today, updated := today,
           tasks := [{ id := "1", subject := subject, status := .pending,
                       blockedBy := [], blocks := [], notes := "" }] }) := by
  rw [addTask, h]
  have hc : (createProject fs today p).1 =
      { project := p, status := .active, created := today, updated := today,
        tasks := ([] : List Task) } := rfl
  rw [hc]
  rfl

theorem updateTaskStatus_err_proj {fs : Fs} {p : String}
    (h : getProject fs p = none) (today tid : String) (st : TaskStatus) :
    updateTaskStatus fs today p tid st = .error (.projectNotFound p) := by
  rw [updateTaskStatus, h]

theorem updateTaskStatus_err_task {fs : Fs} {p : String} {data : TaskProject}
    (h : getProject fs p = some data) (today tid : String) (st : TaskStatus)
    (hft : findTask data.tasks tid = none) :
    updateTaskStatus fs today p tid st = .error (.taskNotFoundIn tid p) := by
  simp only [updateTaskStatus, h, hft]

theorem updateTaskStatus_of_found {fs : Fs} {p : String} {data : TaskProject} {task : Task}
    (h : getProject fs p = some data) (today tid : String) (st : TaskStatus)
    (hft : findTask data.tasks tid = some task) :
    updateTaskStatus fs today p tid st =
      .ok (((if st = .completed then cascadeTask tid { task with status := st }
             else { task with status := st }),
            (if st = .completed then
              ((updateFirst (fun t => t.id == tid) (fun t => { t with status := st })
                data.tasks).filter (unblockedAfter tid)).map (fun t => t.id)
            else [])),
           saveProject fs today
             { data with tasks :=
                 (if st = .completed then
                   (updateFirst (fun t => t.id == tid) (fun t => { t with status := st })
                     data.tasks).map (cascadeTask tid)
                 else updateFirst (fun t => t.id == tid) (fun t => { t with status := st })
                   data.tasks) }) := by
  simp only [updateTaskStatus, h, hft]

theorem updateTaskNotes_err_proj {fs : Fs} {p : String}
    (h : getProject fs p = none) (today tid notes : String) :
    updateTaskNotes fs today p tid notes = .error (.projectNotFound p) := by
  rw [updateTaskNotes, h]

theorem updateTaskNotes_err_task {fs : Fs} {p : String} {data : TaskProject}
    (h : getProject fs p = some data) (today tid notes : String)
    (hft : findTask data.tasks tid = none) :
    updateTaskNotes fs today p tid notes = .error (.taskNotFoundNamed tid) := by
  simp only [updateTaskNotes, h, hft]

theorem updateTaskNotes_of_found {fs : Fs} {p : String} {data : TaskProject} {task : Task}
    (h : getProject fs p = some data) (today tid notes : String)
    (hft : findTask data.tasks tid = some task) :
    updateTaskNotes fs today p tid notes =
      .ok (saveProject fs today
        { data with tasks :=
            (updateFirst (fun t => t.id == tid)
              (fun t => { t with notes := notes }) data.tasks) }) := by
  simp only [updateTaskNotes, h, hft]

theorem setBlocker_err_proj {fs : Fs} {p : String}
    (h : getProject fs p = none) (today tid bid : String) :
    setBlocker fs today p tid bid = .error (.projectNotFound p) := by
  rw [setBlocker, h]

theorem setBlocker_err_task {fs : Fs} {p : String} {data : TaskProject}
    (h : getProject fs p = some data) (today tid bid : String)
    (hor : findTask data.tasks tid = none ∨ findTask data.tasks bid = none) :
    setBlocker fs today p tid bid = .error .taskNotFound := by
  simp only [setBlocker, h]
  rcases hor with hn | hn
  · rw [hn]
  · rw [hn]
    cases findTask data.tasks tid <;> rfl

/-- The resulting task list of a successful `setBlocker`. -/
def setBlockerTasks (tid bid : String) (task blocker : Task) (tasks : List Task) :
    List Task :=
  (fun tasks1 =>
    if blocker.blocks.contains tid then tasks1
    else updateFirst (fun u => u.id == bid)
      (fun u => { u with blocks := u.blocks ++ [tid] }) tasks1)
  (if task.blockedBy.contains bid then tasks
   else updateFirst (fun u => u.id == tid)
     (fun u => { u with blockedBy := u.blockedBy ++ [bid], status := .blocked }) tasks)

theorem setBlocker_of_found {fs : Fs} {p : String} {data : TaskProject}
    {task blocker : Task} (h : getProject fs p = some data) (today tid bid : String)
    (hft : findTask data.tasks tid = some task)
    (hfb : findTask data.tasks bid = some blocker) :
    setBlocker fs today p tid bid =
      .ok (saveProject fs today
        { data with tasks := setBlockerTasks tid bid task blocker data.tasks }) := by
  simp only [setBlocker, h, hft, hfb]
  rfl

theorem setBlocker_ok {fs fs2 : Fs} {today p tid bid : String}
    (h : setBlocker fs today p tid bid = .ok fs2) :
    ∃ data task blocker, getProject fs p = some data ∧
      findTask data.tasks tid = some task ∧ findTask data.tasks bid = some blocker ∧
      fs2 = saveProject fs today
        { data with tasks := setBlockerTasks tid bid task blocker data.tasks } := by
  cases hget : getProject fs p with
  | none => rw [setBlocker_err_proj hget] at h; cases h
  | some data =>
    cases hft : findTask data.tasks tid with
    | none => rw [setBlocker_err_task hget today tid bid (Or.inl hft)] at h; cases h
    | some task =>
      cases hfb : findTask data.tasks bid with
      | none => rw [setBlocker_err_task hget today tid bid (Or.inr hfb)] at h; cases h
      | some blocker =>
        rw [setBlocker_of_found hget today tid bid hft hfb] at h
        exact ⟨data, task, blocker, rfl, hft, hfb, (Except.ok.inj h).symm⟩

/-! ## Pointwise views of the list updates -/

theorem findTask_of_mem_nodup {l : List Task}
    (hn : (l.map (fun t => t.id)).Nodup) {t : Task} (ht : t ∈ l) :
    findTask l t.id = some t := by
  induction l with
  | nil => cases ht
  | cons a l ih =>
    simp only [List.map_cons, List.nodup_cons] at hn
    rcases List.mem_cons.mp ht with rfl | hmem
    · exact List.find?_cons_of_pos _ (by simp)
    · have hne : a.id ≠ t.id := fun he => hn.1 (he ▸ List.mem_map_of_mem _ hmem)
      have : findTask (a :: l) t.id = findTask l t.id :=
        List.find?_cons_of_neg _ (by simp [hne])
      rw [this]
      exact ih hn.2 hmem

theorem updateFirst_pointwise (p : Task → Bool) (f : Task → Task) :
    ∀ (l : List Task) (i : Nat) (t : Task), l[i]? = some t →
      ∃ u, (updateFirst p f l)[i]? = some u ∧ (u = t ∨ (u = f t ∧ p t = true))
  | [], i, t, h => by simp at h
  | a :: l, i, t, h => by
    by_cases hp : p a
    · cases i with
      | zero =>
        simp only [List.getElem?_cons_zero, Option.some.injEq] at h
        subst h
        exact ⟨f a, by simp [updateFirst, hp], Or.inr ⟨rfl, hp⟩⟩
      | succ j =>
        simp only [List.getElem?_cons_succ] at h
        exact ⟨t, by simp [updateFirst, hp, h], Or.inl rfl⟩
    · cases i with
      | zero =>
        simp only [List.getElem?_cons_zero, Option.some.injEq] at h
        subst h
        exact ⟨a, by simp [updateFirst, hp], Or.inl rfl⟩
      | succ j =>
        simp only [List.getElem?_cons_succ] at h
        obtain ⟨u, hu, hcase⟩ := updateFirst_pointwise p f l j t h
        exact ⟨u, by simp [updateFirst, hp, hu], hcase⟩

theorem updateFirst_pointwise_rev (p : Task → Bool) (f : Task → Task)
    (l : List Task) (i : Nat) (u : Task) (h : (updateFirst p f l)[i]? = some u) :
    ∃ t, l[i]? = some t ∧ (u = t ∨ (u = f t ∧ p t = true)) := by
  have hlt : i < l.length := by
    have h2 := h
    rw [List.getElem?_eq_some] at h2
    obtain ⟨hl, _⟩ := h2
    rw [updateFirst_length] at hl
    exact hl
  have ht : l[i]? = some (l.get ⟨i, hlt⟩) := List.getElem?_eq_getElem hlt
  obtain ⟨u2, hu2, hcase⟩ := updateFirst_pointwise p f l i _ ht
  rw [h] at hu2
  exact ⟨l.get ⟨i, hlt⟩, ht, by cases hu2; exact hcase⟩

/-! ## The task list produced by `setBlocker` -/

theorem findTask_updBB_self (tid bid : String) (l : List Task) :
    findTask (updateFirst (fun u => u.id == tid)
      (fun u => { u with blockedBy := u.blockedBy ++ [bid], status := TaskStatus.blocked })
      l) tid =
    (findTask l tid).map
      (fun u => { u with blockedBy := u.blockedBy ++ [bid], status := TaskStatus.blocked }) := by
  apply findTask_updateFirst_self
  intro t
  rfl

theorem findTask_updBB_other (tid bid y : String) (hy : y ≠ tid) (l : List Task) :
    findTask (updateFirst (fun u => u.id == tid)
      (fun u => { u with blockedBy := u.blockedBy ++ [bid], status := TaskStatus.blocked })
      l) y = findTask l y := by
  apply findTask_updateFirst_other _ tid y hy
  intro t
  rfl

theorem findTask_updBK_self (bid tid : String) (l : List Task) :
    findTask (updateFirst (fun u => u.id == bid)
      (fun u => { u with blocks := u.blocks ++ [tid] }) l) bid =
    (findTask l bid).map (fun u => { u with blocks := u.blocks ++ [tid] }) := by
  apply findTask_updateFirst_self
  intro t
  rfl

theorem findTask_updBK_other (bid tid y : String) (hy : y ≠ bid) (l : List Task) :
    findTask (updateFirst (fun u => u.id == bid)
      (fun u => { u with blocks := u.blocks ++ [tid] }) l) y = findTask l y := by
  apply findTask_updateFirst_other _ bid y hy
  intro t
  rfl

theorem updBB_map_id (tid bid : String) (l : List Task) :
    (updateFirst (fun u => u.id == tid)
      (fun u => { u with blockedBy := u.blockedBy ++ [bid], status := TaskStatus.blocked })
      l).map (fun t => t.id) = l.map (fun t => t.id) := by
  apply updateFirst_map_id
  intro t
  rfl

theorem updBK_map_id (bid tid : String) (l : List Task) :
    (updateFirst (fun u => u.id == bid)
      (fun u => { u with blocks := u.blocks ++ [tid] }) l).map (fun t => t.id) =
    l.map (fun t => t.id) := by
  apply updateFirst_map_id
  intro t
  rfl

theorem setBlockerTasks_map_id (tid bid : String) (task blocker : Task) (l : List Task) :
    (setBlockerTasks tid bid task blocker l).map (fun t => t.id) =
      l.map (fun t => t.id) := by
  simp only [setBlockerTasks]
  split_ifs <;> simp only [updBB_map_id, updBK_map_id]

theorem setBlockerTasks_find_tid {l : List Task} {task blocker : Task} {tid bid : String}
    (hne : tid ≠ bid) (hft : findTask l tid = some task) :
    findTask (setBlockerTasks tid bid task blocker l) tid =
      some (if task.blockedBy.contains bid then task
            else { task with blockedBy := task.blockedBy ++ [bid], status := TaskStatus.blocked }) := by
  simp only [setBlockerTasks]
  split_ifs with h1 h2 h3
  · exact hft
  · rw [findTask_updBB_self tid bid, hft]
    rfl
  · rw [findTask_updBK_other bid tid tid hne, hft]
  · rw [findTask_updBK_other bid tid tid hne, findTask_updBB_self tid bid, hft]
    rfl

theorem setBlockerTasks_find_bid {l : List Task} {task blocker : Task} {tid bid : String}
    (hne : tid ≠ bid) (hfb : findTask l bid = some blocker) :
    findTask (setBlockerTasks tid bid task blocker l) bid =
      some (if blocker.blocks.contains tid then blocker
            else { blocker with blocks := blocker.blocks ++ [tid] }) := by
  simp only [setBlockerTasks]
  split_ifs with h1 h2 h3
  · exact hfb
  · rw [findTask_updBB_other tid bid bid (Ne.symm hne), hfb]
  · rw [findTask_updBK_self bid tid, hfb]
    rfl
  · rw [findTask_updBK_self bid tid, findTask_updBB_other tid bid bid (Ne.symm hne), hfb]
    rfl

theorem setBlockerTasks_find_self {l : List Task} {task : Task} {tid : String}
    (hft : findTask l tid = some task) :
    findTask (setBlockerTasks tid tid task task l) tid =
      some { task with
        blockedBy := (if task.blockedBy.contains tid then task.blockedBy
          else task.blockedBy ++ [tid]),
        status := (if task.blockedBy.contains tid then task.status
          else TaskStatus.blocked),
        blocks := (if task.blocks.contains tid then task.blocks
          else task.blocks ++ [tid]) } := by
  simp only [setBlockerTasks]
  split_ifs with h1 h2 h3
  · exact hft
  · rw [findTask_updBB_self tid tid, hft]
    rfl
  · rw [findTask_updBK_self tid tid, hft]
    rfl
  · rw [findTask_updBK_self tid tid, findTask_updBB_self tid tid, hft]
    rfl

/-! ## The `unblocked` output of the completion cascade -/

theorem map_cascade_id (tid : String) (l : List Task) :
    (l.map (cascadeTask tid)).map (fun t => t.id) = l.map (fun t => t.id) := by
  simp [List.map_map, Function.comp, cascadeTask_id]

/-- The recording condition expressed over the pre-state: a task other than
the completed one that listed it as a blocker, had no other blocker, and was
in status `blocked`. -/
def unblockedCond (tid : String) (t : Task) : Bool :=
  t.id != tid && t.blockedBy.contains tid &&
    (t.blockedBy.filter (fun i => i != tid)).isEmpty && t.status == TaskStatus.blocked

theorem unblocked_eq (tid : String) (l : List Task)
    (hn : (l.map (fun t => t.id)).Nodup) :
    ((updateFirst (fun t => t.id == tid) (fun t => { t with status := TaskStatus.completed })
        l).filter (unblockedAfter tid)).map (fun t => t.id) =
    (l.filter (unblockedCond tid)).map (fun t => t.id) := by
  induction l with
  | nil => rfl
  | cons a l ih =>
    simp only [List.map_cons, List.nodup_cons] at hn
    by_cases ha : a.id = tid
    · have hb : (a.id == tid) = true := by simp [ha]
      have hcongr : ∀ t ∈ l, unblockedAfter tid t = unblockedCond tid t := by
        intro t htl
        have hne : t.id ≠ tid := fun he => hn.1 (ha ▸ he ▸ List.mem_map_of_mem _ htl)
        have hbt : (t.id != tid) = true := bne_iff_ne.mpr hne
        simp [unblockedAfter, unblockedCond, hbt]
      simp only [updateFirst, hb, if_true]
      rw [List.filter_cons, List.filter_cons]
      have h1 : unblockedAfter tid { a with status := TaskStatus.completed } = false := by
        simp [unblockedAfter]
      have h2 : unblockedCond tid a = false := by
        simp [unblockedCond, ha]
      rw [h1, h2]
      simp only [Bool.false_eq_true, if_false]
      rw [List.filter_congr hcongr]
    · have hb : (a.id == tid) = false := by simp [ha]
      have hc : unblockedCond tid a = unblockedAfter tid a := by
        have hbt : (a.id != tid) = true := bne_iff_ne.mpr ha
        simp [unblockedCond, unblockedAfter, hbt]
      simp only [updateFirst, hb, Bool.false_eq_true, if_false]
      rw [List.filter_cons, List.filter_cons, hc]
      cases hu : unblockedAfter tid a
      · simp only [Bool.false_eq_true, if_false]
        exact ih hn.2
      · simp only [if_true, List.map_cons]
        rw [ih hn.2]

/-! ## The reachable-state invariant -/

def IdsNodup (tasks : List Task) : Prop := (tasks.map (fun t => t.id)).Nodup

/-- Every `blockedBy` edge has an inverse: some task carrying the blocker id
lists the blocked task in its `blocks`. -/
def EdgeBack (tasks : List Task) : Prop :=
  ∀ t ∈ tasks, ∀ b ∈ t.blockedBy, ∃ tb ∈ tasks, tb.id = b ∧ t.id ∈ tb.blocks

/-- What holds of every stored record in a reachable state: the record sits
under its own project name, task ids are unique, and every `blockedBy` edge
has its inverse in the blocker's `blocks`. -/
def Inv (fs : Fs) : Prop :=
  ∀ name data, getProject fs name = some data →
    data.project = name ∧ IdsNodup data.tasks ∧ EdgeBack data.tasks

theorem inv_fs0 : Inv fs0 := by
  intro name data h
  simp [getProject, fs0, assocGet] at h

theorem mem_of_getElem_opt {l : List Task} {i : Nat} {u : Task}
    (h : l[i]? = some u) : u ∈ l := by
  rw [List.getElem?_eq_some] at h
  obtain ⟨hlt, he⟩ := h
  exact he ▸ List.getElem_mem hlt

theorem edgeBack_transfer {l l2 : List Task}
    (hpt : ∀ (i : Nat) (t : Task), l[i]? = some t →
      ∃ u, l2[i]? = some u ∧ u.id = t.id ∧ ∀ x ∈ t.blocks, x ∈ u.blocks)
    (h : EdgeBack l) {t : Task} (ht : t ∈ l) {b : String} (hb : b ∈ t.blockedBy) :
    ∃ tb ∈ l2, tb.id = b ∧ t.id ∈ tb.blocks := by
  obtain ⟨tb, htb, hid, hmem⟩ := h t ht b hb
  obtain ⟨j, hj, hget⟩ := List.getElem_of_mem htb
  have hj2 : l[j]? = some tb := by rw [List.getElem?_eq_getElem hj, hget]
  obtain ⟨u, hu, huid, hublocks⟩ := hpt j tb hj2
  exact ⟨u, mem_of_getElem_opt hu, huid.trans hid, hublocks _ hmem⟩

theorem updStatus_map_id (st : TaskStatus) (tid : String) (l : List Task) :
    (updateFirst (fun t => t.id == tid) (fun t => { t with status := st }) l).map
      (fun t => t.id) = l.map (fun t => t.id) := by
  apply updateFirst_map_id
  intro t
  rfl

theorem updNotes_map_id (nts tid : String) (l : List Task) :
    (updateFirst (fun t => t.id == tid) (fun t => { t with notes := nts }) l).map
      (fun t => t.id) = l.map (fun t => t.id) := by
  apply updateFirst_map_id
  intro t
  rfl

theorem setBlockerTasks_length (tid bid : String) (task blocker : Task) (l : List Task) :
    (setBlockerTasks tid bid task blocker l).length = l.length := by
  have h := congrArg List.length (setBlockerTasks_map_id tid bid task blocker l)
  simpa using h

theorem setBlockerTasks_pointwise (tid bid : String) (task blocker : Task)
    (l : List Task) :
    ∀ (i : Nat) (t : Task), l[i]? = some t →
      ∃ u, (setBlockerTasks tid bid task blocker l)[i]? = some u ∧ u.id = t.id ∧
        (∀ x ∈ t.blocks, x ∈ u.blocks) ∧
        (∀ b ∈ u.blockedBy, b ∈ t.blockedBy ∨ (b = bid ∧ u.id = tid)) := by
  intro i t ht
  simp only [setBlockerTasks]
  split_ifs with h1 h2 h3
  · exact ⟨t, ht, rfl, fun x hx => hx, fun b hb => Or.inl hb⟩
  · obtain ⟨u, hu, hcase⟩ := updateFirst_pointwise _ _ l i t ht
    rcases hcase with rfl | ⟨rfl, hp⟩
    · exact ⟨_, hu, rfl, fun x hx => hx, fun b hb => Or.inl hb⟩
    · refine ⟨_, hu, rfl, fun x hx => hx, fun b hb => ?_⟩
      rcases List.mem_append.mp hb with hb1 | hb2
      · exact Or.inl hb1
      · exact Or.inr ⟨by simpa using hb2, by simpa using hp⟩
  · obtain ⟨u, hu, hcase⟩ := updateFirst_pointwise _ _ l i t ht
    rcases hcase with rfl | ⟨rfl, hp⟩
    · exact ⟨_, hu, rfl, fun x hx => hx, fun b hb => Or.inl hb⟩
    · exact ⟨_, hu, rfl, fun x hx => List.mem_append_left _ hx, fun b hb => Or.inl hb⟩
  · obtain ⟨u1, hu1, hcase1⟩ := updateFirst_pointwise
      (fun u => u.id == tid)
      (fun u => { u with blockedBy := u.blockedBy ++ [bid], status := TaskStatus.blocked })
      l i t ht
    obtain ⟨u, hu, hcase2⟩ := updateFirst_pointwise
      (fun u => u.id == bid) (fun u => { u with blocks := u.blocks ++ [tid] }) _ i u1 hu1
    have hid1 : u1.id = t.id := by rcases hcase1 with rfl | ⟨rfl, _⟩ <;> rfl
    have hid2 : u.id = u1.id := by rcases hcase2 with rfl | ⟨rfl, _⟩ <;> rfl
    have hblocks1 : u1.blocks = t.blocks := by rcases hcase1 with rfl | ⟨rfl, _⟩ <;> rfl
    have hbb2 : u.blockedBy = u1.blockedBy := by rcases hcase2 with rfl | ⟨rfl, _⟩ <;> rfl
    refine ⟨u, hu, hid2.trans hid1, ?_, ?_⟩
    · intro x hx
      rcases hcase2 with rfl | ⟨rfl, _⟩
      · rw [hblocks1]
        exact hx
      · show x ∈ u1.blocks ++ [tid]
        exact List.mem_append_left _ (hblocks1 ▸ hx)
    · intro b hb
      rw [hbb2] at hb
      rcases hcase1 with rfl | ⟨rfl, hp⟩
      · exact Or.inl hb
      · rcases List.mem_append.mp hb with hb1 | hb2
        · exact Or.inl hb1
        · exact Or.inr ⟨by simpa using hb2, by rw [hid2.trans hid1]; simpa using hp⟩

theorem inv_save {fs : Fs} (h : Inv fs) (today : String) {D : TaskProject}
    (hnd : IdsNodup D.tasks) (heb : EdgeBack D.tasks) : Inv (saveProject fs today D) := by
  intro name data hd
  by_cases hname : name = D.project
  · subst hname
    rw [getProject_save_self] at hd
    obtain rfl : ({ D with updated := today } : TaskProject) = data := Option.some.inj hd
    exact ⟨rfl, hnd, heb⟩
  · rw [getProject_save_other fs today D name hname] at hd
    exact h name data hd

theorem inv_plans (fs : Fs) (pl : Option (List (String × String))) (h : Inv fs) :
    Inv { fs with plansFiles := pl } := by
  intro name data hd
  exact h name data hd

theorem inv_createProject (fs : Fs) (today q : String) (h : Inv fs) :
    Inv (createProject fs today q).2 := by
  apply inv_plans
  apply inv_save h today
  · simp [IdsNodup]
  · intro t ht b hb
    simp at ht

theorem edgeBack_of_rel {l l2 : List Task} (hlen : l2.length = l.length)
    (hrel : ∀ (i : Nat) (t u : Task), l[i]? = some t → l2[i]? = some u →
      u.id = t.id ∧ (∀ b ∈ u.blockedBy, b ∈ t.blockedBy) ∧ (∀ x ∈ t.blocks, x ∈ u.blocks))
    (heb : EdgeBack l) : EdgeBack l2 := by
  have hpt : ∀ (j : Nat) (t : Task), l[j]? = some t →
      ∃ v, l2[j]? = some v ∧ v.id = t.id ∧ ∀ x ∈ t.blocks, x ∈ v.blocks := by
    intro j t htj
    have hjl : j < l.length := (List.getElem?_eq_some.mp htj).1
    have hjl2 : j < l2.length := by rw [hlen]; exact hjl
    have hv : l2[j]? = some (l2.get ⟨j, hjl2⟩) := List.getElem?_eq_getElem hjl2
    obtain ⟨hid2, _, hbl⟩ := hrel j t _ htj hv
    exact ⟨_, hv, hid2, hbl⟩
  intro u hu b hb
  obtain ⟨i, hi, hgetu⟩ := List.getElem_of_mem hu
  have hu2 : l2[i]? = some u := by rw [List.getElem?_eq_getElem hi, hgetu]
  have hit : i < l.length := by rw [← hlen]; exact hi
  have ht : l[i]? = some (l.get ⟨i, hit⟩) := List.getElem?_eq_getElem hit
  obtain ⟨hid, hbb, _⟩ := hrel i _ u ht hu2
  obtain ⟨tb, htbm, htbid, htbbl⟩ :=
    edgeBack_transfer hpt heb (mem_of_getElem_opt ht) (hbb b hb)
  exact ⟨tb, htbm, htbid, hid ▸ htbbl⟩

theorem inv_applyOp (fs : Fs) (op : Op) (h : Inv fs) : Inv (applyOp fs op) := by
  cases op with
  | create today q subj =>
    show Inv (addTask fs today q subj).2
    cases hget : getProject fs q with
    | none =>
      rw [addTask_of_none hget]
      apply inv_save (inv_createProject fs today q h) today
      · simp [IdsNodup]
      · intro t ht b hb
        simp only [List.mem_singleton] at ht
        subst ht
        simp at hb
    | some d =>
      rw [addTask_of_some hget]
      obtain ⟨hproj, hnd, heb⟩ := h q d hget
      apply inv_save h today
      · simp only [IdsNodup, List.map_append, List.map_cons, List.map_nil]
        rw [List.nodup_append]
        refine ⟨hnd, List.nodup_singleton _, ?_⟩
        intro x hx hx2
        simp only [List.mem_singleton] at hx2
        obtain ⟨t, htmem, htid⟩ := List.mem_map.mp hx
        exact id_ne_newId htmem (htid.trans hx2)
      · intro t ht b hb
        rcases List.mem_append.mp ht with ht1 | ht2
        · obtain ⟨tb, htb, hid, hmem⟩ := heb t ht1 b hb
          exact ⟨tb, List.mem_append_left _ htb, hid, hmem⟩
        · simp only [List.mem_singleton] at ht2
          subst ht2
          simp at hb
  | set_status today q tid st =>
    show Inv (match updateTaskStatus fs today q tid st with
      | .ok (_, fs2) => fs2 | .error _ => fs)
    cases hget : getProject fs q with
    | none =>
      rw [updateTaskStatus_err_proj hget]
      exact h
    | some d =>
      cases hft : findTask d.tasks tid with
      | none =>
        rw [updateTaskStatus_err_task hget today tid st hft]
        exact h
      | some task =>
        rw [updateTaskStatus_of_found hget today tid st hft]
        obtain ⟨hproj, hnd, heb⟩ := h q d hget
        show Inv (saveProject fs today _)
        apply inv_save h today
        · by_cases hst : st = TaskStatus.completed
          · subst hst
            show IdsNodup ((updateFirst (fun t => t.id == tid)
              (fun t => { t with status := TaskStatus.completed }) d.tasks).map
                (cascadeTask tid))
            simp only [IdsNodup]
            rw [map_cascade_id, updStatus_map_id]
            exact hnd
          · simp only [if_neg hst, IdsNodup]
            rw [updStatus_map_id]
            exact hnd
        · by_cases hst : st = TaskStatus.completed
          · subst hst
            show EdgeBack ((updateFirst (fun t => t.id == tid)
              (fun t => { t with status := TaskStatus.completed }) d.tasks).map
                (cascadeTask tid))
            apply edgeBack_of_rel ?_ ?_ heb
            · rw [List.length_map, updateFirst_length]
            · intro i t u ht hu
              rw [List.getElem?_map] at hu
              obtain ⟨u1, hu1, hcase1⟩ := updateFirst_pointwise
                (fun t => t.id == tid) (fun t => { t with status := TaskStatus.completed })
                d.tasks i t ht
              rw [hu1] at hu
              rw [show Option.map (cascadeTask tid) (some u1) = some (cascadeTask tid u1)
                from rfl] at hu
              obtain rfl : cascadeTask tid u1 = u := Option.some.inj hu
              have hid1 : u1.id = t.id := by rcases hcase1 with rfl | ⟨rfl, _⟩ <;> rfl
              have hbb1 : u1.blockedBy = t.blockedBy := by
                rcases hcase1 with rfl | ⟨rfl, _⟩ <;> rfl
              have hbl1 : u1.blocks = t.blocks := by rcases hcase1 with rfl | ⟨rfl, _⟩ <;> rfl
              refine ⟨(cascadeTask_id tid u1).trans hid1, ?_, ?_⟩
              · intro b hb
                rw [cascadeTask_blockedBy, hbb1] at hb
                exact (List.mem_filter.mp hb).1
              · intro x hx
                rw [cascadeTask_blocks, hbl1]
                exact hx
          · simp only [if_neg hst]
            apply edgeBack_of_rel ?_ ?_ heb
            · rw [updateFirst_length]
            · intro i t u ht hu
              obtain ⟨u1, hu1, hcase1⟩ := updateFirst_pointwise
                (fun t => t.id == tid) (fun t => { t with status := st }) d.tasks i t ht
              rw [hu1] at hu
              obtain rfl : u1 = u := Option.some.inj hu
              rcases hcase1 with rfl | ⟨rfl, _⟩
              · exact ⟨rfl, fun b hb => hb, fun x hx => hx⟩
              · exact ⟨rfl, fun b hb => hb, fun x hx => hx⟩
  | set_notes today q tid nts =>
    show Inv (match updateTaskNotes fs today q tid nts with
      | .ok fs2 => fs2 | .error _ => fs)
    cases hget : getProject fs q with
    | none =>
      rw [updateTaskNotes_err_proj hget]
      exact h
    | some d =>
      cases hft : findTask d.tasks tid with
      | none =>
        rw [updateTaskNotes_err_task hget today tid nts hft]
        exact h
      | some task =>
        rw [updateTaskNotes_of_found hget today tid nts hft]
        obtain ⟨hproj, hnd, heb⟩ := h q d hget
        show Inv (saveProject fs today _)
        apply inv_save h today
        · simp only [IdsNodup]
          rw [updNotes_map_id]
          exact hnd
        · apply edgeBack_of_rel ?_ ?_ heb
          · rw [updateFirst_length]
          · intro i t u ht hu
            obtain ⟨u1, hu1, hcase1⟩ := updateFirst_pointwise
              (fun t => t.id == tid) (fun t => { t with notes := nts }) d.tasks i t ht
            rw [hu1] at hu
            obtain rfl : u1 = u := Option.some.inj hu
            rcases hcase1 with rfl | ⟨rfl, _⟩
            · exact ⟨rfl, fun b hb => hb, fun x hx => hx⟩
            · exact ⟨rfl, fun b hb => hb, fun x hx => hx⟩
  | link today q tid bid =>
    show Inv (match setBlocker fs today q tid bid with
      | .ok fs2 => fs2 | .error _ => fs)
    cases hget : getProject fs q with
    | none =>
      rw [setBlocker_err_proj hget]
      exact h
    | some d =>
      cases hft : findTask d.tasks tid with
      | none =>
        rw [setBlocker_err_task hget today tid bid (Or.inl hft)]
        exact h
      | some task =>
        cases hfb : findTask d.tasks bid with
        | none =>
          rw [setBlocker_err_task hget today tid bid (Or.inr hfb)]
          exact h
        | some blocker =>
          rw [setBlocker_of_found hget today tid bid hft hfb]
          obtain ⟨hproj, hnd, heb⟩ := h q d hget
          show Inv (saveProject fs today _)
          apply inv_save h today
          · simp only [IdsNodup]
            rw [setBlockerTasks_map_id]
            exact hnd
          · intro u hu b hb
            obtain ⟨i, hi, hgetu⟩ := List.getElem_of_mem hu
            have hu2 : (setBlockerTasks tid bid task blocker d.tasks)[i]? = some u := by
              rw [List.getElem?_eq_getElem hi, hgetu]
            have hit : i < d.tasks.length := by
              rw [← setBlockerTasks_length tid bid task blocker d.tasks]
              exact hi
            have ht : d.tasks[i]? = some (d.tasks.get ⟨i, hit⟩) :=
              List.getElem?_eq_getElem hit
            obtain ⟨u2, hu2b, huid, hublocks, hubb⟩ :=
              setBlockerTasks_pointwise tid bid task blocker d.tasks i _ ht
            rw [hu2] at hu2b
            obtain rfl : u = u2 := Option.some.inj hu2b
            rcases hubb b hb with hb1 | ⟨hbbid, hutid⟩
            · have hpt : ∀ (j : Nat) (t : Task), d.tasks[j]? = some t →
                  ∃ v, (setBlockerTasks tid bid task blocker d.tasks)[j]? = some v ∧
                    v.id = t.id ∧ ∀ x ∈ t.blocks, x ∈ v.blocks := by
                intro j t htj
                obtain ⟨v, hv, hvid, hvbl, _⟩ :=
                  setBlockerTasks_pointwise tid bid task blocker d.tasks j t htj
                exact ⟨v, hv, hvid, hvbl⟩
              obtain ⟨tb, htbm, htbid, htbbl⟩ :=
                edgeBack_transfer hpt heb (mem_of_getElem_opt ht) hb1
              exact ⟨tb, htbm, htbid, huid ▸ htbbl⟩
            · by_cases heq : tid = bid
              · subst heq
                obtain rfl : task = blocker := Option.some.inj (hft.symm.trans hfb)
                have hfind := setBlockerTasks_find_self hft
                refine ⟨_, findTask_mem hfind,
                  (findTask_eq_some_id hfind).trans hbbid.symm, ?_⟩
                rw [hutid]
                show tid ∈ (if task.blocks.contains tid then task.blocks
                  else task.blocks ++ [tid])
                split_ifs with hc
                · exact string_contains_iff.mp hc
                · exact List.mem_append_right _ (List.mem_singleton.mpr rfl)
              · have hfind := @setBlockerTasks_find_bid d.tasks task blocker tid bid heq hfb
                refine ⟨_, findTask_mem hfind,
                  (findTask_eq_some_id hfind).trans hbbid.symm, ?_⟩
                rw [hutid]
                split_ifs with hc
                · exact string_contains_iff.mp hc
                · exact List.mem_append_right _ (List.mem_singleton.mpr rfl)

theorem inv_foldl (ops : List Op) : ∀ fs : Fs, Inv fs → Inv (ops.foldl applyOp fs) := by
  induction ops with
  | nil => intro fs h; exact h
  | cons op ops ih =>
    intro fs h
    exact ih (applyOp fs op) (inv_applyOp fs op h)

theorem inv_reach (ops : List Op) : Inv (reach ops) :=
  inv_foldl ops fs0 inv_fs0

/-! ## Monotonicity of assigned task ids along a run -/

/-- The numeric ceiling `addTask` computes for project `p` in state `fs`. -/
def maxIdOf (fs : Fs) (p : String) : Int :=
  match getProject fs p with
  | some d => maxNumericId d.tasks
  | none => 0

/-- The id strings handed out by task creation for project `p` along a run. -/
def newIds (p : String) : Fs → List Op → List String
  | _, [] => []
  | fs, (Op.create today q subj) :: ops =>
    if q = p then (addTask fs today q subj).1.id ::
      newIds p (applyOp fs (Op.create today q subj)) ops
    else newIds p (applyOp fs (Op.create today q subj)) ops
  | fs, (Op.set_status today q tid st) :: ops =>
    newIds p (applyOp fs (Op.set_status today q tid st)) ops
  | fs, (Op.set_notes today q tid nts) :: ops =>
    newIds p (applyOp fs (Op.set_notes today q tid nts)) ops
  | fs, (Op.link today q tid bid) :: ops =>
    newIds p (applyOp fs (Op.link today q tid bid)) ops

theorem newIds_nil (p : String) (fs : Fs) : newIds p fs [] = [] := rfl

theorem newIds_create_self (p : String) (fs : Fs) (today subj : String) (ops : List Op) :
    newIds p fs (Op.create today p subj :: ops) =
      (addTask fs today p subj).1.id ::
        newIds p (applyOp fs (Op.create today p subj)) ops :=
  if_pos rfl

theorem newIds_create_ne (p : String) (fs : Fs) (today q subj : String) (ops : List Op)
    (hne : q ≠ p) :
    newIds p fs (Op.create today q subj :: ops) =
      newIds p (applyOp fs (Op.create today q subj)) ops :=
  if_neg hne

theorem newIds_status (p : String) (fs : Fs) (today q tid : String) (st : TaskStatus)
    (ops : List Op) :
    newIds p fs (Op.set_status today q tid st :: ops) =
      newIds p (applyOp fs (Op.set_status today q tid st)) ops := rfl

theorem newIds_notes (p : String) (fs : Fs) (today q tid nts : String) (ops : List Op) :
    newIds p fs (Op.set_notes today q tid nts :: ops) =
      newIds p (applyOp fs (Op.set_notes today q tid nts)) ops := rfl

theorem newIds_link (p : String) (fs : Fs) (today q tid bid : String) (ops : List Op) :
    newIds p fs (Op.link today q tid bid :: ops) =
      newIds p (applyOp fs (Op.link today q tid bid)) ops := rfl

theorem maxIdOf_nonneg (fs : Fs) (p : String) : 0 ≤ maxIdOf fs p := by
  rw [maxIdOf]
  cases getProject fs p with
  | none => exact le_refl 0
  | some d => exact maxNumericId_nonneg d.tasks

theorem maxIdOf_save_self (fs : Fs) (today : String) (D : TaskProject) :
    maxIdOf (saveProject fs today D) D.project = maxNumericId D.tasks := by
  rw [maxIdOf, getProject_save_self]

theorem maxIdOf_save_other (fs : Fs) (today : String) (D : TaskProject) (p : String)
    (hne : p ≠ D.project) :
    maxIdOf (saveProject fs today D) p = maxIdOf fs p := by
  rw [maxIdOf, getProject_save_other fs today D p hne, maxIdOf]

theorem maxIdOf_plans (fs : Fs) (pl : Option (List (String × String))) (p : String) :
    maxIdOf { fs with plansFiles := pl } p = maxIdOf fs p := rfl

theorem maxIdOf_save_tasks {fs : Fs} {today p : String} {d : TaskProject} (T : List Task)
    (hproj : d.project = p) :
    maxIdOf (saveProject fs today { d with tasks := T }) p = maxNumericId T := by
  subst hproj
  exact maxIdOf_save_self fs today { d with tasks := T }

theorem maxIdOf_save_explicit (fs : Fs) (today p : String) (pst : ProjectStatus)
    (cr up : String) (T : List Task) :
    maxIdOf (saveProject fs today
      { project := p, status := pst, created := cr, updated := up, tasks := T }) p =
    maxNumericId T :=
  maxIdOf_save_self fs today _

theorem maxIdOf_of_getProject {fs : Fs} {p : String} {d : TaskProject}
    (h : getProject fs p = some d) : maxIdOf fs p = maxNumericId d.tasks := by
  rw [maxIdOf, h]

theorem maxIdOf_of_none {fs : Fs} {p : String}
    (h : getProject fs p = none) : maxIdOf fs p = 0 := by
  rw [maxIdOf, h]

theorem maxIdOf_applyOp_status (fs : Fs) (today q tid : String) (st : TaskStatus)
    (p : String) (h : Inv fs) :
    maxIdOf (applyOp fs (Op.set_status today q tid st)) p = maxIdOf fs p := by
  show maxIdOf (match updateTaskStatus fs today q tid st with
    | .ok (_, fs2) => fs2 | .error _ => fs) p = maxIdOf fs p
  cases hget : getProject fs q with
  | none =>
    rw [updateTaskStatus_err_proj hget]
  | some d =>
    cases hft : findTask d.tasks tid with
    | none =>
      rw [updateTaskStatus_err_task hget today tid st hft]
    | some task =>
      rw [updateTaskStatus_of_found hget today tid st hft]
      obtain ⟨hproj, hnd, heb⟩ := h q d hget
      show maxIdOf (saveProject fs today _) p = maxIdOf fs p
      by_cases hp : p = q
      · subst hp
        rw [maxIdOf_save_tasks _ hproj, maxIdOf_of_getProject hget]
        apply maxNumericId_congr
        by_cases hst : st = TaskStatus.completed
        · rw [if_pos hst, map_cascade_id, updStatus_map_id]
        · rw [if_neg hst, updStatus_map_id]
      · rw [maxIdOf_save_other fs today _ p (by rw [hproj]; exact hp)]

theorem maxIdOf_applyOp_notes (fs : Fs) (today q tid nts : String)
    (p : String) (h : Inv fs) :
    maxIdOf (applyOp fs (Op.set_notes today q tid nts)) p = maxIdOf fs p := by
  show maxIdOf (match updateTaskNotes fs today q tid nts with
    | .ok fs2 => fs2 | .error _ => fs) p = maxIdOf fs p
  cases hget : getProject fs q with
  | none =>
    rw [updateTaskNotes_err_proj hget]
  | some d =>
    cases hft : findTask d.tasks tid with
    | none =>
      rw [updateTaskNotes_err_task hget today tid nts hft]
    | some task =>
      rw [updateTaskNotes_of_found hget today tid nts hft]
      obtain ⟨hproj, hnd, heb⟩ := h q d hget
      show maxIdOf (saveProject fs today _) p = maxIdOf fs p
      by_cases hp : p = q
      · subst hp
        rw [maxIdOf_save_tasks _ hproj, maxIdOf_of_getProject hget]
        apply maxNumericId_congr
        rw [updNotes_map_id]
      · rw [maxIdOf_save_other fs today _ p (by rw [hproj]; exact hp)]

theorem maxIdOf_applyOp_link (fs : Fs) (today q tid bid : String)
    (p : String) (h : Inv fs) :
    maxIdOf (applyOp fs (Op.link today q tid bid)) p = maxIdOf fs p := by
  show maxIdOf (match setBlocker fs today q tid bid with
    | .ok fs2 => fs2 | .error _ => fs) p = maxIdOf fs p
  cases hget : getProject fs q with
  | none =>
    rw [setBlocker_err_proj hget]
  | some d =>
    cases hft : findTask d.tasks tid with
    | none =>
      rw [setBlocker_err_task hget today tid bid (Or.inl hft)]
    | some task =>
      cases hfb : findTask d.tasks bid with
      | none =>
        rw [setBlocker_err_task hget today tid bid (Or.inr hfb)]
      | some blocker =>
        rw [setBlocker_of_found hget today tid bid hft hfb]
        obtain ⟨hproj, hnd, heb⟩ := h q d hget
        show maxIdOf (saveProject fs today _) p = maxIdOf fs p
        by_cases hp : p = q
        · subst hp
          rw [maxIdOf_save_tasks _ hproj, maxIdOf_of_getProject hget]
          apply maxNumericId_congr
          rw [setBlockerTasks_map_id]
        · rw [maxIdOf_save_other fs today _ p (by rw [hproj]; exact hp)]

theorem maxIdOf_applyOp_create_ne (fs : Fs) (today q subj p : String) (h : Inv fs)
    (hne : q ≠ p) :
    maxIdOf (applyOp fs (Op.create today q subj)) p = maxIdOf fs p := by
  show maxIdOf (addTask fs today q subj).2 p = maxIdOf fs p
  cases hget : getProject fs q with
  | none =>
    rw [addTask_of_none hget]
    show maxIdOf (saveProject (createProject fs today q).2 today _) p = maxIdOf fs p
    rw [maxIdOf_save_other _ today _ p (Ne.symm hne)]
    show maxIdOf { saveProject fs today _ with plansFiles := _ } p = maxIdOf fs p
    rw [maxIdOf_plans, maxIdOf_save_other _ today _ p (Ne.symm hne)]
  | some d =>
    rw [addTask_of_some hget]
    obtain ⟨hproj, hnd, heb⟩ := h q d hget
    show maxIdOf (saveProject fs today _) p = maxIdOf fs p
    rw [maxIdOf_save_other fs today _ p (by rw [hproj]; exact Ne.symm hne)]

theorem maxIdOf_applyOp_create_self (fs : Fs) (today subj p : String) (h : Inv fs) :
    maxIdOf (applyOp fs (Op.create today p subj)) p = maxIdOf fs p + 1 ∧
    parseIntOr0 (addTask fs today p subj).1.id = maxIdOf fs p + 1 := by
  show maxIdOf (addTask fs today p subj).2 p = maxIdOf fs p + 1 ∧
    parseIntOr0 (addTask fs today p subj).1.id = maxIdOf fs p + 1
  cases hget : getProject fs p with
  | none =>
    rw [addTask_of_none hget, maxIdOf_of_none hget]
    constructor
    · show maxIdOf (saveProject (createProject fs today p).2 today _) p = 0 + 1
      rw [maxIdOf_save_explicit]
      show max 0 (parseIntOr0 "1") = 0 + 1
      decide
    · show parseIntOr0 "1" = 0 + 1
      decide
  | some d =>
    rw [addTask_of_some hget, maxIdOf_of_getProject hget]
    obtain ⟨hproj, hnd, heb⟩ := h p d hget
    have hpos : (0 : Int) < maxNumericId d.tasks + 1 := by
      have := maxNumericId_nonneg d.tasks
      omega
    have hparse : parseIntOr0 (intToString (maxNumericId d.tasks + 1)) =
        maxNumericId d.tasks + 1 := parseIntOr0_intToString_pos hpos
    constructor
    · show maxIdOf (saveProject fs today _) p = maxNumericId d.tasks + 1
      rw [maxIdOf_save_tasks _ hproj, maxNumericId_append, hparse]
      have := maxNumericId_nonneg d.tasks
      omega
    · show parseIntOr0 (intToString (maxNumericId d.tasks + 1)) = maxNumericId d.tasks + 1
      exact hparse

theorem newIds_bound (p : String) : ∀ (ops : List Op) (fs : Fs), Inv fs →
    (∀ x ∈ (newIds p fs ops).map parseIntOr0, maxIdOf fs p < x) ∧
    ((newIds p fs ops).map parseIntOr0).Pairwise (fun a b => a < b) := by
  intro ops
  induction ops with
  | nil =>
    intro fs hinv
    constructor
    · intro x hx
      simp [newIds_nil] at hx
    · simp [newIds_nil]
  | cons op ops ih =>
    intro fs hinv
    have hinv2 := inv_applyOp fs op hinv
    cases op with
    | create today q subj =>
      by_cases hq : q = p
      · subst hq
        rw [newIds_create_self]
        obtain ⟨hmax, hparse⟩ := maxIdOf_applyOp_create_self fs today subj q hinv
        obtain ⟨ihb, ihp⟩ := ih (applyOp fs (Op.create today q subj)) hinv2
        rw [List.map_cons]
        constructor
        · intro x hx
          rcases List.mem_cons.mp hx with rfl | hx2
          · rw [hparse]
            omega
          · have h2 := ihb x hx2
            rw [hmax] at h2
            omega
        · rw [List.pairwise_cons]
          refine ⟨?_, ihp⟩
          intro x hx
          have h2 := ihb x hx
          rw [hmax] at h2
          rw [hparse]
          omega
      · rw [newIds_create_ne p fs today q subj ops hq]
        have hmax := maxIdOf_applyOp_create_ne fs today q subj p hinv hq
        obtain ⟨ihb, ihp⟩ := ih _ hinv2
        exact ⟨fun x hx => hmax ▸ ihb x hx, ihp⟩
    | set_status today q tid st =>
      rw [newIds_status]
      have hmax := maxIdOf_applyOp_status fs today q tid st p hinv
      obtain ⟨ihb, ihp⟩ := ih _ hinv2
      exact ⟨fun x hx => hmax ▸ ihb x hx, ihp⟩
    | set_notes today q tid nts =>
      rw [newIds_notes]
      have hmax := maxIdOf_applyOp_notes fs today q tid nts p hinv
      obtain ⟨ihb, ihp⟩ := ih _ hinv2
      exact ⟨fun x hx => hmax ▸ ihb x hx, ihp⟩
    | link today q tid bid =>
      rw [newIds_link]
      have hmax := maxIdOf_applyOp_link fs today q tid bid p hinv
      obtain ⟨ihb, ihp⟩ := ih _ hinv2
      exact ⟨fun x hx => hmax ▸ ihb x hx, ihp⟩

theorem maxIdOf_fs0 (p : String) : maxIdOf fs0 p = 0 := rfl

theorem newIds_pos (p : String) (ops : List Op) :
    ∀ x ∈ (newIds p fs0 ops).map parseIntOr0, 0 < x := by
  intro x hx
  have h := (newIds_bound p ops fs0 inv_fs0).1 x hx
  rw [maxIdOf_fs0] at h
  exact h

theorem newIds_pairwise (p : String) (ops : List Op) :
    ((newIds p fs0 ops).map parseIntOr0).Pairwise (fun a b => a < b) :=
  (newIds_bound p ops fs0 inv_fs0).2

theorem newIds_nodup (p : String) (ops : List Op) : (newIds p fs0 ops).Nodup := by
  have h := newIds_pairwise p ops
  rw [List.pairwise_map] at h
  exact h.imp (fun hab => by intro he; rw [he] at hab; exact lt_irrefl _ hab)

theorem newIds_le (p : String) : ∀ (ops : List Op) (fs : Fs), Inv fs →
    ∀ x ∈ (newIds p fs ops).map parseIntOr0, x ≤ maxIdOf fs p + (ops.length : Int) := by
  intro ops
  induction ops with
  | nil =>
    intro fs hinv x hx
    simp [newIds_nil] at hx
  | cons op ops ih =>
    intro fs hinv x hx
    have hinv2 := inv_applyOp fs op hinv
    cases op with
    | create today q subj =>
      by_cases hq : q = p
      · subst hq
        rw [newIds_create_self, List.map_cons] at hx
        obtain ⟨hmax, hparse⟩ := maxIdOf_applyOp_create_self fs today subj q hinv
        rcases List.mem_cons.mp hx with rfl | hx2
        · rw [hparse]
          simp only [List.length_cons]
          push_cast
          omega
        · have h2 := ih _ hinv2 x hx2
          rw [hmax] at h2
          simp only [List.length_cons] at h2 ⊢
          push_cast at h2 ⊢
          omega
      · rw [newIds_create_ne p fs today q subj ops hq] at hx
        have hmax := maxIdOf_applyOp_create_ne fs today q subj p hinv hq
        have h2 := ih _ hinv2 x hx
        rw [hmax] at h2
        simp only [List.length_cons] at h2 ⊢
        push_cast at h2 ⊢
        omega
    | set_status today q tid st =>
      rw [newIds_status] at hx
      have hmax := maxIdOf_applyOp_status fs today q tid st p hinv
      have h2 := ih _ hinv2 x hx
      rw [hmax] at h2
      simp only [List.length_cons] at h2 ⊢
      push_cast at h2 ⊢
      omega
    | set_notes today q tid nts =>
      rw [newIds_notes] at hx
      have hmax := maxIdOf_applyOp_notes fs today q tid nts p hinv
      have h2 := ih _ hinv2 x hx
      rw [hmax] at h2
      simp only [List.length_cons] at h2 ⊢
      push_cast at h2 ⊢
      omega
    | link today q tid bid =>
      rw [newIds_link] at hx
      have hmax := maxIdOf_applyOp_link fs today q tid bid p hinv
      have h2 := ih _ hinv2 x hx
      rw [hmax] at h2
      simp only [List.length_cons] at h2 ⊢
      push_cast at h2 ⊢
      omega

theorem newIds_le_fs0 (p : String) (ops : List Op) :
    ∀ x ∈ (newIds p fs0 ops).map parseIntOr0, x ≤ (ops.length : Int) := by
  intro x hx
  have h := newIds_le p ops fs0 inv_fs0 x hx
  rw [maxIdOf_fs0] at h
  omega

/-! ## The completion cascade, stated over the pre-state -/

/-- The spec's description of `setStatus(•, •, completed)` on the task list:
every task keeps its identity and position, loses the completed id from its
`blockedBy`, transitions `blocked → pending` exactly when the removal left no
blocker, is otherwise untouched, and `unblocked` lists the transitioned ids
in task order. -/
def CascadePost (tid : String) (tasksOld tasksNew : List Task)
    (unblocked : List String) : Prop :=
  (∀ t ∈ tasksOld, ∃ t2, findTask tasksNew t.id = some t2 ∧
    t2.blockedBy = t.blockedBy.filter (fun b => b != tid) ∧
    (t.id ≠ tid →
      t2.subject = t.subject ∧ t2.blocks = t.blocks ∧ t2.notes = t.notes ∧
      ((t.blockedBy.contains tid ∧ t.blockedBy.filter (fun b => b != tid) = [] ∧
          t.status = TaskStatus.blocked) →
        t2.status = TaskStatus.pending ∧ t.id ∈ unblocked) ∧
      (¬ (t.blockedBy.contains tid ∧ t.blockedBy.filter (fun b => b != tid) = [] ∧
          t.status = TaskStatus.blocked) →
        t2.status = t.status) ∧
      (¬ t.blockedBy.contains tid → t2 = t))) ∧
  unblocked = (tasksOld.filter (unblockedCond tid)).map (fun t => t.id)

theorem cascadePost_of_run {fs : Fs} {p : String} {data : TaskProject} {tid : String}
    {task : Task} (today : String)
    (h : getProject fs p = some data) (hp : data.project = p)
    (hn : IdsNodup data.tasks)
    (hft : findTask data.tasks tid = some task) :
    ∃ task2 unblocked fs2,
      updateTaskStatus fs today p tid TaskStatus.completed =
        .ok ((task2, unblocked), fs2) ∧
      ∃ data2, getProject fs2 p = some data2 ∧
        CascadePost tid data.tasks data2.tasks unblocked := by
  have hrun : updateTaskStatus fs today p tid TaskStatus.completed =
      .ok ((cascadeTask tid { task with status := TaskStatus.completed },
            ((updateFirst (fun t => t.id == tid)
                (fun t => { t with status := TaskStatus.completed })
                data.tasks).filter (unblockedAfter tid)).map (fun t => t.id)),
           saveProject fs today
             { data with tasks := (updateFirst (fun t => t.id == tid)
                 (fun t => { t with status := TaskStatus.completed })
                 data.tasks).map (cascadeTask tid) }) :=
    updateTaskStatus_of_found h today tid TaskStatus.completed hft
  refine ⟨_, _, _, hrun, ?_⟩
  have hg : getProject (saveProject fs today
      { data with tasks := (updateFirst (fun t => t.id == tid)
          (fun t => { t with status := TaskStatus.completed })
          data.tasks).map (cascadeTask tid) }) p =
      some { data with tasks := (updateFirst (fun t => t.id == tid)
          (fun t => { t with status := TaskStatus.completed })
          data.tasks).map (cascadeTask tid), updated := today } := by
    rw [← hp]
    exact getProject_save_self fs today _
  refine ⟨_, hg, ?_, ?_⟩
  · intro t ht
    obtain ⟨i, hi, hgt⟩ := List.getElem_of_mem ht
    have hti : data.tasks[i]? = some t := by rw [List.getElem?_eq_getElem hi, hgt]
    obtain ⟨u1, hu1, hcase1⟩ := updateFirst_pointwise (fun t => t.id == tid)
      (fun t => { t with status := TaskStatus.completed }) data.tasks i t hti
    have hT2i : ((updateFirst (fun t => t.id == tid)
        (fun t => { t with status := TaskStatus.completed })
        data.tasks).map (cascadeTask tid))[i]? = some (cascadeTask tid u1) := by
      rw [List.getElem?_map, hu1]
      rfl
    have hid1 : u1.id = t.id := by rcases hcase1 with rfl | ⟨rfl, _⟩ <;> rfl
    have hbb1 : u1.blockedBy = t.blockedBy := by rcases hcase1 with rfl | ⟨rfl, _⟩ <;> rfl
    have ht2id : (cascadeTask tid u1).id = t.id := (cascadeTask_id _ _).trans hid1
    have hnd2 : IdsNodup ((updateFirst (fun t => t.id == tid)
        (fun t => { t with status := TaskStatus.completed })
        data.tasks).map (cascadeTask tid)) := by
      simp only [IdsNodup]
      rw [map_cascade_id, updStatus_map_id]
      exact hn
    have hfind2 : findTask ((updateFirst (fun t => t.id == tid)
        (fun t => { t with status := TaskStatus.completed })
        data.tasks).map (cascadeTask tid)) t.id = some (cascadeTask tid u1) := by
      rw [← ht2id]
      exact findTask_of_mem_nodup hnd2 (mem_of_getElem_opt hT2i)
    refine ⟨cascadeTask tid u1, hfind2, ?_, ?_⟩
    · rw [cascadeTask_blockedBy, hbb1]
    · intro hne
      have hu1t : u1 = t := by
        rcases hcase1 with rfl | ⟨rfl, hp2⟩
        · rfl
        · exact absurd (by simpa using hp2) hne
      subst hu1t
      refine ⟨cascadeTask_subject tid u1, cascadeTask_blocks tid u1,
        cascadeTask_notes tid u1, ?_, ?_, ?_⟩
      · intro hcond
        obtain ⟨hc, hemp, hbl⟩ := hcond
        constructor
        · rw [cascadeTask_status]
          rw [if_pos ⟨hc, by rw [hemp]; rfl, hbl⟩]
        · rw [unblocked_eq tid data.tasks hn, List.mem_map]
          refine ⟨u1, List.mem_filter.mpr ⟨ht, ?_⟩, rfl⟩
          simp only [unblockedCond]
          have h1 : (u1.id != tid) = true := bne_iff_ne.mpr hne
          rw [h1, hc, hemp, hbl]
          rfl
      · intro hcond
        rw [cascadeTask_status, if_neg]
        intro hcond2
        obtain ⟨hc, hemp, hbl⟩ := hcond2
        exact hcond ⟨hc, List.isEmpty_iff.mp hemp, hbl⟩
      · intro hnc
        rw [cascadeTask, if_neg hnc]
  · exact unblocked_eq tid data.tasks hn
/-! ## Concrete scenarios used to instantiate the claims -/

/-- create A, create B, make task 2 blocked by task 1. -/
def wOps3 : List Op :=
  [Op.create "2026-01-01" "p" "A", Op.create "2026-01-01" "p" "B",
   Op.link "2026-01-01" "p" "2" "1"]

/-- The record stored for `p` after `wOps3`. -/
def wData3 : TaskProject :=
  { project := "p", status := ProjectStatus.active, created := "2026-01-01",
    updated := "2026-01-01",
    tasks := [{ id := "1", subject := "A", status := TaskStatus.pending,
                blockedBy := [], blocks := ["2"], notes := "" },
              { id := "2", subject := "B", status := TaskStatus.blocked,
                blockedBy := ["1"], blocks := [], notes := "" }] }

/-- `wOps3` followed by completing the blocker. -/
def cexOps : List Op :=
  wOps3 ++ [Op.set_status "2026-01-02" "p" "1" TaskStatus.completed]

/-- The record stored for `p` after `cexOps`: task 1 still lists 2 in
`blocks` although 2 no longer lists 1 in `blockedBy`. -/
def cexData : TaskProject :=
  { project := "p", status := ProjectStatus.active, created := "2026-01-01",
    updated := "2026-01-02",
    tasks := [{ id := "1", subject := "A", status := TaskStatus.completed,
                blockedBy := [], blocks := ["2"], notes := "" },
              { id := "2", subject := "B", status := TaskStatus.pending,
                blockedBy := [], blocks := [], notes := "" }] }

/-- A stored project with arbitrary (non-numeric, zero-padded, duplicated)
task ids. -/
def wDataIds : TaskProject :=
  { project := "p", status := ProjectStatus.active, created := "2026-01-01",
    updated := "2026-01-01",
    tasks := [{ id := "02", subject := "a", status := TaskStatus.pending,
                blockedBy := [], blocks := [], notes := "" },
              { id := "abc", subject := "b", status := TaskStatus.pending,
                blockedBy := [], blocks := [], notes := "" },
              { id := "7", subject := "c", status := TaskStatus.in_progress,
                blockedBy := [], blocks := [], notes := "" },
              { id := "7", subject := "d", status := TaskStatus.pending,
                blockedBy := [], blocks := [], notes := "" }] }

/-- A four-task project exercising every branch of the completion cascade. -/
def wDataCascade : TaskProject :=
  { project := "p", status := ProjectStatus.active, created := "2026-01-01",
    updated := "2026-01-01",
    tasks := [{ id := "1", subject := "a", status := TaskStatus.in_progress,
                blockedBy := [], blocks := ["2", "3", "4"], notes := "" },
              { id := "2", subject := "b", status := TaskStatus.blocked,
                blockedBy := ["1"], blocks := [], notes := "" },
              { id := "3", subject := "c", status := TaskStatus.blocked,
                blockedBy := ["1", "4"], blocks := [], notes := "" },
              { id := "4", subject := "d", status := TaskStatus.pending,
                blockedBy := ["1"], blocks := ["3"], notes := "" }] }

/-- A two-task project with no edges yet. -/
def wDataPair : TaskProject :=
  { project := "p", status := ProjectStatus.active, created := "2026-01-01",
    updated := "2026-01-01",
    tasks := [{ id := "1", subject := "a", status := TaskStatus.completed,
                blockedBy := [], blocks := [], notes := "" },
              { id := "2", subject := "b", status := TaskStatus.pending,
                blockedBy := [], blocks := [], notes := "" }] }

/-- A one-task project, for the self-blocking scenario. -/
def wDataSelf : TaskProject :=
  { project := "p", status := ProjectStatus.active, created := "2026-01-01",
    updated := "2026-01-01",
    tasks := [{ id := "1", subject := "a", status := TaskStatus.pending,
                blockedBy := [], blocks := [], notes := "" }] }

/-! ## The claims -/

/-- C1 (amended): in every state reachable through the engine's operations,
only the forward direction of the edge-inverse property holds: for every
task `t` and every `b ∈ t.blockedBy`, the task found under id `b` lists
`t.id` in its `blocks`.  The converse direction is refuted by
`edge_inverse_cex`: completing a task removes it from each dependent's
`blockedBy` but never removes the dependent from the completed task's
`blocks`. -/
theorem edge_inverse_forward (ops : List Op) (name : String) (data : TaskProject)
    (h : getProject (reach ops) name = some data) :
    ∀ t ∈ data.tasks, ∀ b ∈ t.blockedBy,
      ∃ tb, findTask data.tasks b = some tb ∧ t.id ∈ tb.blocks := by
  obtain ⟨hproj, hnd, heb⟩ := inv_reach ops name data h
  intro t ht b hb
  obtain ⟨tb, htbm, htbid, htbbl⟩ := heb t ht b hb
  refine ⟨tb, ?_, htbbl⟩
  rw [← htbid]
  exact findTask_of_mem_nodup hnd htbm

/-- C7: saving a record and loading it back under its project name yields
the record with only the `updated` field stamped to the save date. -/
theorem save_load_roundtrip (fs : Fs) (today : String) (P : TaskProject) :
    getProject (saveProject fs today P) P.project = some { P with updated := today } :=
  getProject_save_self fs today P

/-- A stored project at the float64 saturation point: one task whose id is
the decimal of `2 ^ 53` (exactly representable, so `parseInt` reads it
exactly). -/
def cexBigTasks : List Task :=
  [{ id := "9007199254740992", subject := "big", status := TaskStatus.pending,
     blockedBy := [], blocks := [], notes := "" }]

/-- C10 (amended): within the float64-exact range (computed maximum below
`2 ^ 53`), the id `addTask` assigns is distinct from every stored task id,
however arbitrary (non-numeric, padded, duplicated) those ids are — an id
textually equal to the canonical decimal of `maxId + 1` would have parsed
to a value above the computed maximum — and the float64 pipeline the source
executes computes exactly the modelled value.  From `2 ^ 53` on the claim
is false of the program: the saturated `maxId + 1` equals `maxId`, whose
decimal collides with the stored id (`addTask_id_fresh_cex`). -/
theorem addTask_id_fresh {fs : Fs} {p : String} {data : TaskProject}
    (today subject : String) (h : getProject fs p = some data)
    (hsafe : maxNumericId data.tasks < 2 ^ 53) :
    (∀ t ∈ data.tasks, t.id ≠ (addTask fs today p subject).1.id) ∧
    addOneF (maxNumericIdF data.tasks) =
      some ((maxNumericId data.tasks).toNat + 1) := by
  constructor
  · intro t ht
    rw [addTask_of_some h]
    exact id_ne_newId ht
  · rw [maxNumericIdF_exact (le_of_lt hsafe)]
    exact addOneF_exact (by have := maxNumericId_nonneg data.tasks; omega)

set_option maxRecDepth 100000 in
/-- C10 counterexample: with stored id `"9007199254740992"` the float64
increment of src/index.ts:141 is a no-op, so the id the source assigns —
the decimal of the saturated value — equals the stored id: a duplicate. -/
theorem addTask_id_fresh_cex :
    addOneF (maxNumericIdF cexBigTasks) = maxNumericIdF cexBigTasks ∧
    maxNumericIdF cexBigTasks = some (2 ^ 53) ∧
    natToString (2 ^ 53) ∈ cexBigTasks.map (fun t => t.id) := by
  refine ⟨by decide, by decide, by decide⟩

/-- C4 (amended): within the float64-exact range — a computed maximum below
`2 ^ 53`, which covers every run of fewer than `2 ^ 53` operations —
`addTask` appends a pending task with empty edge sets and notes whose id is
the decimal string of `1 +` the maximum parsed numeric id, and the float64
pipeline the source actually executes computes exactly that value; along
every such run from the empty store, the ids assigned in one project are
strictly increasing positive integers bounded by the run length and never
reused, however creates interleave with the other operations.  From
`2 ^ 53` on, the source's float64 `maxId + 1` saturates and the claimed
formula fails (`createTask_ids_cex`). -/
theorem createTask_ids :
    (∀ (fs : Fs) (p : String) (data : TaskProject) (today subject : String),
      getProject fs p = some data →
      maxNumericId data.tasks < 2 ^ 53 →
      ((addTask fs today p subject).1.status = TaskStatus.pending ∧
       (addTask fs today p subject).1.blockedBy = [] ∧
       (addTask fs today p subject).1.blocks = [] ∧
       (addTask fs today p subject).1.notes = "" ∧
       (addTask fs today p subject).1.id = intToString (maxNumericId data.tasks + 1) ∧
       getProject (addTask fs today p subject).2 data.project =
         some { data with
             tasks := data.tasks ++ [(addTask fs today p subject).1],
             updated := today }) ∧
      ((addTask fs today p subject).1.id =
        natToString ((maxNumericId data.tasks).toNat + 1) ∧
       addOneF (maxNumericIdF data.tasks) =
        some ((maxNumericId data.tasks).toNat + 1))) ∧
    (∀ (p : String) (ops : List Op), (ops.length : Int) < 2 ^ 53 →
      (∀ x ∈ (newIds p fs0 ops).map parseIntOr0, 0 < x ∧ x ≤ (ops.length : Int)) ∧
      ((newIds p fs0 ops).map parseIntOr0).Pairwise (fun a b => a < b) ∧
      (newIds p fs0 ops).Nodup) := by
  constructor
  · intro fs p data today subject hget hsafe
    have hnn := maxNumericId_nonneg data.tasks
    constructor
    · rw [addTask_of_some hget]
      exact ⟨rfl, rfl, rfl, rfl, rfl, getProject_save_self fs today _⟩
    · constructor
      · rw [addTask_of_some hget]
        show intToString (maxNumericId data.tasks + 1) = _
        rw [intToString, if_neg (show ¬ (maxNumericId data.tasks + 1 < 0) by omega)]
        congr 1
        omega
      · rw [maxNumericIdF_exact (le_of_lt hsafe)]
        exact addOneF_exact (by omega)
  · intro p ops hlen
    exact ⟨fun x hx => ⟨newIds_pos p ops x hx, newIds_le_fs0 p ops x hx⟩,
      newIds_pairwise p ops, newIds_nodup p ops⟩

set_option maxRecDepth 100000 in
/-- C4 counterexample: at `cexBigTasks` the float64 `maxId + 1` the source
computes (src/index.ts:141) is absorbed — the exact successor `2 ^ 53 + 1`
lies halfway between the representable neighbours `2 ^ 53` and
`2 ^ 53 + 2` and ties-to-even rounds it back down — so the program assigns
`String(2 ^ 53) = "9007199254740992"`, not the claimed decimal of
`1 + max`, which is `"9007199254740993"`. -/
theorem createTask_ids_cex :
    maxNumericIdF cexBigTasks = some (2 ^ 53) ∧
    addOneF (maxNumericIdF cexBigTasks) = some (2 ^ 53) ∧
    natToString (2 ^ 53) = "9007199254740992" ∧
    intToString (maxNumericId cexBigTasks + 1) = "9007199254740993" := by
  refine ⟨by decide, by decide, by decide, by decide⟩

/-- A stored file that parses to valid JSON of the wrong shape, carrying an
`"active"` status field. -/
def junkJson : Json := Json.jobj [("status", Json.jstr "active")]

def fsJunk : Fs :=
  { tasksFiles := some [("p.json", "\x7b\"status\": \"active\"\x7d")],
    plansFiles := some [] }

/-- C5 (amended): each mutating operation fails with its NotFound error and
leaves the stored state completely unchanged when the project file is
genuinely absent or unreadable — missing directory, missing file, or a
content `JSON.parse` rejects (`getProjectRaw … = none`) — or when the file
loads as a well-shaped record in which a referenced task id does not
resolve.  The original claim's wider "record absent" reading is refuted by
`notfound_cex`: a file that parses to a wrong-shape value passes the
source's `if (!project)` null-check, and the mutation then dereferences a
missing `tasks` field (a TypeError) instead of raising NotFound. -/
theorem notfound_errors_atomic (fs : Fs) (today p tid bid nts : String) (st : TaskStatus) :
    (getProjectRaw fs p = none →
      updateTaskStatus fs today p tid st = .error (.projectNotFound p) ∧
      setBlocker fs today p tid bid = .error (.projectNotFound p) ∧
      updateTaskNotes fs today p tid nts = .error (.projectNotFound p) ∧
      applyOp fs (Op.set_status today p tid st) = fs ∧
      applyOp fs (Op.link today p tid bid) = fs ∧
      applyOp fs (Op.set_notes today p tid nts) = fs) ∧
    (∀ data, getProject fs p = some data →
      (findTask data.tasks tid = none →
        updateTaskStatus fs today p tid st = .error (.taskNotFoundIn tid p) ∧
        updateTaskNotes fs today p tid nts = .error (.taskNotFoundNamed tid) ∧
        applyOp fs (Op.set_status today p tid st) = fs ∧
        applyOp fs (Op.set_notes today p tid nts) = fs) ∧
      ((findTask data.tasks tid = none ∨ findTask data.tasks bid = none) →
        setBlocker fs today p tid bid = .error .taskNotFound ∧
        applyOp fs (Op.link today p tid bid) = fs)) := by
  constructor
  · intro hraw
    have hget : getProject fs p = none := by
      rw [getProject_eq_raw, hraw]
      rfl
    refine ⟨updateTaskStatus_err_proj hget today tid st,
      setBlocker_err_proj hget today tid bid,
      updateTaskNotes_err_proj hget today tid nts, ?_, ?_, ?_⟩
    · show (match updateTaskStatus fs today p tid st with
        | .ok (_, fs2) => fs2 | .error _ => fs) = fs
      rw [updateTaskStatus_err_proj hget today tid st]
    · show (match setBlocker fs today p tid bid with
        | .ok fs2 => fs2 | .error _ => fs) = fs
      rw [setBlocker_err_proj hget today tid bid]
    · show (match updateTaskNotes fs today p tid nts with
        | .ok fs2 => fs2 | .error _ => fs) = fs
      rw [updateTaskNotes_err_proj hget today tid nts]
  · intro data hget
    constructor
    · intro hft
      refine ⟨updateTaskStatus_err_task hget today tid st hft,
        updateTaskNotes_err_task hget today tid nts hft, ?_, ?_⟩
      · show (match updateTaskStatus fs today p tid st with
          | .ok (_, fs2) => fs2 | .error _ => fs) = fs
        rw [updateTaskStatus_err_task hget today tid st hft]
      · show (match updateTaskNotes fs today p tid nts with
          | .ok fs2 => fs2 | .error _ => fs) = fs
        rw [updateTaskNotes_err_task hget today tid nts hft]
    · intro hor
      refine ⟨setBlocker_err_task hget today tid bid hor, ?_⟩
      show (match setBlocker fs today p tid bid with
        | .ok fs2 => fs2 | .error _ => fs) = fs
      rw [setBlocker_err_task hget today tid bid hor]

/-- C8 (amended): the non-mutating reads never raise: a missing tasks
directory degrades both listings to empty results; a missing file or a
content `JSON.parse` rejects loads as absent; and the active-projects
listing returns exactly the values that listed and loaded — of any shape,
since the `as TaskProject` cast checks nothing — whose `status` property is
the string `"active"`.  The original claim's "malformed records are treated
as if the project never existed" is refuted by `reads_never_fail_cex`: a
well-formed JSON file of the wrong shape is returned by the load and
included in the active listing, not treated as absent. -/
theorem reads_never_fail :
    (∀ pf, listProjects { tasksFiles := none, plansFiles := pf } = []) ∧
    (∀ pf, getActiveProjectsRaw { tasksFiles := none, plansFiles := pf } = []) ∧
    (∀ (fs : Fs) (name : String), fs.tasksFiles = none → getProjectRaw fs name = none) ∧
    (∀ files pf name, assocGet files (projectFileName name) = none →
      getProjectRaw { tasksFiles := some files, plansFiles := pf } name = none) ∧
    (∀ files pf name content, assocGet files (projectFileName name) = some content →
      jsonParse content = none →
      getProjectRaw { tasksFiles := some files, plansFiles := pf } name = none) ∧
    (∀ (fs : Fs) (v : Json), v ∈ getActiveProjectsRaw fs →
      ∃ name, name ∈ listProjects fs ∧ getProjectRaw fs name = some v ∧
        statusField v = some (Json.jstr "active")) := by
  refine ⟨fun pf => rfl, fun pf => rfl, ?_, ?_, ?_, ?_⟩
  · intro fs name h
    show (match fs.tasksFiles with
      | none => none
      | some files =>
        match assocGet files (projectFileName name) with
        | none => none
        | some content => jsonParse content) = none
    rw [h]
  · intro files pf name h
    show (match assocGet files (projectFileName name) with
      | none => none
      | some content => jsonParse content) = none
    rw [h]
  · intro files pf name content h hparse
    show (match assocGet files (projectFileName name) with
      | none => none
      | some content => jsonParse content) = none
    rw [h]
    exact hparse
  · intro fs v hv
    simp only [getActiveProjectsRaw] at hv
    obtain ⟨o, ho, hgo⟩ := List.mem_filterMap.mp hv
    obtain ⟨name, hname, rfl⟩ := List.mem_map.mp ho
    cases hg : getProjectRaw fs name with
    | none =>
      rw [hg] at hgo
      cases hgo
    | some j =>
      rw [hg] at hgo
      by_cases hact : statusIsActive j
      · rw [show (match some j with
            | some v => if statusIsActive v then some v else none
            | none => none) = if statusIsActive j then some j else none from rfl,
          if_pos hact] at hgo
        obtain rfl : j = v := Option.some.inj hgo
        exact ⟨name, hname, hg, (statusIsActive_iff j).mp hact⟩
      · rw [show (match some j with
            | some v => if statusIsActive v then some v else none
            | none => none) = if statusIsActive j then some j else none from rfl,
          if_neg hact] at hgo
        cases hgo

/-- C2: completing an existing task removes its id from every task's
`blockedBy`, transitions `blocked → pending` exactly for the tasks whose
`blockedBy` that removal empties and whose status was exactly `blocked`
(returned in task-sequence order in `unblocked`), leaves statuses otherwise
unchanged, and touches nothing else — in particular the cascade is
single-hop: a task not listing the completed id is left exactly as it was. -/
theorem completed_cascade {fs : Fs} {p : String} {data : TaskProject} {tid : String}
    {task : Task} (today : String)
    (h : getProject fs p = some data) (hp : data.project = p)
    (hn : IdsNodup data.tasks) (hft : findTask data.tasks tid = some task) :
    ∃ task2 unblocked fs2,
      updateTaskStatus fs today p tid TaskStatus.completed =
        .ok ((task2, unblocked), fs2) ∧
      ∃ data2, getProject fs2 p = some data2 ∧
        CascadePost tid data.tasks data2.tasks unblocked :=
  cascadePost_of_run today h hp hn hft

/-- C3: after a successful `setBlocker`, the blocker id is in the task's
`blockedBy` and the task id is in the blocker's `blocks`; when the edge was
new, the task's status is force-set to `blocked` regardless of its previous
status. -/
theorem linkBlocker_post {fs : Fs} {p : String} {data : TaskProject}
    {task blocker : Task} (today tid bid : String)
    (h : getProject fs p = some data) (hp : data.project = p)
    (hft : findTask data.tasks tid = some task)
    (hfb : findTask data.tasks bid = some blocker) :
    ∃ fs2, setBlocker fs today p tid bid = .ok fs2 ∧
      ∃ data2, getProject fs2 p = some data2 ∧
        ∃ task2 blocker2,
          findTask data2.tasks tid = some task2 ∧
          findTask data2.tasks bid = some blocker2 ∧
          bid ∈ task2.blockedBy ∧ tid ∈ blocker2.blocks ∧
          (bid ∉ task.blockedBy → task2.status = TaskStatus.blocked) := by
  have hrun := setBlocker_of_found h today tid bid hft hfb
  refine ⟨_, hrun, ?_⟩
  have hg : getProject (saveProject fs today
      { data with tasks := setBlockerTasks tid bid task blocker data.tasks }) p =
      some { data with
          tasks := setBlockerTasks tid bid task blocker data.tasks,
          updated := today } := by
    rw [← hp]
    exact getProject_save_self fs today _
  refine ⟨_, hg, ?_⟩
  by_cases heq : tid = bid
  · subst heq
    obtain rfl : task = blocker := Option.some.inj (hft.symm.trans hfb)
    have hfind := setBlockerTasks_find_self hft
    refine ⟨_, _, hfind, hfind, ?_, ?_, ?_⟩
    · show tid ∈ (if task.blockedBy.contains tid then task.blockedBy
        else task.blockedBy ++ [tid])
      split_ifs with hc
      · exact string_contains_iff.mp hc
      · exact List.mem_append_right _ (List.mem_singleton.mpr rfl)
    · show tid ∈ (if task.blocks.contains tid then task.blocks
        else task.blocks ++ [tid])
      split_ifs with hc
      · exact string_contains_iff.mp hc
      · exact List.mem_append_right _ (List.mem_singleton.mpr rfl)
    · intro hnb
      show (if task.blockedBy.contains tid then task.status else TaskStatus.blocked) =
        TaskStatus.blocked
      rw [if_neg (fun hc => hnb (string_contains_iff.mp hc))]
  · have hfindt := @setBlockerTasks_find_tid data.tasks task blocker tid bid heq hft
    have hfindb := @setBlockerTasks_find_bid data.tasks task blocker tid bid heq hfb
    refine ⟨_, _, hfindt, hfindb, ?_, ?_, ?_⟩
    · split_ifs with hc
      · exact string_contains_iff.mp hc
      · exact List.mem_append_right _ (List.mem_singleton.mpr rfl)
    · split_ifs with hc
      · exact string_contains_iff.mp hc
      · exact List.mem_append_right _ (List.mem_singleton.mpr rfl)
    · intro hnb
      split_ifs with hc
      · exact absurd (string_contains_iff.mp hc) hnb
      · rfl

/-- Re-saving the just-saved record (with its stamped date) writes the same
bytes under the same key and leaves the store unchanged. -/
theorem saveProject_resave (fs : Fs) (today : String) (D : TaskProject) :
    saveProject (saveProject fs today D) today { D with updated := today } =
      saveProject fs today D := by
  show ({ fs with tasksFiles := some (assocPut
      (assocPut (fs.tasksFiles.getD []) (projectFileName D.project)
        (String.mk (renderProject { D with updated := today })))
      (projectFileName D.project)
      (String.mk (renderProject { D with updated := today }))) } : Fs) =
    { fs with tasksFiles := some (assocPut (fs.tasksFiles.getD [])
      (projectFileName D.project)
      (String.mk (renderProject { D with updated := today }))) }
  rw [assocPut_put_same]

/-- C6: `setBlocker` is idempotent — when a first call succeeds, repeating
it with the same arguments succeeds and returns exactly the same stored
state. -/
theorem linkBlocker_idempotent {fs : Fs} {p : String} {data : TaskProject}
    {task blocker : Task} (today tid bid : String)
    (h : getProject fs p = some data) (hp : data.project = p)
    (hft : findTask data.tasks tid = some task)
    (hfb : findTask data.tasks bid = some blocker) :
    ∃ fs2, setBlocker fs today p tid bid = .ok fs2 ∧
      setBlocker fs2 today p tid bid = .ok fs2 := by
  have hrun := setBlocker_of_found h today tid bid hft hfb
  refine ⟨_, hrun, ?_⟩
  have hg : getProject (saveProject fs today
      { data with tasks := setBlockerTasks tid bid task blocker data.tasks }) p =
      some { data with
          tasks := setBlockerTasks tid bid task blocker data.tasks,
          updated := today } := by
    rw [← hp]
    exact getProject_save_self fs today _
  by_cases heq : tid = bid
  · subst heq
    obtain rfl : task = blocker := Option.some.inj (hft.symm.trans hfb)
    have hfind := setBlockerTasks_find_self hft
    have hc1 : (if task.blockedBy.contains tid then task.blockedBy
        else task.blockedBy ++ [tid]).contains tid = true := by
      split_ifs with hc
      · exact hc
      · exact string_contains_iff.mpr
          (List.mem_append_right _ (List.mem_singleton.mpr rfl))
    have hc2 : (if task.blocks.contains tid then task.blocks
        else task.blocks ++ [tid]).contains tid = true := by
      split_ifs with hc
      · exact hc
      · exact string_contains_iff.mpr
          (List.mem_append_right _ (List.mem_singleton.mpr rfl))
    have hrun2 := setBlocker_of_found hg today tid tid hfind hfind
    rw [hrun2]
    have hT2 : setBlockerTasks tid tid
        { task with
          blockedBy := (if task.blockedBy.contains tid then task.blockedBy
            else task.blockedBy ++ [tid]),
          status := (if task.blockedBy.contains tid then task.status
            else TaskStatus.blocked),
          blocks := (if task.blocks.contains tid then task.blocks
            else task.blocks ++ [tid]) }
        { task with
          blockedBy := (if task.blockedBy.contains tid then task.blockedBy
            else task.blockedBy ++ [tid]),
          status := (if task.blockedBy.contains tid then task.status
            else TaskStatus.blocked),
          blocks := (if task.blocks.contains tid then task.blocks
            else task.blocks ++ [tid]) }
        (setBlockerTasks tid tid task task data.tasks) =
        setBlockerTasks tid tid task task data.tasks := by
      simp only [setBlockerTasks]
      rw [if_pos hc2, if_pos hc1]
    rw [hT2]
    exact congrArg Except.ok (saveProject_resave fs today _)
  · have hfindt := @setBlockerTasks_find_tid data.tasks task blocker tid bid heq hft
    have hfindb := @setBlockerTasks_find_bid data.tasks task blocker tid bid heq hfb
    have hc1 : (if task.blockedBy.contains bid then task
        else { task with
            blockedBy := task.blockedBy ++ [bid],
            status := TaskStatus.blocked }).blockedBy.contains bid = true := by
      split_ifs with hc
      · exact hc
      · exact string_contains_iff.mpr
          (List.mem_append_right _ (List.mem_singleton.mpr rfl))
    have hc2 : (if blocker.blocks.contains tid then blocker
        else { blocker with blocks := blocker.blocks ++ [tid] }).blocks.contains tid
        = true := by
      split_ifs with hc
      · exact hc
      · exact string_contains_iff.mpr
          (List.mem_append_right _ (List.mem_singleton.mpr rfl))
    have hrun2 := setBlocker_of_found hg today tid bid hfindt hfindb
    rw [hrun2]
    have hT2 : setBlockerTasks tid bid
        (if task.blockedBy.contains bid then task
         else { task with
             blockedBy := task.blockedBy ++ [bid],
             status := TaskStatus.blocked })
        (if blocker.blocks.contains tid then blocker
         else { blocker with blocks := blocker.blocks ++ [tid] })
        (setBlockerTasks tid bid task blocker data.tasks) =
        setBlockerTasks tid bid task blocker data.tasks := by
      simp only [setBlockerTasks]
      rw [if_pos hc2, if_pos hc1]
    rw [hT2]
    exact congrArg Except.ok (saveProject_resave fs today _)

/-- C9: self-blocking is permitted at the public interface: linking a task
as its own blocker succeeds with no self-reference check, putting its id in
both its own `blockedBy` and its own `blocks` and forcing status `blocked`;
completing it then removes the self-edge from its `blockedBy` but leaves
its status `completed` and does not report it in `unblocked`. -/
theorem self_block {fs : Fs} {p : String} {data : TaskProject} {tid : String}
    {task : Task} (today today2 : String)
    (h : getProject fs p = some data) (hp : data.project = p)
    (hn : IdsNodup data.tasks) (hft : findTask data.tasks tid = some task)
    (hbb : tid ∉ task.blockedBy) (hbl : tid ∉ task.blocks) :
    ∃ fs2, setBlocker fs today p tid tid = .ok fs2 ∧
      ∃ data2, getProject fs2 p = some data2 ∧
        findTask data2.tasks tid =
          some { task with
            blockedBy := task.blockedBy ++ [tid],
            status := TaskStatus.blocked,
            blocks := task.blocks ++ [tid] } ∧
        ∃ unblocked fs3,
          updateTaskStatus fs2 today2 p tid TaskStatus.completed =
            .ok (({ task with
                blockedBy := task.blockedBy,
                status := TaskStatus.completed,
                blocks := task.blocks ++ [tid] },
              unblocked), fs3) ∧
          tid ∉ unblocked := by
  have hnbb : ¬ (task.blockedBy.contains tid = true) :=
    fun hc => hbb (string_contains_iff.mp hc)
  have hnbl : ¬ (task.blocks.contains tid = true) :=
    fun hc => hbl (string_contains_iff.mp hc)
  have hrun := setBlocker_of_found h today tid tid hft hft
  refine ⟨_, hrun, ?_⟩
  have hg : getProject (saveProject fs today
      { data with tasks := setBlockerTasks tid tid task task data.tasks }) p =
      some { data with
          tasks := setBlockerTasks tid tid task task data.tasks,
          updated := today } := by
    rw [← hp]
    exact getProject_save_self fs today _
  have hR : findTask (setBlockerTasks tid tid task task data.tasks) tid =
      some { task with
        blockedBy := task.blockedBy ++ [tid],
        status := TaskStatus.blocked,
        blocks := task.blocks ++ [tid] } := by
    rw [setBlockerTasks_find_self hft, if_neg hnbb, if_neg hnbb, if_neg hnbl]
  refine ⟨_, hg, hR, ?_⟩
  have hrun2 := updateTaskStatus_of_found hg today2 tid TaskStatus.completed hR
  have hrun2b : updateTaskStatus (saveProject fs today
      { data with tasks := setBlockerTasks tid tid task task data.tasks })
      today2 p tid TaskStatus.completed =
      .ok ((cascadeTask tid { task with
              blockedBy := task.blockedBy ++ [tid],
              status := TaskStatus.completed,
              blocks := task.blocks ++ [tid] },
            ((updateFirst (fun t => t.id == tid)
                (fun t => { t with status := TaskStatus.completed })
                (setBlockerTasks tid tid task task data.tasks)).filter
              (unblockedAfter tid)).map (fun t => t.id)),
           saveProject (saveProject fs today
              { data with tasks := setBlockerTasks tid tid task task data.tasks })
             today2
             { data with
                tasks := ((updateFirst (fun t => t.id == tid)
                  (fun t => { t with status := TaskStatus.completed })
                  (setBlockerTasks tid tid task task data.tasks)).map
                    (cascadeTask tid)),
                updated := today }) := hrun2
  have hc : ((task.blockedBy ++ [tid]).contains tid) = true :=
    string_contains_iff.mpr (List.mem_append_right _ (List.mem_singleton.mpr rfl))
  have hfilter : (task.blockedBy ++ [tid]).filter (fun i => i != tid) =
      task.blockedBy := by
    rw [List.filter_append, filter_ne_of_not_mem hbb]
    simp
  have hX : cascadeTask tid { task with
      blockedBy := task.blockedBy ++ [tid],
      status := TaskStatus.completed,
      blocks := task.blocks ++ [tid] } = { task with
      blockedBy := task.blockedBy,
      status := TaskStatus.completed,
      blocks := task.blocks ++ [tid] } := by
    have hc2 : ({ task with
        blockedBy := task.blockedBy ++ [tid],
        status := TaskStatus.completed,
        blocks := task.blocks ++ [tid] } : Task).blockedBy.contains tid = true := hc
    rw [cascadeTask, if_pos hc2, if_neg ?hne]
    case hne =>
      intro hcond
      cases hcond.2
    show ({ task with
        blockedBy := (task.blockedBy ++ [tid]).filter (fun i => i != tid),
        status := TaskStatus.completed,
        blocks := task.blocks ++ [tid] } : Task) = _
    rw [hfilter]
  have hndT : IdsNodup (setBlockerTasks tid tid task task data.tasks) := by
    simp only [IdsNodup]
    rw [setBlockerTasks_map_id]
    exact hn
  have hnu : tid ∉ ((updateFirst (fun t => t.id == tid)
      (fun t => { t with status := TaskStatus.completed })
      (setBlockerTasks tid tid task task data.tasks)).filter
        (unblockedAfter tid)).map (fun t => t.id) := by
    rw [unblocked_eq tid _ hndT]
    intro hmem
    obtain ⟨u, hu, huid⟩ := List.mem_map.mp hmem
    have hcond := (List.mem_filter.mp hu).2
    simp [unblockedCond, huid] at hcond
  refine ⟨_, saveProject (saveProject fs today
      { data with tasks := setBlockerTasks tid tid task task data.tasks })
      today2
      { data with
          tasks := ((updateFirst (fun t => t.id == tid)
            (fun t => { t with status := TaskStatus.completed })
            (setBlockerTasks tid tid task task data.tasks)).map (cascadeTask tid)),
          updated := today }, ?_, hnu⟩
  rw [← hX]
  exact hrun2b
/-! ## Concrete instantiations -/

def wFsCascade : Fs := saveProject fs0 "2026-01-01" wDataCascade

def wFsPair : Fs := saveProject fs0 "2026-01-01" wDataPair

def wFsSelf : Fs := saveProject fs0 "2026-01-01" wDataSelf

def wFsIds : Fs := saveProject fs0 "2026-01-01" wDataIds

set_option maxRecDepth 100000 in
/-- The forward edge-inverse direction at the state reached by `wOps3`. -/
theorem edge_inverse_forward_witness :
    ∃ tb, findTask wData3.tasks "1" = some tb ∧
      ({ id := "2", subject := "B", status := TaskStatus.blocked,
         blockedBy := ["1"], blocks := [], notes := "" } : Task).id ∈ tb.blocks :=
  edge_inverse_forward wOps3 "p" wData3 (by decide)
    { id := "2", subject := "B", status := TaskStatus.blocked,
      blockedBy := ["1"], blocks := [], notes := "" } (by decide) "1" (by decide)

set_option maxRecDepth 100000 in
/-- The biconditional form of C1 fails on a reachable state: after
`create A; create B; link 2 ← 1; complete 1`, task 1 still lists 2 in
`blocks` while 2 no longer lists 1 in `blockedBy`. -/
theorem edge_inverse_cex :
    ∃ data, getProject (reach cexOps) "p" = some data ∧
      ¬ (∀ t ∈ data.tasks, ∀ tb ∈ data.tasks,
          (tb.id ∈ t.blockedBy ↔ t.id ∈ tb.blocks)) :=
  ⟨cexData, by decide, by decide⟩

set_option maxRecDepth 100000 in
/-- The completion cascade on the four-task scenario. -/
theorem completed_cascade_witness :
    ∃ task2 unblocked fs2,
      updateTaskStatus wFsCascade "2026-01-02" "p" "1" TaskStatus.completed =
        .ok ((task2, unblocked), fs2) ∧
      ∃ data2, getProject fs2 "p" = some data2 ∧
        CascadePost "1" wDataCascade.tasks data2.tasks unblocked :=
  completed_cascade "2026-01-02"
    (show getProject wFsCascade "p" = some wDataCascade from by decide)
    (by decide) (by unfold IdsNodup; decide)
    (show findTask wDataCascade.tasks "1" =
        some { id := "1", subject := "a", status := TaskStatus.in_progress,
               blockedBy := [], blocks := ["2", "3", "4"], notes := "" }
      from by decide)

set_option maxRecDepth 100000 in
/-- Linking 2 ← 1 in the two-task scenario forces task 2 to `blocked` and
adds both edges. -/
theorem linkBlocker_post_witness :
    ∃ fs2, setBlocker wFsPair "2026-01-02" "p" "2" "1" = .ok fs2 ∧
      ∃ data2, getProject fs2 "p" = some data2 ∧
        ∃ task2 blocker2,
          findTask data2.tasks "2" = some task2 ∧
          findTask data2.tasks "1" = some blocker2 ∧
          "1" ∈ task2.blockedBy ∧ "2" ∈ blocker2.blocks ∧
          ("1" ∉ ({ id := "2", subject := "b", status := TaskStatus.pending,
                    blockedBy := [], blocks := [], notes := "" } : Task).blockedBy →
            task2.status = TaskStatus.blocked) :=
  linkBlocker_post "2026-01-02" "2" "1"
    (show getProject wFsPair "p" = some wDataPair from by decide) (by decide)
    (show findTask wDataPair.tasks "2" =
        some { id := "2", subject := "b", status := TaskStatus.pending,
               blockedBy := [], blocks := [], notes := "" }
      from by decide)
    (show findTask wDataPair.tasks "1" =
        some { id := "1", subject := "a", status := TaskStatus.completed,
               blockedBy := [], blocks := [], notes := "" }
      from by decide)

set_option maxRecDepth 100000 in
/-- `addTask` on a project whose stored ids are non-numeric, zero-padded and
duplicated (maximum 7, well inside the float64-exact range). -/
theorem createTask_ids_witness :
    ((addTask wFsIds "2026-01-02" "p" "s").1.status = TaskStatus.pending ∧
     (addTask wFsIds "2026-01-02" "p" "s").1.blockedBy = [] ∧
     (addTask wFsIds "2026-01-02" "p" "s").1.blocks = [] ∧
     (addTask wFsIds "2026-01-02" "p" "s").1.notes = "" ∧
     (addTask wFsIds "2026-01-02" "p" "s").1.id =
       intToString (maxNumericId wDataIds.tasks + 1) ∧
     getProject (addTask wFsIds "2026-01-02" "p" "s").2 wDataIds.project =
       some { wDataIds with
           tasks := wDataIds.tasks ++ [(addTask wFsIds "2026-01-02" "p" "s").1],
           updated := "2026-01-02" }) ∧
    ((addTask wFsIds "2026-01-02" "p" "s").1.id =
       natToString ((maxNumericId wDataIds.tasks).toNat + 1) ∧
     addOneF (maxNumericIdF wDataIds.tasks) =
       some ((maxNumericId wDataIds.tasks).toNat + 1)) :=
  createTask_ids.1 wFsIds "p" wDataIds "2026-01-02" "s"
    (show getProject wFsIds "p" = some wDataIds from by decide) (by decide)

/-- The NotFound errors against the empty store. -/
theorem notfound_errors_atomic_witness :
    updateTaskStatus fs0 "2026-01-01" "p" "1" TaskStatus.pending =
      .error (.projectNotFound "p") ∧
    setBlocker fs0 "2026-01-01" "p" "1" "2" = .error (.projectNotFound "p") ∧
    updateTaskNotes fs0 "2026-01-01" "p" "1" "n" = .error (.projectNotFound "p") ∧
    applyOp fs0 (Op.set_status "2026-01-01" "p" "1" TaskStatus.pending) = fs0 ∧
    applyOp fs0 (Op.link "2026-01-01" "p" "1" "2") = fs0 ∧
    applyOp fs0 (Op.set_notes "2026-01-01" "p" "1" "n") = fs0 :=
  (notfound_errors_atomic fs0 "2026-01-01" "p" "1" "2" "n" TaskStatus.pending).1
    (by rfl)

set_option maxRecDepth 100000 in
/-- C5 counterexample: the original "record absent" hypothesis (the typed
load returning `none`) also covers `fsJunk`, whose file parses successfully
to a junk value: the raw load the source performs returns that truthy
value, so the `if (!project)` guard of src/index.ts:157 does not fire and
the next line reads `project.tasks` — a field the value lacks — throwing a
TypeError on `undefined.find` rather than the claimed NotFound. -/
theorem notfound_cex :
    getProject fsJunk "p" = none ∧
    getProjectRaw fsJunk "p" = some junkJson ∧
    jlookup [("status", Json.jstr "active")] "tasks" = none := by
  refine ⟨rfl, rfl, rfl⟩

set_option maxRecDepth 100000 in
/-- The double-link run on the two-task scenario. -/
theorem linkBlocker_idempotent_witness :
    ∃ fs2, setBlocker wFsPair "2026-01-02" "p" "2" "1" = .ok fs2 ∧
      setBlocker fs2 "2026-01-02" "p" "2" "1" = .ok fs2 :=
  linkBlocker_idempotent "2026-01-02" "2" "1"
    (show getProject wFsPair "p" = some wDataPair from by decide) (by decide)
    (show findTask wDataPair.tasks "2" =
        some { id := "2", subject := "b", status := TaskStatus.pending,
               blockedBy := [], blocks := [], notes := "" }
      from by decide)
    (show findTask wDataPair.tasks "1" =
        some { id := "1", subject := "a", status := TaskStatus.completed,
               blockedBy := [], blocks := [], notes := "" }
      from by decide)

/-- A stored file holding text `JSON.parse` rejects loads as absent. -/
theorem reads_never_fail_witness :
    getProjectRaw { tasksFiles := some [("p.json", "\x7b")], plansFiles := some [] }
      "p" = none :=
  reads_never_fail.2.2.2.2.1 [("p.json", "\x7b")] (some []) "p" "\x7b"
    (by decide) (by rfl)

set_option maxRecDepth 100000 in
/-- C8 counterexample: the wrong-shape record is not treated as absent: the
typed view (the original claim's reading) says `none`, but the raw load the
source performs returns the junk value, and the active listing — which
tests only `status === "active"` — includes it. -/
theorem reads_never_fail_cex :
    getProject fsJunk "p" = none ∧
    getProjectRaw fsJunk "p" = some junkJson ∧
    getActiveProjectsRaw fsJunk = [junkJson] := by
  refine ⟨rfl, rfl, rfl⟩

set_option maxRecDepth 100000 in
/-- Self-blocking task 1, then completing it. -/
theorem self_block_witness :
    ∃ fs2, setBlocker wFsSelf "2026-01-02" "p" "1" "1" = .ok fs2 ∧
      ∃ data2, getProject fs2 "p" = some data2 ∧
        findTask data2.tasks "1" =
          some { id := "1", subject := "a", status := TaskStatus.blocked,
                 blockedBy := ["1"], blocks := ["1"], notes := "" } ∧
        ∃ unblocked fs3,
          updateTaskStatus fs2 "2026-01-03" "p" "1" TaskStatus.completed =
            .ok (({ id := "1", subject := "a", status := TaskStatus.completed,
                    blockedBy := [], blocks := ["1"], notes := "" },
              unblocked), fs3) ∧
          "1" ∉ unblocked :=
  self_block "2026-01-02" "2026-01-03"
    (show getProject wFsSelf "p" = some wDataSelf from by decide)
    (by decide) (by unfold IdsNodup; decide)
    (show findTask wDataSelf.tasks "1" =
        some { id := "1", subject := "a", status := TaskStatus.pending,
               blockedBy := [], blocks := [], notes := "" }
      from by decide)
    (by decide) (by decide)

set_option maxRecDepth 100000 in
/-- The id assigned over the messy-id store differs from the stored "7". -/
theorem addTask_id_fresh_witness :
    ({ id := "7", subject := "c", status := TaskStatus.in_progress,
       blockedBy := [], blocks := [], notes := "" } : Task).id ≠
      (addTask wFsIds "2026-01-02" "p" "s").1.id :=
  (addTask_id_fresh "2026-01-02" "s"
    (show getProject wFsIds "p" = some wDataIds from by decide) (by decide)).1
    { id := "7", subject := "c", status := TaskStatus.in_progress,
      blockedBy := [], blocks := [], notes := "" } (by decide)

end OpenClawTasks
